import Mathlib

/-!
# Bounded top-K container (`package topk`)

A shallow embedding of `topk.go`: the `comparables` adapter, the `topK` heap-backed
container, the package-level `Push` and `Get`, and the two standard-library drivers they
run on (`container/heap` and `sort`).

Conventions of the embedding.

* A Go `interface{}` element is a value of an arbitrary type `α`; a comparator is a total
  function `α → α → Bool`.
* A slice is a `List`; the length of a slice is far below `2^62`, so the index arithmetic
  of `container/heap` (`2*i + 1`) never wraps and indices are natural numbers.  The only
  negative index the code can form is `len - 1` on an empty slice, which is modelled
  explicitly as a panic.
* A run-time panic (index out of range, negative capacity) is the result `none`.  Loops of
  the library are driven by a fuel argument; running out of fuel is `none` as well, and
  the totality lemmas show that the fuel handed over by the callers always suffices.
* `sort.Sort` is the library's pattern-defeating quicksort (`pdqsort` and its helpers, as
  of Go 1.19): insertion sort on ranges of at most twelve elements, heap sort when the
  limit of bad pivots is used up, partitioning otherwise.  It is written over a record of
  the three `sort.Interface` methods, so the same code runs on both embeddings below.  The
  pseudo-random generator that `breakPatterns` draws from is an argument `next` of the
  sort and of `Get`; the library's generator is `sort.xorshiftNext`, and every property
  below holds for every generator.
* The largest capacity that `make` accepts depends on the platform.  `New` leaves that
  limit out; `NewWithin` is `New` with the limit as a parameter.
* A container carries its storage as a value.  Where a property is about what a call
  writes (the package-level `Get` must not touch the storage), the code is embedded a
  second time over a store of backing arrays (`namespace stored`), and the two embeddings
  are shown to agree.
-/

namespace topk

/-! ## Data model -/

/-- The comparator type `Less`: reports whether the first argument is "less than" the second. -/
abbrev Less (α : Type) : Type := α → α → Bool

/-- The adapter `comparables`: a slice of values together with its comparator. -/
structure comparables (α : Type) where
  values : List α
  isLess : Less α

namespace comparables

variable {α : Type}

/-- Method `Len` of the adapter: the length of the slice. -/
def Len (c : comparables α) : Nat := c.values.length

/-- Method `IsLess` of the adapter: applies the comparator. -/
def IsLess (c : comparables α) (a b : α) : Bool := c.isLess a b

/-- Method `Less(i, j)` of the adapter: compares the values at two indices; an index outside the
slice panics. -/
def Less (c : comparables α) (i j : Nat) : Option Bool :=
  match c.values[i]?, c.values[j]? with
  | some a, some b => some (c.IsLess a b)
  | _, _ => none

/-- Method `Swap(i, j)` of the adapter: `values[i], values[j] = values[j], values[i]`; an index
outside the slice panics. -/
def Swap (c : comparables α) (i j : Nat) : Option (comparables α) :=
  match c.values[i]?, c.values[j]? with
  | some a, some b => some { c with values := (c.values.set i b).set j a }
  | _, _ => none

end comparables

/-- The container `topK`: the capacity `k` and the embedded adapter. -/
structure topK (α : Type) extends comparables α where
  k : Int

namespace topK

variable {α : Type}

/-- Promoted `Len`. -/
def Len (t : topK α) : Nat := t.tocomparables.Len

/-- Promoted `IsLess`. -/
def IsLess (t : topK α) (a b : α) : Bool := t.tocomparables.IsLess a b

/-- Promoted `Less(i, j)`. -/
def Less (t : topK α) (i j : Nat) : Option Bool := t.tocomparables.Less i j

/-- Promoted `Swap(i, j)`: the swap happens in the embedded adapter. -/
def Swap (t : topK α) (i j : Nat) : Option (topK α) :=
  match t.tocomparables.Swap i j with
  | some c => some { t with tocomparables := c }
  | none => none

/-- Method `Push` of `heap.Interface`: appends `x` to the slice. -/
def Push (t : topK α) (x : α) : topK α :=
  { t with values := t.values ++ [x] }

/-- Method `Pop` of `heap.Interface`: removes and returns the last element of the slice;
panics on an empty container. -/
def Pop (t : topK α) : Option (α × topK α) :=
  let n := t.values.length
  if n = 0 then none
  else
    match t.values[n - 1]? with
    | some x => some (x, { t with values := t.values.take (n - 1) })
    | none => none

/-- Method `Peek`: the element at index 0; panics on an empty container. -/
def Peek (t : topK α) : Option α := t.values[0]?

/-- Method `Get`: the live view of the storage. -/
def Get (t : topK α) : List α := t.values

/-- Method `K`: the capacity. -/
def K (t : topK α) : Int := t.k

end topK

/-! ## `container/heap` run on a `topK` -/

namespace heap

variable {α : Type}

/-- The loop of `heap.up`: while `j` has a parent `i = (j - 1) / 2` different from `j` and
the value at `j` is less than the one at `i`, swap them and continue at `i`.  (For `j = 0`
Go computes `(0 - 1) / 2 = 0`, as truncated natural subtraction does.) -/
def upLoop : Nat → topK α → Nat → Option (topK α)
  | 0, _, _ => none
  | fuel + 1, h, j =>
    let i := (j - 1) / 2
    if i = j then some h
    else
      match h.Less j i with
      | none => none
      | some false => some h
      | some true =>
        match h.Swap i j with
        | none => none
        | some h' => upLoop fuel h' i

/-- Function `heap.up(h, j)`. -/
def up (h : topK α) (j : Nat) : Option (topK α) := upLoop (j + 1) h j

/-- The loop of `heap.down`: returns the final container and the final position `i`. -/
def downLoop : Nat → topK α → Nat → Nat → Option (topK α × Nat)
  | 0, _, _, _ => none
  | fuel + 1, h, i, n =>
    let j1 := 2 * i + 1
    if n ≤ j1 then some (h, i)
    else
      let j2 := j1 + 1
      match (if j2 < n then h.Less j2 j1 else some false) with
      | none => none
      | some r =>
        let j := if r then j2 else j1
        match h.Less j i with
        | none => none
        | some false => some (h, i)
        | some true =>
          match h.Swap i j with
          | none => none
          | some h' => downLoop fuel h' j n

/-- Function `heap.down(h, i0, n)`: returns the container and whether the element moved. -/
def down (h : topK α) (i0 n : Nat) : Option (topK α × Bool) :=
  match downLoop (n + 1) h i0 n with
  | some (h', i) => some (h', decide (i0 < i))
  | none => none

/-- Function `heap.Push(h, x)`: `h.Push(x)` followed by `up(h, h.Len() - 1)`. -/
def Push (h : topK α) (x : α) : Option (topK α) :=
  let h1 := h.Push x
  up h1 (h1.Len - 1)

/-- Function `heap.Pop(h)`: `n := h.Len() - 1; h.Swap(0, n); down(h, 0, n); return h.Pop()`.
On an empty container `n` is `-1` and the swap panics. -/
def Pop (h : topK α) : Option (α × topK α) :=
  if h.Len = 0 then none
  else
    let n := h.Len - 1
    match h.Swap 0 n with
    | none => none
    | some h1 =>
      match down h1 0 n with
      | none => none
      | some (h2, _) => h2.Pop

end heap

/-! ## `sort` run through `Len` / `Less` / `Swap`

The functions of `sort.Sort` as the library defines them for a `sort.Interface`:
`insertionSort`, `siftDown`, `heapSort`, `pdqsort` with `partition`, `partitionEqual`,
`partialInsertionSort`, `breakPatterns`, `choosePivot` and `reverseRange`. -/

namespace sort

/-- The method set `sort.Interface` over a state `σ`. -/
structure Interface (σ : Type) where
  Len : σ → Nat
  Less : σ → Nat → Nat → Option Bool
  Swap : σ → Nat → Nat → Option σ

variable {σ : Type}

/-- Wrapper `sort.Reverse`: `Less(i, j)` of the wrapper is `Less(j, i)` of the wrapped value. -/
def Reverse (I : Interface σ) : Interface σ :=
  { I with Less := fun d i j => I.Less d j i }

/-- Inner loop of `insertionSort(data, a, b)`:
`for j := i; j > a && data.Less(j, j-1); j-- { data.Swap(j, j-1) }`, with `j = a + m`. -/
def insertLoop (I : Interface σ) (a : Nat) : Nat → σ → Option σ
  | 0, d => some d
  | m + 1, d =>
    match I.Less d (a + m + 1) (a + m) with
    | none => none
    | some false => some d
    | some true =>
      match I.Swap d (a + m + 1) (a + m) with
      | none => none
      | some d' => insertLoop I a m d'

/-- Outer loop of `insertionSort(data, a, b)`: `for i := a + 1; i < b; i++`, with `r` the
number of iterations still to run. -/
def insertionLoop (I : Interface σ) (a : Nat) : Nat → Nat → σ → Option σ
  | 0, _, d => some d
  | r + 1, i, d =>
    match insertLoop I a (i - a) d with
    | none => none
    | some d' => insertionLoop I a r (i + 1) d'

/-- Function `insertionSort(data, a, b)`. -/
def insertionSort (I : Interface σ) (d : σ) (a b : Nat) : Option σ :=
  insertionLoop I a (b - (a + 1)) (a + 1) d

/-- The loop of `siftDown(data, lo, hi, first)`, at the position `root`. -/
def siftDownLoop (I : Interface σ) (hi first : Nat) : Nat → σ → Nat → Option σ
  | 0, _, _ => none
  | fuel + 1, d, root =>
    let child := 2 * root + 1
    if hi ≤ child then some d
    else
      match (if child + 1 < hi then I.Less d (first + child) (first + child + 1)
        else some false) with
      | none => none
      | some r =>
        let child := if r then child + 1 else child
        match I.Less d (first + root) (first + child) with
        | none => none
        | some false => some d
        | some true =>
          match I.Swap d (first + root) (first + child) with
          | none => none
          | some d' => siftDownLoop I hi first fuel d' child

/-- Function `siftDown(data, lo, hi, first)`. -/
def siftDown (I : Interface σ) (d : σ) (lo hi first : Nat) : Option σ :=
  siftDownLoop I hi first (hi + 1) d lo

/-- First loop of `heapSort`: `for i := (hi - 1) / 2; i >= 0; i-- { siftDown(data, i, hi,
first) }`, with `n = i + 1`. -/
def heapBuild (I : Interface σ) (hi first : Nat) : Nat → σ → Option σ
  | 0, d => some d
  | i + 1, d =>
    match siftDown I d i hi first with
    | none => none
    | some d' => heapBuild I hi first i d'

/-- Second loop of `heapSort`: `for i := hi - 1; i >= 0; i-- { data.Swap(first, first+i);
siftDown(data, lo, i, first) }`, with `n = i + 1` and `lo = 0`. -/
def heapPop (I : Interface σ) (first : Nat) : Nat → σ → Option σ
  | 0, d => some d
  | i + 1, d =>
    match I.Swap d first (first + i) with
    | none => none
    | some d1 =>
      match siftDown I d1 0 i first with
      | none => none
      | some d2 => heapPop I first i d2

/-- Function `heapSort(data, a, b)`. -/
def heapSort (I : Interface σ) (d : σ) (a b : Nat) : Option σ :=
  let first := a
  let hi := b - a
  match heapBuild I hi first ((hi - 1) / 2 + 1) d with
  | none => none
  | some d' => heapPop I first hi d'

/-- A loop `for i <= j && cond(i) { i++ }`; returns the final `i`. -/
def scanUp (cond : Nat → Option Bool) (j : Nat) : Nat → Nat → Option Nat
  | 0, _ => none
  | fuel + 1, i =>
    if i ≤ j then
      match cond i with
      | none => none
      | some true => scanUp cond j fuel (i + 1)
      | some false => some i
    else some i

/-- A loop `for i <= j && cond(j) { j-- }`; returns the final `j`. -/
def scanDown (cond : Nat → Option Bool) (i : Nat) : Nat → Nat → Option Nat
  | 0, _ => none
  | fuel + 1, j =>
    if i ≤ j then
      match cond j with
      | none => none
      | some true => scanDown cond i fuel (j - 1)
      | some false => some j
    else some j

/-- The negation of a comparison that may panic. -/
def notLess (r : Option Bool) : Option Bool :=
  match r with
  | some b => some (!b)
  | none => none

/-- The main loop of `partition`: both scans, then `if i > j { break }`, the swap, `i++`,
`j--`.  Returns the final `j`. -/
def partitionLoop (I : Interface σ) (a : Nat) : Nat → σ → Nat → Nat → Option (σ × Nat)
  | 0, _, _, _ => none
  | fuel + 1, d, i, j =>
    match scanUp (fun i => I.Less d i a) j (j + 2 - i) i with
    | none => none
    | some i =>
      match scanDown (fun j => notLess (I.Less d j a)) i (j + 2 - i) j with
      | none => none
      | some j =>
        if j < i then some (d, j)
        else
          match I.Swap d i j with
          | none => none
          | some d' => partitionLoop I a fuel d' (i + 1) (j - 1)

/-- Function `partition(data, a, b, pivot)`: returns the new position of the pivot and
whether the slice was already partitioned. -/
def partition (I : Interface σ) (d : σ) (a b pivot : Nat) : Option (σ × Nat × Bool) :=
  match I.Swap d a pivot with
  | none => none
  | some d =>
    let i := a + 1
    let j := b - 1
    match scanUp (fun i => I.Less d i a) j (j + 2 - i) i with
    | none => none
    | some i =>
      match scanDown (fun j => notLess (I.Less d j a)) i (j + 2 - i) j with
      | none => none
      | some j =>
        if j < i then
          match I.Swap d j a with
          | none => none
          | some d => some (d, j, true)
        else
          match I.Swap d i j with
          | none => none
          | some d =>
            match partitionLoop I a (j + 2 - i) d (i + 1) (j - 1) with
            | none => none
            | some (d, j) =>
              match I.Swap d j a with
              | none => none
              | some d => some (d, j, false)

/-- The loop of `partitionEqual`; returns the final `i`. -/
def partitionEqualLoop (I : Interface σ) (a : Nat) : Nat → σ → Nat → Nat → Option (σ × Nat)
  | 0, _, _, _ => none
  | fuel + 1, d, i, j =>
    match scanUp (fun i => notLess (I.Less d a i)) j (j + 2 - i) i with
    | none => none
    | some i =>
      match scanDown (fun j => I.Less d a j) i (j + 2 - i) j with
      | none => none
      | some j =>
        if j < i then some (d, i)
        else
          match I.Swap d i j with
          | none => none
          | some d' => partitionEqualLoop I a fuel d' (i + 1) (j - 1)

/-- Function `partitionEqual(data, a, b, pivot)`. -/
def partitionEqual (I : Interface σ) (d : σ) (a b pivot : Nat) : Option (σ × Nat) :=
  match I.Swap d a pivot with
  | none => none
  | some d => partitionEqualLoop I a (b + 1 - a) d (a + 1) (b - 1)

/-- The loop `for j := i + 1; j < b; j++ { if !data.Less(j, j-1) { break };
data.Swap(j, j-1) }` of `partialInsertionSort`, with `n = b - j`. -/
def shiftRight (I : Interface σ) : Nat → Nat → σ → Option σ
  | 0, _, d => some d
  | n + 1, j, d =>
    match I.Less d j (j - 1) with
    | none => none
    | some false => some d
    | some true =>
      match I.Swap d j (j - 1) with
      | none => none
      | some d' => shiftRight I n (j + 1) d'

/-- The loop of `partialInsertionSort(data, a, b)` over at most `maxSteps = 5` steps, with
`shortestShifting = 50`.  The loop `for j := i - 1; j >= 1; j--` that shifts the smaller
element to the left is `insertLoop` with lower bound 0. -/
def partialInsertionLoop (I : Interface σ) (a b : Nat) : Nat → σ → Nat → Option (σ × Bool)
  | 0, d, _ => some (d, false)
  | s + 1, d, i =>
    match scanUp (fun i => notLess (I.Less d i (i - 1))) (b - 1) (b + 1 - i) i with
    | none => none
    | some i =>
      if i = b then some (d, true)
      else if b - a < 50 then some (d, false)
      else
        match I.Swap d i (i - 1) with
        | none => none
        | some d1 =>
          match (if 2 ≤ i - a then insertLoop I 0 (i - 1) d1 else some d1) with
          | none => none
          | some d2 =>
            match (if 2 ≤ b - i then shiftRight I (b - (i + 1)) (i + 1) d2 else some d2) with
            | none => none
            | some d3 => partialInsertionLoop I a b s d3 i

/-- Function `partialInsertionSort(data, a, b)`: returns whether the slice is sorted at the
end. -/
def partialInsertionSort (I : Interface σ) (d : σ) (a b : Nat) : Option (σ × Bool) :=
  partialInsertionLoop I a b 5 d (a + 1)

/-- Function `bits.Len(uint(n))`: the number of bits needed to write `n`. -/
def bitsLenAux : Nat → Nat → Nat
  | 0, _ => 0
  | fuel + 1, n => if n = 0 then 0 else bitsLenAux fuel (n / 2) + 1

/-- Function `bits.Len(uint(n))`. -/
def bitsLen (n : Nat) : Nat := bitsLenAux n n

/-- Method `Next` of `xorshift`, on a 64-bit state: `r ^= r << 13; r ^= r >> 7;
r ^= r << 17`.  It only picks the positions that `breakPatterns` swaps; the theorems about
the sort are stated for an arbitrary generator, and this one is used where a run is
evaluated. -/
def xorshiftNext (r : Nat) : Nat :=
  let r1 := r ^^^ ((r <<< 13) % 2 ^ 64)
  let r2 := r1 ^^^ (r1 >>> 7)
  r2 ^^^ ((r2 <<< 17) % 2 ^ 64)

/-- Function `nextPowerOfTwo(length)`: `1 << bits.Len(uint(length))`. -/
def nextPowerOfTwo (length : Nat) : Nat := 2 ^ bitsLen length

/-- The loop `for i := 0; i < 3; i++` of `breakPatterns`, with `n` iterations left.  The
argument `next` is the generator behind `random.Next()`; the library's is `xorshiftNext`. -/
def breakLoop (next : Nat → Nat) (I : Interface σ) (a length modulus idx : Nat) :
    Nat → Nat → Nat → σ → Option σ
  | 0, _, _, d => some d
  | n + 1, i, random, d =>
    let random := next random
    let other := random &&& (modulus - 1)
    let other := if length ≤ other then other - length else other
    match I.Swap d (idx - 1 + i) (a + other) with
    | none => none
    | some d' => breakLoop next I a length modulus idx n (i + 1) random d'

/-- Function `breakPatterns(data, a, b)`. -/
def breakPatterns (next : Nat → Nat) (I : Interface σ) (d : σ) (a b : Nat) : Option σ :=
  let length := b - a
  if 8 ≤ length then
    let random := length
    let modulus := nextPowerOfTwo length
    let idx := a + (length / 4) * 2 - 1
    breakLoop next I a length modulus idx 3 0 random d
  else some d

/-- Function `order2(data, a, b, swaps)`: the two indices in order, and the swap count. -/
def order2 (I : Interface σ) (d : σ) (a b swaps : Nat) : Option (Nat × Nat × Nat) :=
  match I.Less d b a with
  | none => none
  | some true => some (b, a, swaps + 1)
  | some false => some (a, b, swaps)

/-- Function `median(data, a, b, c, swaps)`: the index of the median, and the swap count. -/
def median (I : Interface σ) (d : σ) (a b c swaps : Nat) : Option (Nat × Nat) :=
  match order2 I d a b swaps with
  | none => none
  | some (a, b, swaps) =>
    match order2 I d b c swaps with
    | none => none
    | some (b, _, swaps) =>
      match order2 I d a b swaps with
      | none => none
      | some (_, b, swaps) => some (b, swaps)

/-- Function `medianAdjacent(data, a, swaps)`. -/
def medianAdjacent (I : Interface σ) (d : σ) (a swaps : Nat) : Option (Nat × Nat) :=
  median I d (a - 1) a (a + 1) swaps

/-- The type `sortedHint`. -/
inductive sortedHint where
  | unknownHint
  | increasingHint
  | decreasingHint
  deriving DecidableEq

/-- Function `choosePivot(data, a, b)`, with `shortestNinther = 50` and `maxSwaps = 12`. -/
def choosePivot (I : Interface σ) (d : σ) (a b : Nat) : Option (Nat × sortedHint) :=
  let l := b - a
  let i := a + l / 4 * 1
  let j := a + l / 4 * 2
  let k := a + l / 4 * 3
  let r : Option (Nat × Nat) :=
    if 8 ≤ l then
      if 50 ≤ l then
        match medianAdjacent I d i 0 with
        | none => none
        | some (i, swaps) =>
          match medianAdjacent I d j swaps with
          | none => none
          | some (j, swaps) =>
            match medianAdjacent I d k swaps with
            | none => none
            | some (k, swaps) => median I d i j k swaps
      else median I d i j k 0
    else some (j, 0)
  match r with
  | none => none
  | some (j, swaps) =>
    if swaps = 0 then some (j, sortedHint.increasingHint)
    else if swaps = 12 then some (j, sortedHint.decreasingHint)
    else some (j, sortedHint.unknownHint)

/-- The loop of `reverseRange`: `for i < j { data.Swap(i, j); i++; j-- }`. -/
def reverseLoop (I : Interface σ) : Nat → Nat → Nat → σ → Option σ
  | 0, _, _, _ => none
  | fuel + 1, i, j, d =>
    if i < j then
      match I.Swap d i j with
      | none => none
      | some d' => reverseLoop I fuel (i + 1) (j - 1) d'
    else some d

/-- Function `reverseRange(data, a, b)`. -/
def reverseRange (I : Interface σ) (d : σ) (a b : Nat) : Option σ :=
  reverseLoop I (b - a + 1) a (b - 1) d

/-- The loop of `pdqsort(data, a, b, limit)` with its two flags, `maxInsertion = 12`.  The
recursive call of `pdqsort` on one side of the pivot is the loop started with both flags
true; the loop then goes on with the other side. -/
def pdqsortLoop (next : Nat → Nat) (I : Interface σ) :
    Nat → σ → Nat → Nat → Nat → Bool → Bool → Option σ
  | 0, _, _, _, _, _, _ => none
  | fuel + 1, d, a, b, limit, wasBalanced, wasPartitioned =>
    let length := b - a
    if length ≤ 12 then insertionSort I d a b
    else if limit = 0 then heapSort I d a b
    else
      match (if wasBalanced then some (d, limit)
        else
          match breakPatterns next I d a b with
          | none => none
          | some d' => some (d', limit - 1)) with
      | none => none
      | some (d, limit) =>
        match choosePivot I d a b with
        | none => none
        | some (pivot, hint) =>
          match (if hint = sortedHint.decreasingHint then
              match reverseRange I d a b with
              | none => none
              | some d' => some (d', (b - 1) - (pivot - a), sortedHint.increasingHint)
            else some (d, pivot, hint)) with
          | none => none
          | some (d, pivot, hint) =>
            match (if wasBalanced && wasPartitioned && hint = sortedHint.increasingHint then
                partialInsertionSort I d a b
              else some (d, false)) with
            | none => none
            | some (d, true) => some d
            | some (d, false) =>
              match (if 0 < a then notLess (I.Less d (a - 1) pivot) else some false) with
              | none => none
              | some true =>
                match partitionEqual I d a b pivot with
                | none => none
                | some (d, mid) =>
                  pdqsortLoop next I fuel d mid b limit wasBalanced wasPartitioned
              | some false =>
                match partition I d a b pivot with
                | none => none
                | some (d, mid, alreadyPartitioned) =>
                  let leftLen := mid - a
                  let rightLen := b - mid
                  let balanceThreshold := length / 8
                  if leftLen < rightLen then
                    match pdqsortLoop next I fuel d a mid limit true true with
                    | none => none
                    | some d =>
                      pdqsortLoop next I fuel d (mid + 1) b limit
                        (decide (balanceThreshold ≤ leftLen)) alreadyPartitioned
                  else
                    match pdqsortLoop next I fuel d (mid + 1) b limit true true with
                    | none => none
                    | some d =>
                      pdqsortLoop next I fuel d a mid limit
                        (decide (balanceThreshold ≤ rightLen)) alreadyPartitioned

/-- Function `pdqsort(data, a, b, limit)`. -/
def pdqsort (next : Nat → Nat) (I : Interface σ) (d : σ) (a b limit : Nat) : Option σ :=
  pdqsortLoop next I (b - a + 1) d a b limit true true

/-- Function `sort.Sort(data)`: `n := data.Len(); if n <= 1 { return }; limit :=
bits.Len(uint(n)); pdqsort(data, 0, n, limit)`. -/
def Sort_ (next : Nat → Nat) (I : Interface σ) (d : σ) : Option σ :=
  let n := I.Len d
  if n ≤ 1 then some d
  else
    let limit := bitsLen n
    pdqsort next I d 0 n limit

end sort

/-- The `sort.Interface` methods of `*comparables`. -/
def comparables.sortInterface (α : Type) : sort.Interface (comparables α) :=
  { Len := comparables.Len, Less := comparables.Less, Swap := comparables.Swap }

/-! ## Package-level functions -/

variable {α : Type}

/-- Function `New(k, l)`: an empty container of capacity `k`; `make([]interface{}, 0, k)`
panics on a negative capacity.  The largest capacity that `make` accepts depends on the
platform and is left out here; `NewWithin` is the same function with that limit. -/
def New (k : Int) (l : Less α) : Option (topK α) :=
  if k < 0 then none else some { values := [], isLess := l, k := k }

/-- Built-in `make([]interface{}, 0, cap)` with the largest capacity `maxCap` that the
runtime accepts for the element type: it panics ("cap out of range") when `cap` is
negative or above `maxCap`, and returns the empty slice otherwise. -/
def makeSlice (α : Type) (maxCap : Nat) (cap : Int) : Option (List α) :=
  if cap < 0 ∨ (maxCap : Int) < cap then none else some []

/-- Function `New(k, l)` with the limit of `make` explicit:
`&topK{k, &comparables{make([]interface{}, 0, k), l}}`. -/
def NewWithin (maxCap : Nat) (k : Int) (l : Less α) : Option (topK α) :=
  match makeSlice α maxCap k with
  | none => none
  | some values => some { values := values, isLess := l, k := k }

/-- Function `Push(t, x)`: below capacity the element is pushed onto the heap; at capacity
it replaces the minimum when the minimum is less than it, and is dropped otherwise. -/
def Push (t : topK α) (x : α) : Option (topK α) :=
  let l := t.Len
  if (l : Int) < t.K then heap.Push t x
  else if 0 < l then
    match t.Peek with
    | none => none
    | some m =>
      if t.IsLess m x then
        match heap.Pop t with
        | none => none
        | some (_, t1) => heap.Push t1 x
      else some t
  else some t

/-- Function `Get(t)`: copies the storage and sorts the copy with
`sort.Sort(sort.Reverse(cmp))`.  The argument `next` is the generator that the sort hands
to `breakPatterns`. -/
def Get (next : Nat → Nat) (t : topK α) : Option (List α) :=
  let vals := t.Get
  let cmp : comparables α := { values := vals, isLess := t.IsLess }
  match sort.Sort_ next (sort.Reverse (comparables.sortInterface α)) cmp with
  | some c => some c.values
  | none => none

/-- Function `IntComparator`. -/
def IntComparator : Less Int := fun a b => decide (a < b)

/-- Pushing a list of elements in order, starting from a given container. -/
def pushAll (t : topK α) : List α → Option (topK α)
  | [] => some t
  | x :: xs =>
    match Push t x with
    | none => none
    | some t' => pushAll t' xs

/-- The container obtained from `New(k, l)` by pushing the elements of `xs` in order. -/
def run (k : Int) (l : Less α) (xs : List α) : Option (topK α) :=
  match New k l with
  | none => none
  | some t => pushAll t xs

/-- A container is reachable when it is obtained from `New(k, l)` by pushes. -/
def Reachable (k : Int) (l : Less α) (t : topK α) : Prop :=
  ∃ xs : List α, run k l xs = some t

/-! ## Specification vocabulary -/

/-- A strict weak ordering: irreflexive, transitive, and with a transitive incomparability
relation. -/
structure StrictWeakOrder {α : Type} (less : Less α) : Prop where
  irrefl : ∀ a, less a a = false
  trans : ∀ a b c, less a b = true → less b c = true → less a c = true
  incomp_trans : ∀ a b c, less a b = false → less b a = false →
    less b c = false → less c b = false → less a c = false ∧ less c a = false

variable {α : Type}

/-- The heap edge at position `c`: the value at `c` is not less than the value at its
parent `(c - 1) / 2`. -/
def EdgeOk (less : Less α) (v : List α) (c : Nat) : Prop :=
  ∀ a p, v[c]? = some a → v[(c - 1) / 2]? = some p → less a p = false

/-- The first `n` positions of `v` form a binary min-heap. -/
def IsHeapUpTo (less : Less α) (v : List α) (n : Nat) : Prop :=
  ∀ c, 0 < c → c < n → EdgeOk less v c

/-- The slice `v` is a binary min-heap: every position `1 ≤ c < len(v)` holds a value that
is not less than the value at its parent. -/
def IsHeap (less : Less α) (v : List α) : Prop :=
  ∀ c, 0 < c → c < v.length → EdgeOk less v c

/-- Loop invariant of `heap.up` at position `j`: every edge except the one above `j` is in
order, and the children of `j` are in order with the parent of `j`. -/
def UpInv (less : Less α) (v : List α) (j : Nat) : Prop :=
  (∀ c, 0 < c → c ≠ j → EdgeOk less v c) ∧
  (0 < j → ∀ c, (c - 1) / 2 = j → ∀ a g, v[c]? = some a → v[(j - 1) / 2]? = some g →
    less a g = false)

/-- Loop invariant of `heap.down` at position `i` on the first `n` positions: every edge
except those below `i` is in order, and the children of `i` are in order with the parent
of `i`. -/
def DownInv (less : Less α) (v : List α) (n i : Nat) : Prop :=
  (∀ c, 0 < c → c < n → (c - 1) / 2 ≠ i → EdgeOk less v c) ∧
  (0 < i → ∀ c, c < n → (c - 1) / 2 = i → ∀ a g, v[c]? = some a →
    v[(i - 1) / 2]? = some g → less a g = false)

/-- The storage `w` holds a top-K selection of the pushed elements `xs`: it has
`min(len(xs), k)` elements and, when the comparator is a strict weak ordering, it is a heap
and splits `xs` into the retained elements and a remainder none of which a retained
element is less than. -/
def RetainsTop (less : Less α) (k : Int) (xs w : List α) : Prop :=
  (w.length : Int) = min (xs.length : Int) k ∧
  (StrictWeakOrder less → IsHeap less w ∧
    ∃ d, List.Perm xs (w ++ d) ∧ ∀ r, r ∈ w → ∀ y, y ∈ d → less r y = false)

/-- A slice is ascending for `ord`: no later value is less than an earlier one. -/
def Ascending (ord : Less α) (l : List α) : Prop :=
  l.Pairwise (fun a b => ord b a = false)

/-- The method set `I`, run on a `comparables` with comparator `less`, behaves as the
slice methods with the value order `ord`. -/
structure Drives (I : sort.Interface (comparables α)) (less ord : Less α) : Prop where
  len : ∀ v, I.Len ⟨v, less⟩ = v.length
  less_eq : ∀ v i j a b, v[i]? = some a → v[j]? = some b →
    I.Less ⟨v, less⟩ i j = some (ord a b)
  swap_eq : ∀ v i j a b, v[i]? = some a → v[j]? = some b →
    I.Swap ⟨v, less⟩ i j = some ⟨(v.set i b).set j a, less⟩

/-! ## Reference notions used to state the properties -/

/-- The descending sort of a list of ints. -/
def sortDescending (l : List Int) : List Int := l.insertionSort (fun a b => a ≥ b)

/-- The stable descending sort for a comparator: an element is placed in front of the
first later element that is not greater than it, so tied elements keep their arrival order. -/
def stableSortDesc (less : Less α) (xs : List α) : List α :=
  xs.insertionSort (fun a b => less a b = false)

/-- The first greatest element of `c :: xs` in arrival order: the candidate `c` is replaced
by a later element only when it is less than that element. -/
def firstMax (less : Less α) : α → List α → α
  | c, [] => c
  | c, x :: xs => firstMax less (if less c x then x else c) xs

/-- A comparator on (key, arrival number) pairs that compares the keys only, so that
elements with equal keys are tied but distinguishable. -/
def keyLess : Less (Nat × Nat) := fun a b => decide (a.1 < b.1)

/-- The ascending sort of a list of ints. -/
def sortAscending (l : List Int) : List Int := l.insertionSort (fun a b => a ≤ b)

/-! ## The same code over a store of backing arrays

In the embedding above a container carries its storage as a value, so a function that is
handed a container cannot write to it.  To state that the package-level `Get` leaves the
storage of the container alone, `comparables`, `topK` and `Get` are embedded once more with
slices that live in a store: a slice is the address of its backing array, and two slices
with the same address are the same memory. -/

namespace stored

/-- A store of backing arrays, indexed by address. -/
abbrev Store (α : Type) : Type := List (List α)

/-- The adapter `comparables` with its slice `values` given by the address of its backing
array. -/
structure comparables (α : Type) where
  values : Nat
  isLess : Less α

namespace comparables

/-- The value of a stored adapter: the slice it points to, with its comparator. -/
def load (s : Store α) (c : comparables α) : Option (topk.comparables α) :=
  match s[c.values]? with
  | some v => some { values := v, isLess := c.isLess }
  | none => none

/-- Method `Len` of the stored adapter. -/
def Len (d : Store α × comparables α) : Nat :=
  match d.2.load d.1 with
  | some c => c.Len
  | none => 0

/-- Method `Less(i, j)` of the stored adapter: reads the two positions of the backing array. -/
def Less (d : Store α × comparables α) (i j : Nat) : Option Bool :=
  match d.2.load d.1 with
  | some c => c.Less i j
  | none => none

/-- Method `Swap(i, j)` of the stored adapter: writes the two positions of the backing array. -/
def Swap (d : Store α × comparables α) (i j : Nat) : Option (Store α × comparables α) :=
  match d.2.load d.1 with
  | some c =>
    match c.Swap i j with
    | some c' => some (d.1.set d.2.values c'.values, d.2)
    | none => none
  | none => none

/-- The `sort.Interface` methods of a stored `*comparables`. -/
def sortInterface (α : Type) : sort.Interface (Store α × comparables α) :=
  { Len := Len, Less := Less, Swap := Swap }

end comparables

/-- The container `topK` with its storage in the store. -/
structure topK (α : Type) extends comparables α where
  k : Int

namespace topK

/-- The value of a stored container. -/
def load (s : Store α) (t : topK α) : Option (topk.topK α) :=
  match s[t.values]? with
  | some v => some { values := v, isLess := t.isLess, k := t.k }
  | none => none

/-- Method `Get`: the live view, that is the storage slice itself. -/
def Get (t : topK α) : Nat := t.values

/-- Promoted `IsLess`. -/
def IsLess (t : topK α) (a b : α) : Bool := t.isLess a b

/-- Method `Peek`: reads index 0 of the storage; returns the element and the store. -/
def Peek (s : Store α) (t : topK α) : Option (α × Store α) :=
  match s[t.values]? with
  | some v =>
    match v[0]? with
    | some x => some (x, s)
    | none => none
  | none => none

end topK

/-- Function `Get(t)` over the store: `vals := t.Get()`, a fresh slice `valsCopy` filled by
`copy(valsCopy, vals)`, `cmp := &comparables{valsCopy, t.IsLess}`, the sort of
`sort.Reverse(cmp)`, and the result `cmp.values`.  Returns the result and the store.  The
argument `next` is the generator that the sort hands to `breakPatterns`. -/
def Get (next : Nat → Nat) (s : Store α) (t : topK α) : Option (List α × Store α) :=
  let vals := t.Get
  match s[vals]? with
  | none => none
  | some v =>
    let valsCopy := s.length
    let s1 := s ++ [v]
    let cmp : comparables α := { values := valsCopy, isLess := t.IsLess }
    match sort.Sort_ next (sort.Reverse (comparables.sortInterface α)) (s1, cmp) with
    | some (s2, c) =>
      match s2[c.values]? with
      | some r => some (r, s2)
      | none => none
    | none => none

end stored

/-! ## Vocabulary for the sort on a range -/

/-- Every value at a position of `[a, b)` satisfies `P`. -/
def AllOn {α : Type} (P : α → Prop) (v : List α) (a b : Nat) : Prop :=
  ∀ i x, a ≤ i → i < b → v[i]? = some x → P x

/-- The slice `w` comes from `v` by rearranging the positions of `[a, b)` only. -/
def Within {α : Type} (v w : List α) (a b : Nat) : Prop :=
  List.Perm w v ∧ (∀ c, c < a ∨ b ≤ c → w[c]? = v[c]?) ∧
  ∀ P : α → Prop, AllOn P v a b → AllOn P w a b

/-- The positions of `[a, b)` are ascending for `ord`: no later value is less than an
earlier one. -/
def SortedOn {α : Type} (ord : Less α) (v : List α) (a b : Nat) : Prop :=
  ∀ i j x y, a ≤ i → i < j → j < b → v[i]? = some x → v[j]? = some y → ord y x = false

/-- The test of the scan of `partialInsertionSort` on values: the value at `k` is not less
than the value before it. -/
def adjacentOk {α : Type} (ord : Less α) (v : List α) (k : Nat) : Bool :=
  match v[k]?, v[k - 1]? with
  | some x, some y => !ord x y
  | _, _ => false

/-- The heap of `heapSort` at offset `first`: for every position `c < hi` whose parent
`(c - 1) / 2` is at least `lo`, the value at the parent is not less than the value at `c`. -/
def HeapOn {α : Type} (ord : Less α) (v : List α) (first lo hi : Nat) : Prop :=
  ∀ c x y, 1 ≤ c → c < hi → lo ≤ (c - 1) / 2 →
    v[first + (c - 1) / 2]? = some x → v[first + c]? = some y → ord x y = false

/-- The state inside `siftDown`: the heap property holds on every edge whose parent is not
`root`, and the children of `root` are not above the parent of `root`. -/
def HeapExcept {α : Type} (ord : Less α) (v : List α) (first lo hi root : Nat) : Prop :=
  (∀ c x y, 1 ≤ c → c < hi → lo ≤ (c - 1) / 2 → (c - 1) / 2 ≠ root →
    v[first + (c - 1) / 2]? = some x → v[first + c]? = some y → ord x y = false) ∧
  (∀ c x y, 1 ≤ root → lo ≤ (root - 1) / 2 → 1 ≤ c → c < hi → (c - 1) / 2 = root →
    v[first + (root - 1) / 2]? = some x → v[first + c]? = some y → ord x y = false)

/-- The positions from `m` on are in their final place: every value at a position of
`[m, b)` is not less than any value before it in `[a, b)`. -/
def SortedFrom {α : Type} (ord : Less α) (v : List α) (a m b : Nat) : Prop :=
  ∀ p q x y, a ≤ p → p < q → m ≤ q → q < b → v[p]? = some x → v[q]? = some y →
    ord y x = false

/-- The method set `I` on states `σ` follows the method set `J` on states `τ` along the
relation `R`: on related states the lengths and the comparisons agree, and a swap that
returns on `J` returns on `I` in related states. -/
structure Simulates {σ τ : Type} (I : sort.Interface σ) (J : sort.Interface τ)
    (R : σ → τ → Prop) : Prop where
  len : ∀ s t, R s t → I.Len s = J.Len t
  less : ∀ s t i j, R s t → I.Less s i j = J.Less t i j
  swap : ∀ s t i j t', R s t → J.Swap t i j = some t' →
    ∃ s', I.Swap s i j = some s' ∧ R s' t'

/-! ## Strict weak orderings -/

namespace StrictWeakOrder

variable {α : Type} {less : Less α}

theorem asymm (h : StrictWeakOrder less) {a b : α} (hab : less a b = true) :
    less b a = false := by
  cases hba : less b a with
  | false => rfl
  | true =>
    have h1 := h.trans a b a hab hba
    rw [h.irrefl a] at h1
    exact absurd h1 (by decide)

/-- Negative transitivity, in the form used for heaps: "not below" composes. -/
theorem not_less_trans (h : StrictWeakOrder less) {a b c : α}
    (hab : less a b = false) (hbc : less b c = false) : less a c = false := by
  cases hac : less a c with
  | false => rfl
  | true =>
    exfalso
    cases hba : less b a with
    | true =>
      have := h.trans b a c hba hac
      rw [hbc] at this
      exact absurd this (by decide)
    | false =>
      cases hcb : less c b with
      | true =>
        have := h.trans a c b hac hcb
        rw [hab] at this
        exact absurd this (by decide)
      | false =>
        have := (h.incomp_trans a b c hab hba hbc hcb).1
        rw [hac] at this
        exact absurd this (by decide)

/-- The flipped comparator of a strict weak ordering is a strict weak ordering. -/
theorem flip (h : StrictWeakOrder less) : StrictWeakOrder (fun a b => less b a) where
  irrefl := h.irrefl
  trans := fun a b c hab hbc => h.trans c b a hbc hab
  incomp_trans := fun a b c h1 h2 h3 h4 =>
    ⟨(h.incomp_trans a b c h2 h1 h4 h3).2, (h.incomp_trans a b c h2 h1 h4 h3).1⟩

end StrictWeakOrder

/-- The comparator `IntComparator` is a strict weak ordering. -/
theorem intComparator_swo : StrictWeakOrder IntComparator where
  irrefl := fun a => by simp [IntComparator]
  trans := fun a b c => by simp only [IntComparator, decide_eq_true_eq]; omega
  incomp_trans := fun a b c => by
    simp only [IntComparator, decide_eq_false_iff_not]; omega

/-! ## Swapping two positions of a list -/

section swap

variable {α : Type}

theorem getElem?_set_set (v : List α) (i j : Nat) (a b : α)
    (hi : v[i]? = some a) (hj : v[j]? = some b) (c : Nat) :
    ((v.set i b).set j a)[c]? =
      if c = j then some a else if c = i then some b else v[c]? := by
  have hil : i < v.length := (List.getElem?_eq_some_iff.mp hi).1
  have hjl : j < v.length := (List.getElem?_eq_some_iff.mp hj).1
  rw [List.getElem?_set, List.getElem?_set]
  by_cases h1 : c = j
  · subst h1; simp [hjl]
  · by_cases h2 : c = i
    · subst h2; simp [h1, Ne.symm h1, hil]
    · simp [h1, h2, Ne.symm h1, Ne.symm h2]

theorem cons_set_perm (x : α) : ∀ (v : List α) (j : Nat) (b : α), v[j]? = some b →
    List.Perm (b :: v.set j x) (x :: v)
  | [], j, b, h => by simp at h
  | y :: w, 0, b, h => by
    simp at h
    subst h
    exact List.Perm.swap _ _ _
  | y :: w, j + 1, b, h => by
    simp at h
    have ih := cons_set_perm x w j b h
    exact (List.Perm.swap _ _ _).trans ((ih.cons y).trans (List.Perm.swap _ _ _))

theorem set_set_perm : ∀ (v : List α) (i j : Nat) (a b : α),
    v[i]? = some a → v[j]? = some b → List.Perm ((v.set i b).set j a) v
  | [], i, j, a, b, hi, _ => by simp at hi
  | x :: w, 0, 0, a, b, hi, hj => by
    simp at hi hj
    subst hi
    simp
  | x :: w, 0, j + 1, a, b, hi, hj => by
    simp at hi hj
    subst hi
    simpa using cons_set_perm x w j b hj
  | x :: w, i + 1, 0, a, b, hi, hj => by
    simp at hi hj
    subst hj
    simpa using cons_set_perm x w i a hi
  | x :: w, i + 1, j + 1, a, b, hi, hj => by
    simp at hi hj
    simpa using (set_set_perm w i j a b hi hj).cons x

end swap

/-! ## The heap loops -/

section heapUp

variable {α : Type}

theorem Less_mk (v : List α) (less : Less α) (k : Int) (i j : Nat) (a b : α)
    (hi : v[i]? = some a) (hj : v[j]? = some b) :
    topK.Less ⟨⟨v, less⟩, k⟩ i j = some (less a b) := by
  simp [topK.Less, comparables.Less, comparables.IsLess, hi, hj]

theorem Swap_mk (v : List α) (less : Less α) (k : Int) (i j : Nat) (a b : α)
    (hi : v[i]? = some a) (hj : v[j]? = some b) :
    topK.Swap ⟨⟨v, less⟩, k⟩ i j = some ⟨⟨(v.set i b).set j a, less⟩, k⟩ := by
  simp [topK.Swap, comparables.Swap, hi, hj]

theorem getElem?_some_of_lt (v : List α) (i : Nat) (h : i < v.length) :
    ∃ a, v[i]? = some a := ⟨v[i], List.getElem?_eq_getElem h⟩

/-- One step of `heap.up` keeps the loop invariant. -/
theorem upInv_swap {less : Less α} (swo : StrictWeakOrder less) (v : List α) (j : Nat)
    (a b : α) (hne : (j - 1) / 2 ≠ j) (hj : v[j]? = some a) (hi : v[(j - 1) / 2]? = some b)
    (hlt : less a b = true) (inv : UpInv less v j) :
    UpInv less ((v.set ((j - 1) / 2) a).set j b) ((j - 1) / 2) := by
  have hg := getElem?_set_set v ((j - 1) / 2) j b a hi hj
  obtain ⟨hedge, hgp⟩ := inv
  have hj0 : 0 < j := by omega
  refine ⟨?_, ?_⟩
  · intro c hc0 hci x p hx hp
    rw [hg] at hx hp
    by_cases hcj : c = j
    · subst hcj
      simp [hne] at hx hp
      subst hx; subst hp
      exact swo.asymm hlt
    · simp only [hcj, hci, if_false] at hx
      by_cases hpj : (c - 1) / 2 = j
      · simp only [hpj, if_true] at hp
        cases hp
        -- `c` is a child of `j`: use the grandparent clause
        exact hgp hj0 c hpj x b hx hi
      · simp only [hpj, if_false] at hp
        by_cases hpi : (c - 1) / 2 = (j - 1) / 2
        · simp only [hpi, if_true] at hp
          cases hp
          -- `c` is a sibling of `j`
          have h1 : less x b = false := hedge c hc0 hcj x b hx (hpi ▸ hi)
          cases hxa : less x a with
          | false => rfl
          | true =>
            have := swo.trans x a b hxa hlt
            rw [h1] at this
            exact absurd this (by decide)
        · simp only [hpi, if_false] at hp
          exact hedge c hc0 hcj x p hx hp
  · intro hi0 c hpc x g hx hgv
    rw [hg] at hx hgv
    have hgi : ¬ ((j - 1) / 2 - 1) / 2 = j := by omega
    have hgi2 : ¬ ((j - 1) / 2 - 1) / 2 = (j - 1) / 2 := by omega
    simp only [hgi, hgi2, if_false] at hgv
    have hbg : less b g = false := hedge ((j - 1) / 2) hi0 (by omega) b g hi hgv
    by_cases hcj : c = j
    · subst hcj
      simp at hx
      subst hx
      exact hbg
    · have hci : ¬ c = (j - 1) / 2 := by omega
      simp only [hcj, hci, if_false] at hx
      have hxb : less x b = false := hedge c (by omega) hcj x b hx (hpc ▸ hi)
      exact swo.not_less_trans hxb hbg

/-- When `heap.up` stops at the root, the invariant is the heap property. -/
theorem upInv_root {less : Less α} (v : List α) (j : Nat) (hj : (j - 1) / 2 = j)
    (inv : UpInv less v j) : IsHeap less v := by
  intro c hc0 _
  exact inv.1 c hc0 (by omega)

/-- When `heap.up` stops because the value is not less than its parent, the invariant is
the heap property. -/
theorem upInv_stop {less : Less α} (v : List α) (j : Nat) (a b : α)
    (hj : v[j]? = some a) (hi : v[(j - 1) / 2]? = some b) (hlt : less a b = false)
    (inv : UpInv less v j) : IsHeap less v := by
  intro c hc0 _
  by_cases hcj : c = j
  · subst hcj
    intro x p hx hp
    rw [hj] at hx; rw [hi] at hp
    cases hx; cases hp
    exact hlt
  · exact inv.1 c hc0 hcj

/-- The loop of `heap.up` returns, rearranges the slice, and restores the heap property. -/
theorem upLoop_spec (less : Less α) (k : Int) : ∀ (fuel : Nat) (v : List α) (j : Nat),
    j < fuel → j < v.length →
    ∃ w, heap.upLoop fuel ⟨⟨v, less⟩, k⟩ j = some ⟨⟨w, less⟩, k⟩ ∧ List.Perm w v ∧
      (StrictWeakOrder less → UpInv less v j → IsHeap less w)
  | 0, _, _, hf, _ => absurd hf (Nat.not_lt_zero _)
  | fuel + 1, v, j, hf, hj => by
    unfold heap.upLoop
    by_cases hij : (j - 1) / 2 = j
    · simp only [hij, if_true]
      exact ⟨v, rfl, List.Perm.refl _, fun _ inv => upInv_root v j hij inv⟩
    · obtain ⟨a, ha⟩ := getElem?_some_of_lt v j hj
      obtain ⟨b, hb⟩ := getElem?_some_of_lt v ((j - 1) / 2) (by omega)
      simp only [hij, if_false, Less_mk v less k j _ a b ha hb]
      cases hlt : less a b with
      | false =>
        exact ⟨v, rfl, List.Perm.refl _, fun _ inv => upInv_stop v j a b ha hb hlt inv⟩
      | true =>
        simp only [Swap_mk v less k _ j b a hb ha]
        obtain ⟨w, hw, hperm, hheap⟩ :=
          upLoop_spec less k fuel ((v.set ((j - 1) / 2) a).set j b) ((j - 1) / 2)
            (by omega) (by simp; omega)
        exact ⟨w, hw, hperm.trans (set_set_perm v _ j b a hb ha),
          fun swo inv => hheap swo (upInv_swap swo v j a b hij ha hb hlt inv)⟩

end heapUp

section heapDown

variable {α : Type}

/-- Appending a value to a heap gives the invariant of `heap.up` at the new position. -/
theorem upInv_append {less : Less α} (v : List α) (x : α) (hv : IsHeap less v) :
    UpInv less (v ++ [x]) v.length := by
  refine ⟨?_, ?_⟩
  · intro c hc0 hcl a p ha hp
    by_cases hlt : c < v.length
    · rw [List.getElem?_append_left hlt] at ha
      rw [List.getElem?_append_left (by omega)] at hp
      exact hv c hc0 hlt a p ha hp
    · rw [List.getElem?_eq_none (by simp; omega)] at ha
      exact absurd ha (by simp)
  · intro _ c hc a g ha _
    rw [List.getElem?_eq_none (by simp; omega)] at ha
    exact absurd ha (by simp)

/-- Function `heap.Push` returns, adds exactly `x`, and keeps the heap property. -/
theorem heap_Push_spec (less : Less α) (k : Int) (v : List α) (x : α) :
    ∃ w, heap.Push ⟨⟨v, less⟩, k⟩ x = some ⟨⟨w, less⟩, k⟩ ∧ List.Perm w (x :: v) ∧
      (StrictWeakOrder less → IsHeap less v → IsHeap less w) := by
  obtain ⟨w, hw, hperm, hheap⟩ :=
    upLoop_spec less k (v.length + 1) (v ++ [x]) v.length (by omega) (by simp)
  refine ⟨w, ?_, ?_, ?_⟩
  · simpa [heap.Push, heap.up, topK.Push, topK.Len, comparables.Len] using hw
  · exact hperm.trans (List.perm_append_singleton x v)
  · exact fun swo hv => hheap swo (upInv_append v x hv)

/-- When `heap.down` reaches a position without children the invariant is the heap property. -/
theorem downInv_leaf {less : Less α} (v : List α) (n i : Nat) (h : n ≤ 2 * i + 1)
    (inv : DownInv less v n i) : IsHeapUpTo less v n := by
  intro c hc0 hcn
  exact inv.1 c hc0 hcn (by omega)

/-- When `heap.down` stops because the smaller child is not less than the value at `i`,
the invariant is the heap property. -/
theorem downInv_stop {less : Less α} (swo : StrictWeakOrder less) (v : List α) (n i : Nat)
    (a b : α) (hi : v[i]? = some b) (hlt : less a b = false)
    (hsib : ∀ c, 0 < c → c < n → (c - 1) / 2 = i → ∀ x, v[c]? = some x → less x a = false)
    (inv : DownInv less v n i) : IsHeapUpTo less v n := by
  intro c hc0 hcn
  by_cases hp : (c - 1) / 2 = i
  · intro x p hx hpv
    rw [hp, hi] at hpv
    cases hpv
    exact swo.not_less_trans (hsib c hc0 hcn hp x hx) hlt
  · exact inv.1 c hc0 hcn hp

/-- One step of `heap.down` keeps the loop invariant. -/
theorem downInv_swap {less : Less α} (swo : StrictWeakOrder less) (v : List α) (n i j : Nat)
    (a b : α) (hjn : j < n) (hji : (j - 1) / 2 = i) (hj0 : 0 < j)
    (hj : v[j]? = some a) (hi : v[i]? = some b) (hlt : less a b = true)
    (hsib : ∀ c, 0 < c → c < n → (c - 1) / 2 = i → ∀ x, v[c]? = some x → less x a = false)
    (inv : DownInv less v n i) :
    DownInv less ((v.set i a).set j b) n j := by
  have hg := getElem?_set_set v i j b a hi hj
  obtain ⟨hedge, hgp⟩ := inv
  have hij : ¬ i = j := by omega
  refine ⟨?_, ?_⟩
  · intro c hc0 hcn hpj x p hx hp
    rw [hg] at hx hp
    simp only [hpj, if_false] at hp
    by_cases hcj : c = j
    · subst hcj
      simp only [if_true, hji] at hx hp
      cases hx; cases hp
      exact swo.asymm hlt
    · simp only [hcj, if_false] at hx
      by_cases hci : c = i
      · subst hci
        have hpi : ¬ (c - 1) / 2 = c := by omega
        simp only [if_true, hpi, if_false] at hx hp
        cases hx
        exact hgp hc0 j hjn hji a p hj hp
      · simp only [hci, if_false] at hx
        by_cases hpi : (c - 1) / 2 = i
        · simp only [hpi, if_true] at hp
          cases hp
          exact hsib c hc0 hcn hpi x hx
        · simp only [hpi, if_false] at hp
          exact hedge c hc0 hcn hpi x p hx hp
  · intro _ c hcn hpc x g hx hgv
    rw [hg] at hx hgv
    have h1 : ¬ c = j := by omega
    have h2 : ¬ c = i := by omega
    have h3 : ¬ (j - 1) / 2 = j := by omega
    simp only [h1, h2, if_false] at hx
    simp only [h3, hji, hij, if_false, if_true] at hgv
    cases hgv
    exact hedge c (by omega) hcn (by omega) x a hx (hpc ▸ hj)

/-- The choice of the smaller child in `heap.down`. -/
theorem down_choice (less : Less α) (k : Int) (v : List α) (n i : Nat)
    (hn : n ≤ v.length) (hi : 2 * i + 1 < n) :
    ∃ r : Bool, (if 2 * i + 1 + 1 < n then topK.Less ⟨⟨v, less⟩, k⟩ (2 * i + 1 + 1) (2 * i + 1)
        else some false) = some r ∧
      ∃ a, v[if r then 2 * i + 1 + 1 else 2 * i + 1]? = some a ∧
        (if r then 2 * i + 1 + 1 else 2 * i + 1) < n ∧
        (StrictWeakOrder less →
          ∀ c, 0 < c → c < n → (c - 1) / 2 = i → ∀ x, v[c]? = some x → less x a = false) := by
  obtain ⟨a1, ha1⟩ := getElem?_some_of_lt v (2 * i + 1) (by omega)
  by_cases h2 : 2 * i + 1 + 1 < n
  · obtain ⟨a2, ha2⟩ := getElem?_some_of_lt v (2 * i + 1 + 1) (by omega)
    refine ⟨less a2 a1, ?_, ?_⟩
    · simp only [h2, if_true, Less_mk v less k _ _ a2 a1 ha2 ha1]
    · cases hr : less a2 a1 with
      | true =>
        refine ⟨a2, by simpa using ha2, by simpa using h2, ?_⟩
        intro swo c hc0 hcn hpc x hx
        have hc : c = 2 * i + 1 ∨ c = 2 * i + 1 + 1 := by omega
        rcases hc with hc | hc
        · subst hc
          rw [ha1] at hx; cases hx
          exact swo.asymm hr
        · subst hc
          rw [ha2] at hx; cases hx
          exact swo.irrefl _
      | false =>
        refine ⟨a1, by simpa using ha1, by simpa using hi, ?_⟩
        intro swo c hc0 hcn hpc x hx
        have hc : c = 2 * i + 1 ∨ c = 2 * i + 1 + 1 := by omega
        rcases hc with hc | hc
        · subst hc
          rw [ha1] at hx; cases hx
          exact swo.irrefl _
        · subst hc
          rw [ha2] at hx; cases hx
          exact hr
  · refine ⟨false, by simp only [h2, if_false], a1, by simpa using ha1, by simpa using hi, ?_⟩
    intro swo c hc0 hcn hpc x hx
    have hc : c = 2 * i + 1 := by omega
    subst hc
    rw [ha1] at hx; cases hx
    exact swo.irrefl _

/-- The loop of `heap.down` returns, rearranges the first `n` positions only, and restores
the heap property on them. -/
theorem downLoop_spec (less : Less α) (k : Int) (n : Nat) : ∀ (fuel : Nat) (v : List α) (i : Nat),
    n ≤ v.length → i ≤ n → n < fuel + i →
    ∃ w i', heap.downLoop fuel ⟨⟨v, less⟩, k⟩ i n = some (⟨⟨w, less⟩, k⟩, i') ∧
      List.Perm w v ∧ (∀ c, n ≤ c → w[c]? = v[c]?) ∧
      (StrictWeakOrder less → DownInv less v n i → IsHeapUpTo less w n)
  | 0, _, _, _, hin, hf => by omega
  | fuel + 1, v, i, hn, hin, hf => by
    unfold heap.downLoop
    by_cases hleaf : n ≤ 2 * i + 1
    · simp only [hleaf, if_true]
      exact ⟨v, i, rfl, List.Perm.refl _, fun _ _ => rfl,
        fun _ inv => downInv_leaf v n i hleaf inv⟩
    · obtain ⟨r, hr, a, ha, hjn, hsib⟩ := down_choice less k v n i hn (by omega)
      obtain ⟨b, hb⟩ := getElem?_some_of_lt v i (by omega)
      simp only [hleaf, if_false, hr, Less_mk v less k _ i a b ha hb]
      cases hlt : less a b with
      | false =>
        exact ⟨v, i, rfl, List.Perm.refl _, fun _ _ => rfl,
          fun swo inv => downInv_stop swo v n i a b hb hlt (hsib swo) inv⟩
      | true =>
        simp only [Swap_mk v less k i _ b a hb ha]
        have hji : ((if r then 2 * i + 1 + 1 else 2 * i + 1) - 1) / 2 = i := by
          cases r
          · simp
          · simp; omega
        have hj0 : 0 < (if r then 2 * i + 1 + 1 else 2 * i + 1) := by
          cases r <;> simp
        obtain ⟨w, i', hw, hperm, hfix, hheap⟩ :=
          downLoop_spec less k n fuel
            ((v.set i a).set (if r then 2 * i + 1 + 1 else 2 * i + 1) b)
            (if r then 2 * i + 1 + 1 else 2 * i + 1)
            (by simpa using hn) (by omega) (by cases r <;> simp <;> omega)
        refine ⟨w, i', hw, hperm.trans (set_set_perm v i _ b a hb ha), ?_, ?_⟩
        · intro c hc
          rw [hfix c hc, getElem?_set_set v i _ b a hb ha]
          have h1 : ¬ c = (if r then 2 * i + 1 + 1 else 2 * i + 1) := by omega
          have h2 : ¬ c = i := by omega
          simp only [h1, h2, if_false]
        · exact fun swo inv =>
            hheap swo (downInv_swap swo v n i _ a b hjn hji hj0 ha hb hlt (hsib swo) inv)

end heapDown

/-! ## One `Push` -/

section pushLemmas

variable {α : Type}

/-- A list whose last position `n` holds `m` is its first `n` elements followed by `m`. -/
theorem eq_take_append_last (w : List α) (n : Nat) (m : α) (hlen : w.length = n + 1)
    (hm : w[n]? = some m) : w = w.take n ++ [m] := by
  have h1 : w.take (n + 1) = w := List.take_of_length_le (by omega)
  have h2 := List.take_succ (l := w) (n := n)
  rw [h1, hm] at h2
  simpa using h2

/-- After the swap of `heap.Pop` the first `n` positions satisfy the invariant of `heap.down`
at the root. -/
theorem downInv_of_swap_last {less : Less α} (v : List α) (n : Nat) (m z : α)
    (h0 : v[0]? = some m) (hn : v[n]? = some z) (hv : IsHeap less v) :
    DownInv less ((v.set 0 z).set n m) n 0 := by
  have hg := getElem?_set_set v 0 n m z h0 hn
  have hnl : n < v.length := (List.getElem?_eq_some_iff.mp hn).1
  refine ⟨?_, fun h => absurd h (Nat.lt_irrefl 0)⟩
  intro c hc0 hcn hp a p ha hpv
  rw [hg] at ha hpv
  have h1 : ¬ c = n := by omega
  have h2 : ¬ c = 0 := by omega
  have h3 : ¬ (c - 1) / 2 = n := by omega
  simp only [h1, h2, h3, hp, if_false] at ha hpv
  exact hv c hc0 (by omega) a p ha hpv

theorem isHeap_take {less : Less α} (w : List α) (n : Nat) (h : IsHeapUpTo less w n) :
    IsHeap less (w.take n) := by
  intro c hc0 hcl a p ha hp
  have hcn : c < n := by
    have := List.length_take_le n w
    omega
  rw [List.getElem?_take_of_lt hcn] at ha
  rw [List.getElem?_take_of_lt (by omega)] at hp
  exact h c hc0 hcn a p ha hp

/-- Function `heap.Pop` on a non-empty container returns the root, removes exactly it,
and keeps the heap property. -/
theorem heap_Pop_spec (less : Less α) (k : Int) (v : List α) (m : α) (h0 : v[0]? = some m) :
    ∃ w, heap.Pop ⟨⟨v, less⟩, k⟩ = some (m, ⟨⟨w, less⟩, k⟩) ∧ List.Perm (m :: w) v ∧
      (StrictWeakOrder less → IsHeap less v → IsHeap less w) := by
  have hpos : 0 < v.length := (List.getElem?_eq_some_iff.mp h0).1
  obtain ⟨z, hz⟩ := getElem?_some_of_lt v (v.length - 1) (by omega)
  obtain ⟨w, i', hw, hperm, hfix, hheap⟩ :=
    downLoop_spec less k (v.length - 1) (v.length - 1 + 1)
      ((v.set 0 z).set (v.length - 1) m) 0 (by simp) (by omega) (by omega)
  have hwl : w.length = (v.length - 1) + 1 := by
    rw [hperm.length_eq]; simp; omega
  have hwm : w[v.length - 1]? = some m := by
    rw [hfix _ (Nat.le_refl _), getElem?_set_set v 0 _ m z h0 hz]
    simp
  have hsplit := eq_take_append_last w (v.length - 1) m hwl hwm
  refine ⟨w.take (v.length - 1), ?_, ?_, ?_⟩
  · have hlen : ¬ v.length = 0 := by omega
    have hwl0 : ¬ w.length = 0 := by omega
    have hwl1 : w.length - 1 = v.length - 1 := by omega
    simp only [heap.Pop, topK.Len, comparables.Len, hlen, if_false,
      Swap_mk v less k 0 _ m z h0 hz, heap.down, hw, topK.Pop, hwl0, hwl1, hwm]
  · have h1 : List.Perm (m :: w.take (v.length - 1)) w := by
      conv_rhs => rw [hsplit]
      exact (List.perm_append_singleton m _).symm
    exact h1.trans (hperm.trans (set_set_perm v 0 _ m z h0 hz))
  · intro swo hv
    exact isHeap_take w _ (hheap swo (downInv_of_swap_last v _ m z h0 hz hv))

/-- The root of a heap is a minimum: no value of the heap is less than it. -/
theorem root_min {less : Less α} (swo : StrictWeakOrder less) (v : List α) (m : α)
    (hv : IsHeap less v) (h0 : v[0]? = some m) :
    ∀ r, r ∈ v → less r m = false := by
  have key : ∀ (c : Nat) (r : α), v[c]? = some r → less r m = false := by
    intro c
    induction c using Nat.strong_induction_on with
    | _ c ih =>
      intro r hr
      by_cases hc : c = 0
      · subst hc
        rw [h0] at hr; cases hr
        exact swo.irrefl _
      · have hcl : c < v.length := (List.getElem?_eq_some_iff.mp hr).1
        obtain ⟨p, hp⟩ := getElem?_some_of_lt v ((c - 1) / 2) (by omega)
        exact swo.not_less_trans (hv c (by omega) hcl r p hr hp) (ih _ (by omega) p hp)
  intro r hr
  obtain ⟨c, hc⟩ := List.getElem?_of_mem hr
  exact key c r hc

/-- Function `Push` below capacity: the element is added. -/
theorem Push_fill (less : Less α) (k : Int) (v : List α) (x : α) (hlt : (v.length : Int) < k) :
    ∃ w, Push ⟨⟨v, less⟩, k⟩ x = some ⟨⟨w, less⟩, k⟩ ∧ List.Perm w (x :: v) ∧
      (StrictWeakOrder less → IsHeap less v → IsHeap less w) := by
  obtain ⟨w, hw, hperm, hheap⟩ := heap_Push_spec less k v x
  refine ⟨w, ?_, hperm, hheap⟩
  simp only [Push, topK.Len, comparables.Len, topK.K, hlt, if_true, hw]

/-- Function `Push` at capacity with an element above the minimum: the minimum is replaced. -/
theorem Push_replace (less : Less α) (k : Int) (v : List α) (x m : α)
    (hge : ¬ (v.length : Int) < k) (h0 : v[0]? = some m) (hmx : less m x = true) :
    ∃ w, Push ⟨⟨v, less⟩, k⟩ x = some ⟨⟨w, less⟩, k⟩ ∧ List.Perm (m :: w) (x :: v) ∧
      (StrictWeakOrder less → IsHeap less v → IsHeap less w) := by
  have hpos : 0 < v.length := (List.getElem?_eq_some_iff.mp h0).1
  obtain ⟨w1, hw1, hperm1, hheap1⟩ := heap_Pop_spec less k v m h0
  obtain ⟨w, hw, hperm, hheap⟩ := heap_Push_spec less k w1 x
  refine ⟨w, ?_, ?_, fun swo hv => hheap swo (hheap1 swo hv)⟩
  · simp only [Push, topK.Len, comparables.Len, topK.K, hge, if_false, hpos, if_true,
      topK.Peek, h0, topK.IsLess, comparables.IsLess, hmx, hw1, hw]
  · exact ((hperm.cons m).trans (List.Perm.swap x m w1)).trans (hperm1.cons x)

/-- Function `Push` at capacity with an element not above the minimum: nothing changes. -/
theorem Push_discard (less : Less α) (k : Int) (v : List α) (x m : α)
    (hge : ¬ (v.length : Int) < k) (h0 : v[0]? = some m) (hmx : less m x = false) :
    Push ⟨⟨v, less⟩, k⟩ x = some ⟨⟨v, less⟩, k⟩ := by
  have hpos : 0 < v.length := (List.getElem?_eq_some_iff.mp h0).1
  simp [Push, topK.Len, comparables.Len, topK.K, hge, hpos, topK.Peek, h0, topK.IsLess,
    comparables.IsLess, hmx]

/-- Function `Push` on an empty container of capacity zero (or less): nothing changes. -/
theorem Push_empty_full (less : Less α) (k : Int) (x : α) (hge : ¬ ((0 : Nat) : Int) < k) :
    Push ⟨⟨[], less⟩, k⟩ x = some ⟨⟨[], less⟩, k⟩ := by
  simp only [Push, topK.Len, comparables.Len, topK.K, List.length_nil, hge, if_false,
    Nat.lt_irrefl]

/-- Function `Push` always returns, and keeps the comparator and the capacity. -/
theorem Push_total (less : Less α) (k : Int) (v : List α) (x : α) :
    ∃ w, Push ⟨⟨v, less⟩, k⟩ x = some ⟨⟨w, less⟩, k⟩ := by
  by_cases hlt : (v.length : Int) < k
  · obtain ⟨w, hw, _⟩ := Push_fill less k v x hlt
    exact ⟨w, hw⟩
  · cases v with
    | nil => exact ⟨[], Push_empty_full less k x hlt⟩
    | cons m v' =>
      cases hmx : less m x with
      | true =>
        obtain ⟨w, hw, _⟩ := Push_replace less k (m :: v') x m hlt (by simp) hmx
        exact ⟨w, hw⟩
      | false => exact ⟨m :: v', Push_discard less k (m :: v') x m hlt (by simp) hmx⟩

end pushLemmas

/-! ## The top-K invariant along a run -/

section runLemmas

variable {α : Type}

/-- One `Push` keeps the top-K selection. -/
theorem Push_retains (less : Less α) (k : Int) (xs v : List α) (x : α)
    (inv : RetainsTop less k xs v) :
    ∃ w, Push ⟨⟨v, less⟩, k⟩ x = some ⟨⟨w, less⟩, k⟩ ∧ RetainsTop less k (xs ++ [x]) w := by
  obtain ⟨hlen, hsel⟩ := inv
  by_cases hlt : (v.length : Int) < k
  · -- filling phase
    obtain ⟨w, hw, hperm, hheap⟩ := Push_fill less k v x hlt
    have hxs : xs.length = v.length := by omega
    refine ⟨w, hw, ?_, ?_⟩
    · rw [hperm.length_eq]
      simp only [List.length_cons, List.length_append, List.length_nil]
      omega
    · intro swo
      obtain ⟨hv, d, hd, _⟩ := hsel swo
      have hdl : d = [] := by
        have h1 := hd.length_eq
        simp at h1
        exact List.eq_nil_of_length_eq_zero (by omega)
      subst hdl
      refine ⟨hheap swo hv, [], ?_, fun _ _ y hy => absurd hy (List.not_mem_nil y)⟩
      simp only [List.append_nil] at hd ⊢
      exact ((hd.append_right [x]).trans (List.perm_append_singleton x v)).trans hperm.symm
  · cases v with
    | nil =>
      refine ⟨[], Push_empty_full less k x (by simpa using hlt), ?_, ?_⟩
      · simp only [List.length_cons, List.length_append, List.length_nil] at hlen hlt ⊢
        omega
      · intro _
        refine ⟨fun c _ hc => absurd hc (Nat.not_lt_zero _), xs ++ [x], by simp, ?_⟩
        intro r hr
        exact absurd hr (List.not_mem_nil r)
    | cons m v' =>
      have h0 : (m :: v')[0]? = some m := by simp
      cases hmx : less m x with
      | true =>
        obtain ⟨w, hw, hperm, hheap⟩ := Push_replace less k (m :: v') x m hlt h0 hmx
        refine ⟨w, hw, ?_, ?_⟩
        · have h1 := hperm.length_eq
          simp only [List.length_cons, List.length_append, List.length_nil] at h1 hlen hlt ⊢
          omega
        · intro swo
          obtain ⟨hv, d, hd, hord⟩ := hsel swo
          have hmin := root_min swo (m :: v') m hv h0
          refine ⟨hheap swo hv, m :: d, ?_, ?_⟩
          · have h1 : List.Perm (xs ++ [x]) (x :: ((m :: v') ++ d)) :=
              (List.perm_append_singleton x xs).trans (hd.cons x)
            have h2 : List.Perm (x :: ((m :: v') ++ d)) ((m :: w) ++ d) :=
              List.Perm.append_right d hperm.symm
            exact (h1.trans h2).trans (by simpa using List.perm_middle.symm)
          · intro r hr y hy
            have hr' : r ∈ x :: m :: v' := hperm.subset (List.mem_cons_of_mem m hr)
            rcases List.mem_cons.mp hy with hy | hy
            · subst hy
              rcases List.mem_cons.mp hr' with hr' | hr'
              · subst hr'; exact swo.asymm hmx
              · exact hmin r hr'
            · rcases List.mem_cons.mp hr' with hr' | hr'
              · subst hr'
                cases hry : less r y with
                | false => rfl
                | true =>
                  have h3 := swo.trans m r y hmx hry
                  rw [hord m (List.mem_cons_self m v') y hy] at h3
                  exact absurd h3 (by decide)
              · exact hord r hr' y hy
      | false =>
        refine ⟨m :: v', Push_discard less k (m :: v') x m hlt h0 hmx, ?_, ?_⟩
        · simp only [List.length_cons, List.length_append, List.length_nil] at hlen hlt ⊢
          omega
        · intro swo
          obtain ⟨hv, d, hd, hord⟩ := hsel swo
          have hmin := root_min swo (m :: v') m hv h0
          refine ⟨hv, x :: d, ?_, ?_⟩
          · exact (List.perm_append_singleton x xs).trans
              ((hd.cons x).trans List.perm_middle.symm)
          · intro r hr y hy
            rcases List.mem_cons.mp hy with hy | hy
            · subst hy
              exact swo.not_less_trans (hmin r hr) hmx
            · exact hord r hr y hy

/-- Pushing a list of elements keeps the top-K selection. -/
theorem pushAll_retains (less : Less α) (k : Int) : ∀ (ys xs v : List α),
    RetainsTop less k xs v →
    ∃ w, pushAll ⟨⟨v, less⟩, k⟩ ys = some ⟨⟨w, less⟩, k⟩ ∧ RetainsTop less k (xs ++ ys) w
  | [], xs, v, inv => ⟨v, rfl, by simpa using inv⟩
  | y :: ys, xs, v, inv => by
    obtain ⟨w1, hw1, inv1⟩ := Push_retains less k xs v y inv
    obtain ⟨w, hw, inv2⟩ := pushAll_retains less k ys (xs ++ [y]) w1 inv1
    refine ⟨w, ?_, by simpa using inv2⟩
    simp only [pushAll, hw1, hw]

/-- The container built by `New(k, less)` and a list of pushes exists for `k ≥ 0` and holds
a top-K selection of the list. -/
theorem run_retains (less : Less α) (k : Int) (hk : 0 ≤ k) (xs : List α) :
    ∃ w, run k less xs = some ⟨⟨w, less⟩, k⟩ ∧ RetainsTop less k xs w := by
  have h0 : RetainsTop less k [] [] := by
    refine ⟨by simp; omega, fun _ => ⟨fun c _ hc => absurd hc (Nat.not_lt_zero _), [], by simp, ?_⟩⟩
    intro r hr
    exact absurd hr (List.not_mem_nil r)
  obtain ⟨w, hw, inv⟩ := pushAll_retains less k xs [] [] h0
  refine ⟨w, ?_, by simpa using inv⟩
  have hk' : ¬ k < 0 := by omega
  simp only [run, New, hk', if_false, hw]

/-- A negative capacity makes `New` panic, so nothing is reachable. -/
theorem run_neg (less : Less α) (k : Int) (hk : k < 0) (xs : List α) :
    run k less xs = none := by
  simp [run, New, hk]

/-- Every reachable container has a non-negative capacity, the comparator and capacity it
was built with, and holds a top-K selection of the pushed elements. -/
theorem reachable_retains (less : Less α) (k : Int) (t : topK α) (h : Reachable k less t) :
    0 ≤ k ∧ ∃ xs w, t = ⟨⟨w, less⟩, k⟩ ∧ RetainsTop less k xs w := by
  obtain ⟨xs, hxs⟩ := h
  by_cases hk : k < 0
  · rw [run_neg less k hk xs] at hxs
    exact absurd hxs (by simp)
  · obtain ⟨w, hw, inv⟩ := run_retains less k (by omega) xs
    rw [hw] at hxs
    exact ⟨by omega, xs, w, (Option.some.inj hxs).symm, inv⟩

end runLemmas

/-! ## The sort and `Get` -/

section rangeLemmas

variable {α : Type}

theorem Within.refl (v : List α) (a b : Nat) : Within v v a b :=
  ⟨List.Perm.refl v, fun _ _ => rfl, fun _ h => h⟩

theorem Within.trans {v w u : List α} {a b : Nat} (h1 : Within v w a b)
    (h2 : Within w u a b) : Within v u a b :=
  ⟨h2.1.trans h1.1, fun c hc => (h2.2.1 c hc).trans (h1.2.1 c hc),
    fun P hP => h2.2.2 P (h1.2.2 P hP)⟩

theorem Within.length_eq {v w : List α} {a b : Nat} (h : Within v w a b) :
    w.length = v.length := h.1.length_eq

theorem Within.mono {v w : List α} {a b a' b' : Nat} (h : Within v w a' b')
    (ha : a ≤ a') (hb : b' ≤ b) : Within v w a b := by
  refine ⟨h.1, fun c hc => h.2.1 c (by omega), ?_⟩
  intro P hP i x hai hib hx
  by_cases hin : a' ≤ i ∧ i < b'
  · exact h.2.2 P (fun k y hk1 hk2 hy => hP k y (by omega) (by omega) hy) i x hin.1 hin.2 hx
  · rw [h.2.1 i (by omega)] at hx
    exact hP i x hai hib hx

/-- A swap of two positions of `[a, b)`. -/
theorem Within.swap (v : List α) (a b i j : Nat) (x y : α) (hai : a ≤ i) (hib : i < b)
    (haj : a ≤ j) (hjb : j < b) (hi : v[i]? = some x) (hj : v[j]? = some y) :
    Within v ((v.set i y).set j x) a b := by
  have hg := getElem?_set_set v i j x y hi hj
  refine ⟨set_set_perm v i j x y hi hj, ?_, ?_⟩
  · intro c hc
    rw [hg]
    have h1 : ¬ c = j := by omega
    have h2 : ¬ c = i := by omega
    simp only [h1, h2, if_false]
  · intro P hP k z hak hkb hz
    rw [hg] at hz
    by_cases h1 : k = j
    · simp only [h1, if_true, Option.some.injEq] at hz
      subst hz
      exact hP i x hai hib hi
    · by_cases h2 : k = i
      · subst h2
        simp only [h1, if_false, if_true, Option.some.injEq] at hz
        subst hz
        exact hP j y haj hjb hj
      · simp only [h1, h2, if_false] at hz
        exact hP k z hak hkb hz

theorem Within.getElem?_some {v w : List α} {a b : Nat} (h : Within v w a b) (i : Nat)
    (hi : i < v.length) : ∃ x, w[i]? = some x :=
  getElem?_some_of_lt w i (by rw [h.length_eq]; exact hi)

theorem AllOn.narrow {P : α → Prop} {v : List α} {a b a' b' : Nat} (h : AllOn P v a b)
    (ha : a ≤ a') (hb : b' ≤ b) : AllOn P v a' b' :=
  fun i x h1 h2 hx => h i x (by omega) (by omega) hx

theorem AllOn.imp {P Q : α → Prop} {v : List α} {a b : Nat} (h : AllOn P v a b)
    (hPQ : ∀ x, P x → Q x) : AllOn Q v a b :=
  fun i x h1 h2 hx => hPQ x (h i x h1 h2 hx)

/-- Positions outside `[a, b)` keep a property stated on a range disjoint from `[a, b)`. -/
theorem AllOn.kept {P : α → Prop} {v w : List α} {a b c d : Nat} (h : AllOn P v c d)
    (hw : Within v w a b) (hdis : d ≤ a ∨ b ≤ c) : AllOn P w c d := by
  intro i x h1 h2 hx
  rw [hw.2.1 i (by omega)] at hx
  exact h i x h1 h2 hx

theorem SortedOn.kept_sorted {ord : Less α} {v w : List α} {a b c d : Nat}
    (h : SortedOn ord v c d) (hw : Within v w a b) (hdis : d ≤ a ∨ b ≤ c) :
    SortedOn ord w c d := by
  intro i j x y h1 h2 h3 hx hy
  rw [hw.2.1 i (by omega)] at hx
  rw [hw.2.1 j (by omega)] at hy
  exact h i j x y h1 h2 h3 hx hy

theorem SortedOn.restrict {ord : Less α} {v : List α} {a b a' b' : Nat}
    (h : SortedOn ord v a b) (ha : a ≤ a') (hb : b' ≤ b) : SortedOn ord v a' b' :=
  fun i j x y h1 h2 h3 hx hy => h i j x y (by omega) h2 (by omega) hx hy

/-- A range of at most one position is ascending. -/
theorem SortedOn.of_le {ord : Less α} (v : List α) (a b : Nat) (h : b ≤ a + 1) :
    SortedOn ord v a b :=
  fun i j _ _ h1 h2 h3 _ _ => by omega

/-- Two ascending ranges around a position `m` whose value separates them. -/
theorem SortedOn.join {ord : Less α} (swo : StrictWeakOrder ord) {v : List α} {a m b : Nat}
    {p : α} (hp : v[m]? = some p) (hl : SortedOn ord v a m) (hr : SortedOn ord v (m + 1) b)
    (hlow : AllOn (fun x => ord p x = false) v a m)
    (hhigh : AllOn (fun y => ord y p = false) v (m + 1) b) : SortedOn ord v a b := by
  intro i j x y h1 h2 h3 hx hy
  by_cases hjm : j < m
  · exact hl i j x y h1 h2 hjm hx hy
  · by_cases him : m < i
    · exact hr i j x y (by omega) h2 h3 hx hy
    · by_cases hjeq : j = m
      · subst hjeq
        rw [hp] at hy
        cases hy
        exact hlow i x h1 h2 hx
      · by_cases hieq : i = m
        · subst hieq
          rw [hp] at hx
          cases hx
          exact hhigh j y (by omega) h3 hy
        · have h4 := hlow i x h1 (by omega) hx
          have h5 := hhigh j y (by omega) h3 hy
          exact swo.not_less_trans h5 h4

end rangeLemmas

section insertionLemmas

variable {α : Type}

theorem getElem?_append_fst (L T : List α) (y : α) :
    (L ++ y :: T)[L.length]? = some y := by
  rw [List.getElem?_append_right (Nat.le_refl _)]
  simp

theorem getElem?_append_snd (L T : List α) (y x : α) :
    (L ++ y :: x :: T)[L.length + 1]? = some x := by
  rw [List.getElem?_append_right (by omega)]
  simp

/-- Swapping two neighbouring positions. -/
theorem set_set_adjacent : ∀ (L T : List α) (y x : α),
    ((L ++ y :: x :: T).set (L.length + 1) y).set L.length x = L ++ x :: y :: T
  | [], _, _, _ => rfl
  | a :: L, T, y, x => by
    simp

/-- The methods of `*comparables` behave as the slice methods with the comparator itself. -/
theorem drives_sortInterface (less : Less α) :
    Drives (comparables.sortInterface α) less less where
  len := fun _ => rfl
  less_eq := fun v i j a b hi hj => by
    simp [comparables.sortInterface, comparables.Less, comparables.IsLess, hi, hj]
  swap_eq := fun v i j a b hi hj => by
    simp [comparables.sortInterface, comparables.Swap, hi, hj]

/-- The methods of `sort.Reverse(cmp)` behave as the slice methods with the flipped
comparator. -/
theorem drives_reverse (less : Less α) :
    Drives (sort.Reverse (comparables.sortInterface α)) less (fun a b => less b a) where
  len := fun _ => rfl
  less_eq := fun v i j a b hi hj => by
    simp [sort.Reverse, comparables.sortInterface, comparables.Less, comparables.IsLess, hi, hj]
  swap_eq := fun v i j a b hi hj => by
    simp [sort.Reverse, comparables.sortInterface, comparables.Swap, hi, hj]

/-- The inner loop of the insertion sort, started at the value `x` that follows the part
`L` behind the prefix `A`, with the values `M` it has already passed: it returns, touches
only `L`, `x` and `M`, and leaves them ascending.  The loop may run with a lower bound `a0`
below the end of `A` when `x` is not less than the last value of `A`. -/
theorem insertLoop_spec {I : sort.Interface (comparables α)} {less ord : Less α}
    (hI : Drives I less ord) (a0 : Nat) : ∀ (m : Nat) (A L M R : List α) (x : α),
    a0 ≤ A.length → L.length = m →
    (a0 < A.length → ∃ z, A.getLast? = some z ∧ ord x z = false) →
    ∃ w, sort.insertLoop I a0 (A.length - a0 + m) ⟨A ++ (L ++ x :: (M ++ R)), less⟩ =
        some ⟨A ++ (w ++ R), less⟩ ∧
      List.Perm w (L ++ x :: M) ∧
      (StrictWeakOrder ord → Ascending ord (L ++ M) → (∀ y, y ∈ M → ord x y = true) →
        Ascending ord w)
  | 0, A, L, M, R, x, ha0, hL, hstop => by
    have hnil : L = [] := List.eq_nil_of_length_eq_zero hL
    subst hnil
    have hpost : StrictWeakOrder ord → Ascending ord ([] ++ M) →
        (∀ y, y ∈ M → ord x y = true) → Ascending ord (x :: M) := by
      intro swo hasc hM
      exact List.pairwise_cons.mpr ⟨fun y hy => swo.asymm (hM y hy), by simpa using hasc⟩
    by_cases hlt : a0 < A.length
    · obtain ⟨z, hz, hxz⟩ := hstop hlt
      obtain ⟨A', rfl⟩ : ∃ A', A = A' ++ [z] := by
        rcases List.eq_nil_or_concat A with hnil | ⟨A', z', hcat⟩
        · subst hnil; simp at hz
        · rw [List.concat_eq_append] at hcat
          subst hcat
          simp at hz
          subst hz
          exact ⟨A', rfl⟩
      have hlen : (A' ++ [z]).length - a0 + 0 = (A'.length - a0) + 1 := by
        simp at hlt ⊢; omega
      have hidx : a0 + (A'.length - a0) = A'.length := by
        simp at hlt; omega
      have hlist : A' ++ [z] ++ ([] ++ x :: (M ++ R)) = A' ++ z :: x :: (M ++ R) := by simp
      have hzv : (A' ++ z :: x :: (M ++ R))[A'.length]? = some z := getElem?_append_fst A' _ z
      have hxv : (A' ++ z :: x :: (M ++ R))[A'.length + 1]? = some x :=
        getElem?_append_snd A' _ z x
      refine ⟨x :: M, ?_, List.Perm.refl _, hpost⟩
      rw [hlen, hlist]
      unfold sort.insertLoop
      rw [hidx]
      simp only [hI.less_eq _ (A'.length + 1) A'.length x z hxv hzv, hxz]
      simp
    · have hlen : A.length - a0 + 0 = 0 := by omega
      refine ⟨x :: M, ?_, List.Perm.refl _, hpost⟩
      rw [hlen]
      simp [sort.insertLoop]
  | m + 1, A, L, M, R, x, ha0, hL, hstop => by
    rcases List.eq_nil_or_concat L with hnil | ⟨L', y, hcat⟩
    · subst hnil; simp at hL
    rw [List.concat_eq_append] at hcat
    subst hcat
    have hL' : L'.length = m := by simpa using hL
    have hlen : A.length - a0 + (m + 1) = (A.length - a0 + m) + 1 := by omega
    have hidx : a0 + (A.length - a0 + m) = (A ++ L').length := by
      simp; omega
    have hlist : A ++ (L' ++ [y] ++ x :: (M ++ R)) = (A ++ L') ++ y :: x :: (M ++ R) := by
      simp
    have hy : ((A ++ L') ++ y :: x :: (M ++ R))[(A ++ L').length]? = some y :=
      getElem?_append_fst (A ++ L') _ y
    have hx : ((A ++ L') ++ y :: x :: (M ++ R))[(A ++ L').length + 1]? = some x :=
      getElem?_append_snd (A ++ L') _ y x
    rw [hlen, hlist]
    unfold sort.insertLoop
    rw [hidx]
    simp only [hI.less_eq _ ((A ++ L').length + 1) (A ++ L').length x y hx hy]
    cases hlt : ord x y with
    | false =>
      refine ⟨L' ++ [y] ++ x :: M, by simp, List.Perm.refl _, ?_⟩
      intro swo hasc hM
      obtain ⟨hLa, hMa, hcross⟩ := List.pairwise_append.mp hasc
      obtain ⟨hL'a, _, hL'y⟩ := List.pairwise_append.mp hLa
      refine List.pairwise_append.mpr ⟨hLa, ?_, ?_⟩
      · exact List.pairwise_cons.mpr ⟨fun z hz => swo.asymm (hM z hz), hMa⟩
      · intro c hc b hb
        rcases List.mem_cons.mp hb with hb | hb
        · subst hb
          rcases List.mem_append.mp hc with hc | hc
          · exact swo.not_less_trans hlt (hL'y c hc y (by simp))
          · have : c = y := by simpa using hc
            subst this
            exact hlt
        · exact hcross c hc b hb
    | true =>
      simp only [hI.swap_eq _ ((A ++ L').length + 1) (A ++ L').length x y hx hy]
      rw [set_set_adjacent (A ++ L') (M ++ R) y x]
      obtain ⟨w, hw, hperm, hasc⟩ := insertLoop_spec hI a0 m A L' (y :: M) R x ha0 hL' hstop
      refine ⟨w, ?_, ?_, ?_⟩
      · rw [← hw]
        simp
      · refine hperm.trans ?_
        simpa using List.Perm.append_left L' (List.Perm.swap y x M)
      · intro swo hLM hM
        refine hasc swo (by simpa using hLM) ?_
        intro z hz
        rcases List.mem_cons.mp hz with hz | hz
        · subst hz; exact hlt
        · exact hM z hz

/-- The outer loop of the insertion sort on the part behind the prefix `A`: started behind
the ascending part `S` with one iteration left for every value of `Q`, it returns an
ascending rearrangement of `S ++ Q` and touches nothing else. -/
theorem insertionLoop_spec {I : sort.Interface (comparables α)} {less ord : Less α}
    (hI : Drives I less ord) (A C : List α) : ∀ (r : Nat) (S Q : List α), Q.length = r →
    ∃ w, sort.insertionLoop I A.length r (A.length + S.length) ⟨A ++ (S ++ (Q ++ C)), less⟩ =
        some ⟨A ++ (w ++ C), less⟩ ∧
      List.Perm w (S ++ Q) ∧ (StrictWeakOrder ord → Ascending ord S → Ascending ord w)
  | 0, S, Q, hQ => by
    have hnil : Q = [] := List.eq_nil_of_length_eq_zero hQ
    subst hnil
    exact ⟨S, by simp [sort.insertionLoop], by simp, fun _ h => h⟩
  | r + 1, S, Q, hQ => by
    cases Q with
    | nil => simp at hQ
    | cons x Q' =>
      have hQ' : Q'.length = r := by simpa using hQ
      obtain ⟨w1, hw1, hperm1, hasc1⟩ :=
        insertLoop_spec hI A.length S.length A S [] (Q' ++ C) x (Nat.le_refl _) rfl
          (fun h => absurd h (Nat.lt_irrefl _))
      have hlen1 : w1.length = S.length + 1 := by
        rw [hperm1.length_eq]; simp
      obtain ⟨w, hw, hperm, hasc⟩ := insertionLoop_spec hI A C r w1 Q' hQ'
      refine ⟨w, ?_, ?_, ?_⟩
      · unfold sort.insertionLoop
        have h1 : A.length + S.length - A.length = A.length - A.length + S.length := by omega
        have h2 : A ++ (S ++ (x :: Q' ++ C)) = A ++ (S ++ x :: ([] ++ (Q' ++ C))) := by simp
        have h3 : A.length + S.length + 1 = A.length + w1.length := by omega
        rw [h1, h2, hw1, h3]
        exact hw
      · refine hperm.trans ?_
        simpa using List.Perm.append_right Q' hperm1
      · intro swo hS
        exact hasc swo (hasc1 swo (by simpa using hS) (fun y hy => absurd hy (List.not_mem_nil y)))

/-- Function `insertionSort(data, a, b)` on the part `B` between `A` and `C`. -/
theorem insertionSort_parts {I : sort.Interface (comparables α)} {less ord : Less α}
    (hI : Drives I less ord) (A B C : List α) :
    ∃ w, sort.insertionSort I ⟨A ++ (B ++ C), less⟩ A.length (A.length + B.length) =
        some ⟨A ++ (w ++ C), less⟩ ∧
      List.Perm w B ∧ (StrictWeakOrder ord → Ascending ord w) := by
  cases B with
  | nil =>
    refine ⟨[], ?_, List.Perm.refl _, fun _ => List.Pairwise.nil⟩
    simp [sort.insertionSort, sort.insertionLoop]
  | cons s Q =>
    obtain ⟨w, hw, hperm, hasc⟩ := insertionLoop_spec hI A C Q.length [s] Q rfl
    refine ⟨w, ?_, by simpa using hperm, fun swo => hasc swo (List.pairwise_singleton _ s)⟩
    unfold sort.insertionSort
    have h1 : A.length + (s :: Q).length - (A.length + 1) = Q.length := by
      simp only [List.length_cons]
      omega
    rw [h1]
    simpa using hw

end insertionLemmas

section partsLemmas

variable {α : Type}

/-- The positions of the middle part of `A ++ (B ++ C)`. -/
theorem getElem?_parts_mid (A B C : List α) (i : Nat) (h1 : A.length ≤ i)
    (h2 : i < A.length + B.length) : (A ++ (B ++ C))[i]? = B[i - A.length]? := by
  rw [List.getElem?_append_right h1, List.getElem?_append_left (by omega)]

theorem getElem?_parts_left (A B C : List α) (i : Nat) (h : i < A.length) :
    (A ++ (B ++ C))[i]? = A[i]? :=
  List.getElem?_append_left h

theorem getElem?_parts_right (A B C : List α) (i : Nat) (h : A.length + B.length ≤ i) :
    (A ++ (B ++ C))[i]? = C[i - A.length - B.length]? := by
  rw [List.getElem?_append_right (by omega), List.getElem?_append_right (by omega)]

/-- A slice split at the bounds of a range. -/
theorem split_range (v : List α) (a b : Nat) (hab : a ≤ b) (hb : b ≤ v.length) :
    v = v.take a ++ ((v.drop a).take (b - a) ++ v.drop b) ∧
      (v.take a).length = a ∧ ((v.drop a).take (b - a)).length = b - a := by
  refine ⟨?_, by simp; omega, by simp; omega⟩
  have h1 : (v.drop a).drop (b - a) = v.drop b := by
    rw [List.drop_drop]
    congr 1
    omega
  rw [← h1, List.take_append_drop, List.take_append_drop]

/-- Rearranging the middle part is a rearrangement within its range. -/
theorem within_of_parts (A B B' C : List α) (hperm : List.Perm B' B) :
    Within (A ++ (B ++ C)) (A ++ (B' ++ C)) A.length (A.length + B.length) := by
  have hlen : B'.length = B.length := hperm.length_eq
  refine ⟨(hperm.append_right C).append_left A, ?_, ?_⟩
  · intro c hc
    rcases hc with hc | hc
    · rw [getElem?_parts_left A B' C c hc, getElem?_parts_left A B C c hc]
    · rw [getElem?_parts_right A B' C c (by omega), getElem?_parts_right A B C c hc, hlen]
  · intro P hP i x h1 h2 hx
    rw [getElem?_parts_mid A B' C i h1 (by omega)] at hx
    have hxB : x ∈ B := hperm.subset (List.getElem?_mem hx)
    obtain ⟨k, hk⟩ := List.getElem?_of_mem hxB
    have hkl : k < B.length := (List.getElem?_eq_some_iff.mp hk).1
    refine hP (A.length + k) x (by omega) (by omega) ?_
    rw [getElem?_parts_mid A B C _ (by omega) (by omega)]
    simpa using hk

/-- An ascending middle part is an ascending range. -/
theorem sortedOn_of_parts {ord : Less α} (A B C : List α) (h : Ascending ord B) :
    SortedOn ord (A ++ (B ++ C)) A.length (A.length + B.length) := by
  intro i j x y h1 h2 h3 hx hy
  rw [getElem?_parts_mid A B C i h1 (by omega)] at hx
  rw [getElem?_parts_mid A B C j (by omega) h3] at hy
  obtain ⟨hi, rfl⟩ := List.getElem?_eq_some_iff.mp hx
  obtain ⟨hj, rfl⟩ := List.getElem?_eq_some_iff.mp hy
  exact List.pairwise_iff_getElem.mp h _ _ hi hj (by omega)

/-- An ascending range is an ascending middle part. -/
theorem parts_of_sortedOn {ord : Less α} (A B C : List α)
    (h : SortedOn ord (A ++ (B ++ C)) A.length (A.length + B.length)) : Ascending ord B := by
  refine List.pairwise_iff_getElem.mpr ?_
  intro i j hi hj hij
  refine h (A.length + i) (A.length + j) _ _ (by omega) (by omega) (by omega) ?_ ?_
  · rw [getElem?_parts_mid A B C _ (by omega) (by omega)]
    simp [List.getElem?_eq_getElem hi]
  · rw [getElem?_parts_mid A B C _ (by omega) (by omega)]
    simp [List.getElem?_eq_getElem hj]

/-- A property of a range is a property of the values of the middle part. -/
theorem parts_of_allOn {P : α → Prop} (A B C : List α)
    (h : AllOn P (A ++ (B ++ C)) A.length (A.length + B.length)) : ∀ x, x ∈ B → P x := by
  intro x hx
  obtain ⟨k, hk⟩ := List.getElem?_of_mem hx
  have hkl : k < B.length := (List.getElem?_eq_some_iff.mp hk).1
  refine h (A.length + k) x (by omega) (by omega) ?_
  rw [getElem?_parts_mid A B C _ (by omega) (by omega)]
  simpa using hk

/-- Function `insertionSort(data, a, b)` returns, rearranges the range `[a, b)` only, and
leaves it ascending. -/
theorem insertionSort_spec {I : sort.Interface (comparables α)} {less ord : Less α}
    (hI : Drives I less ord) (v : List α) (a b : Nat) (hab : a ≤ b) (hb : b ≤ v.length) :
    ∃ w, sort.insertionSort I ⟨v, less⟩ a b = some ⟨w, less⟩ ∧ Within v w a b ∧
      (StrictWeakOrder ord → SortedOn ord w a b) := by
  obtain ⟨hv, hA, hB⟩ := split_range v a b hab hb
  obtain ⟨w, hw, hperm, hasc⟩ :=
    insertionSort_parts hI (v.take a) ((v.drop a).take (b - a)) (v.drop b)
  have hab' : a + (b - a) = b := by omega
  rw [hA, hB, hab', ← hv] at hw
  refine ⟨_, hw, ?_, ?_⟩
  · have h := within_of_parts (v.take a) ((v.drop a).take (b - a)) w (v.drop b) hperm
    rw [hA, hB, hab', ← hv] at h
    exact h
  · intro swo
    have h := sortedOn_of_parts (v.take a) w (v.drop b) (hasc swo)
    rw [hA, hperm.length_eq, hB, hab'] at h
    exact h

end partsLemmas

section scanLemmas

variable {α : Type}

/-- The loop `for i <= j && cond(i) { i++ }` returns the first position of `[i, j]` where
the condition fails, or `j + 1`. -/
theorem scanUp_spec (cond : Nat → Option Bool) (c : Nat → Bool) (j : Nat) :
    ∀ (fuel i : Nat), j + 1 < fuel + i → i ≤ j + 1 →
    (∀ k, i ≤ k → k ≤ j → cond k = some (c k)) →
    ∃ i', sort.scanUp cond j fuel i = some i' ∧ i ≤ i' ∧ i' ≤ j + 1 ∧
      (∀ k, i ≤ k → k < i' → c k = true) ∧ (i' ≤ j → c i' = false)
  | 0, i, hf, hij, _ => by omega
  | fuel + 1, i, hf, hij, hc => by
    unfold sort.scanUp
    by_cases hle : i ≤ j
    · simp only [hle, if_true, hc i (Nat.le_refl i) hle]
      cases hci : c i with
      | false =>
        exact ⟨i, rfl, Nat.le_refl i, hij, fun k h1 h2 => by omega, fun _ => hci⟩
      | true =>
        obtain ⟨i', h1, h2, h3, h4, h5⟩ :=
          scanUp_spec cond c j fuel (i + 1) (by omega) (by omega)
            (fun k hk1 hk2 => hc k (by omega) hk2)
        refine ⟨i', h1, by omega, h3, ?_, h5⟩
        intro k hk1 hk2
        by_cases hk : k = i
        · subst hk; exact hci
        · exact h4 k (by omega) hk2
    · simp only [hle, if_false]
      exact ⟨i, rfl, Nat.le_refl i, hij, fun k h1 h2 => by omega, fun h => absurd h hle⟩

/-- The loop `for i <= j && cond(j) { j-- }` returns the last position of `[i, j]` where
the condition fails, or `i - 1`. -/
theorem scanDown_spec (cond : Nat → Option Bool) (c : Nat → Bool) (i : Nat) (hi : 1 ≤ i) :
    ∀ (fuel j : Nat), j + 1 < fuel + i → i ≤ j + 1 →
    (∀ k, i ≤ k → k ≤ j → cond k = some (c k)) →
    ∃ j', sort.scanDown cond i fuel j = some j' ∧ j' ≤ j ∧ i ≤ j' + 1 ∧
      (∀ k, j' < k → k ≤ j → c k = true) ∧ (i ≤ j' → c j' = false)
  | 0, j, hf, hij, _ => by omega
  | fuel + 1, j, hf, hij, hc => by
    unfold sort.scanDown
    by_cases hle : i ≤ j
    · simp only [hle, if_true, hc j hle (Nat.le_refl j)]
      cases hcj : c j with
      | false =>
        exact ⟨j, rfl, Nat.le_refl j, hij, fun k h1 h2 => by omega, fun _ => hcj⟩
      | true =>
        obtain ⟨j', h1, h2, h3, h4, h5⟩ :=
          scanDown_spec cond c i hi fuel (j - 1) (by omega) (by omega)
            (fun k hk1 hk2 => hc k hk1 (by omega))
        refine ⟨j', h1, by omega, h3, ?_, h5⟩
        intro k hk1 hk2
        by_cases hk : k = j
        · subst hk; exact hcj
        · exact h4 k hk1 (by omega)
    · simp only [hle, if_false]
      exact ⟨j, rfl, Nat.le_refl j, hij, fun k h1 h2 => by omega, fun h => absurd h hle⟩

/-- A property of a range, read through a test on the values. -/
theorem allOn_of_test (q : α → Bool) (v : List α) (i i' : Nat)
    (h : ∀ k, i ≤ k → k < i' → ((v[k]?).map q).getD false = true) :
    AllOn (fun x => q x = true) v i i' := by
  intro k x h1 h2 hx
  have := h k h1 h2
  simpa [hx] using this

theorem AllOn.extend_right {P : α → Prop} {v : List α} {a i : Nat} {x : α}
    (h : AllOn P v a i) (hx : v[i]? = some x) (hP : P x) : AllOn P v a (i + 1) := by
  intro k y h1 h2 hy
  by_cases hk : k = i
  · subst hk
    rw [hx] at hy
    cases hy
    exact hP
  · exact h k y h1 (by omega) hy

theorem AllOn.extend_left {P : α → Prop} {v : List α} {j b : Nat} {x : α}
    (h : AllOn P v (j + 1) b) (hx : v[j]? = some x) (hP : P x) : AllOn P v j b := by
  intro k y h1 h2 hy
  by_cases hk : k = j
  · subst hk
    rw [hx] at hy
    cases hy
    exact hP
  · exact h k y (by omega) h2 hy

theorem AllOn.append {P : α → Prop} {v : List α} {a m b : Nat}
    (h1 : AllOn P v a m) (h2 : AllOn P v m b) : AllOn P v a b := by
  intro k y hk1 hk2 hy
  by_cases hk : k < m
  · exact h1 k y hk1 hk hy
  · exact h2 k y (by omega) hk2 hy

/-- A property of a range after a swap, from the property at the positions that did not
move and at the two values where they land inside the range. -/
theorem AllOn.of_swap {P : α → Prop} {v : List α} {c d i j : Nat} {x y : α}
    (hi : v[i]? = some x) (hj : v[j]? = some y)
    (h : ∀ k z, c ≤ k → k < d → k ≠ i → k ≠ j → v[k]? = some z → P z)
    (hx : c ≤ j → j < d → P x) (hy : c ≤ i → i < d → P y) :
    AllOn P ((v.set i y).set j x) c d := by
  intro k z h1 h2 hz
  rw [getElem?_set_set v i j x y hi hj] at hz
  by_cases hkj : k = j
  · subst hkj
    simp only [if_true, Option.some.injEq] at hz
    subst hz
    exact hx h1 h2
  · by_cases hki : k = i
    · subst hki
      simp only [hkj, if_false, if_true, Option.some.injEq] at hz
      subst hz
      exact hy h1 h2
    · simp only [hkj, hki, if_false] at hz
      exact h k z h1 h2 hki hkj hz

/-- A property of a range after a swap: it is enough that the two values moved satisfy it
where they land inside the range. -/
theorem AllOn.swapped {P : α → Prop} {v : List α} {c d i j : Nat} {x y : α}
    (h : AllOn P v c d) (hi : v[i]? = some x) (hj : v[j]? = some y)
    (hx : c ≤ j → j < d → P x) (hy : c ≤ i → i < d → P y) :
    AllOn P ((v.set i y).set j x) c d := by
  intro k z h1 h2 hz
  rw [getElem?_set_set v i j x y hi hj] at hz
  by_cases hkj : k = j
  · subst hkj
    simp only [if_true, Option.some.injEq] at hz
    subst hz
    exact hx h1 h2
  · by_cases hki : k = i
    · subst hki
      simp only [hkj, if_false, if_true, Option.some.injEq] at hz
      subst hz
      exact hy h1 h2
    · simp only [hkj, hki, if_false] at hz
      exact h k z h1 h2 hz

end scanLemmas

section partitionLemmas

variable {α : Type}

/-- Comparison of a position with the position `a` that holds `p`, as a test on values. -/
theorem less_left_test {I : sort.Interface (comparables α)} {less ord : Less α}
    (hI : Drives I less ord) (v : List α) (a k : Nat) (p : α) (ha : v[a]? = some p)
    (hk : k < v.length) :
    I.Less ⟨v, less⟩ k a = some (((v[k]?).map (fun x => ord x p)).getD false) := by
  obtain ⟨x, hx⟩ := getElem?_some_of_lt v k hk
  rw [hI.less_eq v k a x p hx ha, hx]
  rfl

theorem less_right_test {I : sort.Interface (comparables α)} {less ord : Less α}
    (hI : Drives I less ord) (v : List α) (a k : Nat) (p : α) (ha : v[a]? = some p)
    (hk : k < v.length) :
    I.Less ⟨v, less⟩ a k = some (((v[k]?).map (fun x => ord p x)).getD false) := by
  obtain ⟨x, hx⟩ := getElem?_some_of_lt v k hk
  rw [hI.less_eq v a k p x ha hx, hx]
  rfl

theorem notLess_left_test {I : sort.Interface (comparables α)} {less ord : Less α}
    (hI : Drives I less ord) (v : List α) (a k : Nat) (p : α) (ha : v[a]? = some p)
    (hk : k < v.length) :
    sort.notLess (I.Less ⟨v, less⟩ k a) =
      some (((v[k]?).map (fun x => !ord x p)).getD false) := by
  obtain ⟨x, hx⟩ := getElem?_some_of_lt v k hk
  rw [hI.less_eq v k a x p hx ha, hx]
  rfl

theorem notLess_right_test {I : sort.Interface (comparables α)} {less ord : Less α}
    (hI : Drives I less ord) (v : List α) (a k : Nat) (p : α) (ha : v[a]? = some p)
    (hk : k < v.length) :
    sort.notLess (I.Less ⟨v, less⟩ a k) =
      some (((v[k]?).map (fun x => !ord p x)).getD false) := by
  obtain ⟨x, hx⟩ := getElem?_some_of_lt v k hk
  rw [hI.less_eq v a k p x ha hx, hx]
  rfl

theorem test_false_elim (q : α → Bool) (v : List α) (k : Nat) (hk : k < v.length)
    (h : ((v[k]?).map q).getD false = false) : ∃ x, v[k]? = some x ∧ q x = false := by
  obtain ⟨x, hx⟩ := getElem?_some_of_lt v k hk
  refine ⟨x, hx, ?_⟩
  simpa [hx] using h

/-- Both scans of `partition` or `partitionEqual`, for a test `up` that lets the left index
advance and a test `down` that lets the right index retreat. -/
theorem scans_spec (v : List α) (up down : α → Bool) (condUp condDown : Nat → Option Bool)
    (i j : Nat) (hi : 1 ≤ i) (hij : i ≤ j + 1) (hj : j < v.length)
    (hup : ∀ k, k < v.length → condUp k = some (((v[k]?).map up).getD false))
    (hdown : ∀ k, k < v.length → condDown k = some (((v[k]?).map down).getD false)) :
    ∃ i' j', sort.scanUp condUp j (j + 2 - i) i = some i' ∧
      sort.scanDown condDown i' (j + 2 - i') j = some j' ∧
      i ≤ i' ∧ i' ≤ j + 1 ∧ j' ≤ j ∧ i' ≤ j' + 1 ∧
      AllOn (fun x => up x = true) v i i' ∧ AllOn (fun x => down x = true) v (j' + 1) (j + 1) ∧
      (i' ≤ j' → ∃ x y, v[i']? = some x ∧ up x = false ∧ v[j']? = some y ∧ down y = false) := by
  obtain ⟨i', h1, h2, h3, h4, h5⟩ :=
    scanUp_spec condUp (fun k => ((v[k]?).map up).getD false) j (j + 2 - i) i (by omega) hij
      (fun k _ hk => hup k (by omega))
  obtain ⟨j', g1, g2, g3, g4, g5⟩ :=
    scanDown_spec condDown (fun k => ((v[k]?).map down).getD false) i' (by omega)
      (j + 2 - i') j (by omega) h3 (fun k _ hk => hdown k (by omega))
  refine ⟨i', j', h1, g1, h2, h3, g2, g3, allOn_of_test up v i i' h4, ?_, ?_⟩
  · exact allOn_of_test down v (j' + 1) (j + 1) (fun k hk1 hk2 => g4 k (by omega) (by omega))
  · intro hle
    obtain ⟨x, hx, hux⟩ := test_false_elim up v i' (by omega) (h5 (by omega))
    obtain ⟨y, hy, hdy⟩ := test_false_elim down v j' (by omega) (g5 hle)
    exact ⟨x, y, hx, hux, hy, hdy⟩

/-- The main loop of `partition`: it returns, swaps inside `[i, j]` only, and extends the
part below the pivot value and the part not below it until they meet at the returned
position. -/
theorem partitionLoop_spec {I : sort.Interface (comparables α)} {less ord : Less α}
    (hI : Drives I less ord) (a b : Nat) (p : α) : ∀ (fuel : Nat) (v : List α) (i j : Nat),
    a + 1 ≤ i → j + 1 ≤ b → b ≤ v.length → i ≤ j + 1 → j + 1 < fuel + i →
    v[a]? = some p →
    ∃ w j', sort.partitionLoop I a fuel ⟨v, less⟩ i j = some (⟨w, less⟩, j') ∧
      Within v w i (j + 1) ∧ i ≤ j' + 1 ∧ j' ≤ j ∧
      (AllOn (fun x => ord x p = true) v (a + 1) i →
        AllOn (fun x => ord x p = false) v (j + 1) b →
        AllOn (fun x => ord x p = true) w (a + 1) (j' + 1) ∧
          AllOn (fun x => ord x p = false) w (j' + 1) b)
  | 0, v, i, j, _, _, _, hij, hf, _ => by omega
  | fuel + 1, v, i, j, hai, hjb, hbv, hij, hf, hpa => by
    unfold sort.partitionLoop
    obtain ⟨i', j', hsu, hsd, h1, h2, h3, h4, hlow, hhigh, hstop⟩ :=
      scans_spec v (fun x => ord x p) (fun x => !ord x p)
        (fun k => I.Less ⟨v, less⟩ k a) (fun k => sort.notLess (I.Less ⟨v, less⟩ k a))
        i j (by omega) hij (by omega)
        (fun k hk => less_left_test hI v a k p hpa hk)
        (fun k hk => notLess_left_test hI v a k p hpa hk)
    have hhigh' : AllOn (fun x => ord x p = false) v (j' + 1) (j + 1) :=
      hhigh.imp (fun x hx => by simpa using hx)
    simp only [hsu, hsd]
    by_cases hcross : j' < i'
    · simp only [hcross, if_true]
      refine ⟨v, j', rfl, Within.refl v _ _, by omega, h3, ?_⟩
      intro hl hh
      have hji : j' + 1 = i' := by omega
      exact ⟨hji ▸ hl.append hlow, hhigh'.append hh⟩
    · simp only [hcross, if_false]
      obtain ⟨x, y, hx, hux, hy, hdy⟩ := hstop (by omega)
      have hxp : ord x p = false := hux
      have hyp : ord y p = true := by simpa using hdy
      have hne : i' ≠ j' := by
        intro h
        rw [h, hy] at hx
        cases hx
        rw [hxp] at hyp
        exact absurd hyp (by decide)
      simp only [hI.swap_eq v i' j' x y hx hy]
      have hsw : Within v ((v.set i' y).set j' x) i (j + 1) :=
        Within.swap v i (j + 1) i' j' x y h1 (by omega) (by omega) (by omega) hx hy
      have hpa' : ((v.set i' y).set j' x)[a]? = some p := by
        rw [hsw.2.1 a (by omega)]
        exact hpa
      obtain ⟨w, jf, hw, hwin, g1, g2, hpost⟩ :=
        partitionLoop_spec hI a b p fuel ((v.set i' y).set j' x) (i' + 1) (j' - 1)
          (by omega) (by omega) (by simpa using hbv) (by omega) (by omega) hpa'
      refine ⟨w, jf, hw, hsw.trans (hwin.mono (by omega) (by omega)), by omega, by omega, ?_⟩
      intro hl hh
      have hj1 : j' - 1 + 1 = j' := by omega
      refine hpost ?_ ?_
      · exact AllOn.of_swap hx hy
          (fun k z hk1 hk2 hki _ hz => (hl.append hlow) k z hk1 (by omega) hz)
          (fun _ _ => by omega) (fun _ _ => hyp)
      · rw [hj1]
        exact AllOn.of_swap hx hy
          (fun k z hk1 hk2 _ hkj hz => (hhigh'.append hh) k z (by omega) hk2 hz)
          (fun _ _ => hxp) (fun _ _ => by omega)

end partitionLemmas

section partitionLemmas2

variable {α : Type}

/-- The last step of `partition`: the swap of the pivot value into its final position. -/
theorem partition_finish {I : sort.Interface (comparables α)} {less ord : Less α}
    (hI : Drives I less ord) (w : List α) (a b j : Nat) (p : α)
    (haj : a ≤ j) (hjb : j < b) (hb : b ≤ w.length) (hpa : w[a]? = some p)
    (hlow : AllOn (fun x => ord x p = true) w (a + 1) (j + 1))
    (hhigh : AllOn (fun x => ord x p = false) w (j + 1) b) :
    ∃ u, I.Swap ⟨w, less⟩ j a = some ⟨u, less⟩ ∧ Within w u a b ∧ u[j]? = some p ∧
      AllOn (fun x => ord x p = true) u a j ∧ AllOn (fun x => ord x p = false) u (j + 1) b := by
  obtain ⟨y, hy⟩ := getElem?_some_of_lt w j (by omega)
  refine ⟨(w.set j p).set a y, hI.swap_eq w j a y p hy hpa,
    Within.swap w a b j a y p haj hjb (Nat.le_refl a) (by omega) hy hpa, ?_, ?_, ?_⟩
  · rw [getElem?_set_set w j a y p hy hpa]
    by_cases hja : j = a
    · subst hja
      rw [hpa] at hy
      simp [hy]
    · simp [hja]
  · refine AllOn.of_swap hy hpa
      (fun k z hk1 hk2 _ hka hz => hlow k z (by omega) (by omega) hz) ?_ (fun _ h => by omega)
    intro _ haj'
    exact hlow j y (by omega) (by omega) hy
  · exact AllOn.of_swap hy hpa
      (fun k z hk1 hk2 _ _ hz => hhigh k z hk1 hk2 hz) (fun h _ => by omega)
      (fun h _ => by omega)

/-- Function `partition(data, a, b, pivot)` returns, rearranges the range `[a, b)` only, and
puts the pivot value at the returned position, the values below it before, and the values
not below it behind. -/
theorem partition_spec {I : sort.Interface (comparables α)} {less ord : Less α}
    (hI : Drives I less ord) (v : List α) (a b pivot : Nat) (p : α)
    (hap : a ≤ pivot) (hpb : pivot < b) (hb : b ≤ v.length) (hp : v[pivot]? = some p) :
    ∃ w mid already, sort.partition I ⟨v, less⟩ a b pivot = some (⟨w, less⟩, mid, already) ∧
      Within v w a b ∧ a ≤ mid ∧ mid < b ∧ w[mid]? = some p ∧
      AllOn (fun x => ord x p = true) w a mid ∧
      AllOn (fun x => ord x p = false) w (mid + 1) b := by
  obtain ⟨q, hq⟩ := getElem?_some_of_lt v a (by omega)
  unfold sort.partition
  simp only [hI.swap_eq v a pivot q p hq hp]
  have hw1 : Within v ((v.set a p).set pivot q) a b :=
    Within.swap v a b a pivot q p (Nat.le_refl a) (by omega) hap hpb hq hp
  have hl1 : ((v.set a p).set pivot q).length = v.length := hw1.length_eq
  have hpa : ((v.set a p).set pivot q)[a]? = some p := by
    rw [getElem?_set_set v a pivot q p hq hp]
    by_cases h : a = pivot
    · subst h
      rw [hp] at hq
      simp [hq]
    · simp [h]
  obtain ⟨i', j', hsu, hsd, h1, h2, h3, h4, hlow, hhigh, hstop⟩ :=
    scans_spec ((v.set a p).set pivot q) (fun x => ord x p) (fun x => !ord x p)
      (fun k => I.Less ⟨(v.set a p).set pivot q, less⟩ k a)
      (fun k => sort.notLess (I.Less ⟨(v.set a p).set pivot q, less⟩ k a))
      (a + 1) (b - 1) (by omega) (by omega) (by omega)
      (fun k hk => less_left_test hI _ a k p hpa hk)
      (fun k hk => notLess_left_test hI _ a k p hpa hk)
  have hb1 : b - 1 + 1 = b := by omega
  rw [hb1] at hhigh
  have hhigh' : AllOn (fun x => ord x p = false) ((v.set a p).set pivot q) (j' + 1) b :=
    hhigh.imp (fun x hx => by simpa using hx)
  simp only [hsu, hsd]
  by_cases hcross : j' < i'
  · simp only [hcross, if_true]
    have hji : j' + 1 = i' := by omega
    obtain ⟨u, hu, hwu, hup, hul, huh⟩ :=
      partition_finish hI ((v.set a p).set pivot q) a b j' p (by omega) (by omega)
        (by omega) hpa (hji ▸ hlow) hhigh'
    simp only [hu]
    exact ⟨u, j', true, rfl, hw1.trans hwu, by omega, by omega, hup, hul, huh⟩
  · simp only [hcross, if_false]
    obtain ⟨x, y, hx, hux, hy, hdy⟩ := hstop (by omega)
    have hxp : ord x p = false := hux
    have hyp : ord y p = true := by simpa using hdy
    have hne : i' ≠ j' := by
      intro h
      rw [h, hy] at hx
      cases hx
      rw [hxp] at hyp
      exact absurd hyp (by decide)
    simp only [hI.swap_eq _ i' j' x y hx hy]
    have hw2 : Within ((v.set a p).set pivot q)
        ((((v.set a p).set pivot q).set i' y).set j' x) a b :=
      Within.swap _ a b i' j' x y (by omega) (by omega) (by omega) (by omega) hx hy
    have hpa2 : ((((v.set a p).set pivot q).set i' y).set j' x)[a]? = some p := by
      rw [getElem?_set_set _ i' j' x y hx hy]
      have e1 : ¬ a = j' := by omega
      have e2 : ¬ a = i' := by omega
      simp only [e1, e2, if_false]
      exact hpa
    obtain ⟨w, jf, hw, hwin, g1, g2, hpost⟩ :=
      partitionLoop_spec hI a b p (j' + 2 - i')
        ((((v.set a p).set pivot q).set i' y).set j' x) (i' + 1) (j' - 1)
        (by omega) (by omega) (by rw [hw2.length_eq]; omega) (by omega) (by omega) hpa2
    have hj1 : j' - 1 + 1 = j' := by omega
    rw [hj1] at hwin hpost
    obtain ⟨hwl, hwh⟩ := hpost
      (AllOn.of_swap hx hy
        (fun k z hk1 hk2 hki _ hz => hlow k z hk1 (by omega) hz)
        (fun _ _ => by omega) (fun _ _ => hyp))
      (AllOn.of_swap hx hy
        (fun k z hk1 hk2 _ hkj hz => hhigh' k z (by omega) hk2 hz)
        (fun _ _ => hxp) (fun _ _ => by omega))
    have hwa : w[a]? = some p := by
      rw [hwin.2.1 a (by omega)]
      exact hpa2
    obtain ⟨u, hu, hwu, hup, hul, huh⟩ :=
      partition_finish hI w a b jf p (by omega) (by omega)
        (by rw [hwin.length_eq, hw2.length_eq]; omega) hwa hwl hwh
    simp only [hw, hu]
    exact ⟨u, jf, false, rfl,
      (hw1.trans (hw2.trans (hwin.mono (by omega) (by omega)))).trans hwu,
      by omega, by omega, hup, hul, huh⟩

/-- The loop of `partitionEqual`: it returns, swaps inside `[i, j]` only, and extends the
part not above the pivot value and the part above it until they meet at the returned
position. -/
theorem partitionEqualLoop_spec {I : sort.Interface (comparables α)} {less ord : Less α}
    (hI : Drives I less ord) (a b : Nat) (p : α) : ∀ (fuel : Nat) (v : List α) (i j : Nat),
    a + 1 ≤ i → j + 1 ≤ b → b ≤ v.length → i ≤ j + 1 → j + 1 < fuel + i →
    v[a]? = some p →
    ∃ w i', sort.partitionEqualLoop I a fuel ⟨v, less⟩ i j = some (⟨w, less⟩, i') ∧
      Within v w i (j + 1) ∧ i ≤ i' ∧ i' ≤ j + 1 ∧
      (AllOn (fun x => ord p x = false) v (a + 1) i →
        AllOn (fun x => ord p x = true) v (j + 1) b →
        AllOn (fun x => ord p x = false) w (a + 1) i' ∧
          AllOn (fun x => ord p x = true) w i' b)
  | 0, v, i, j, _, _, _, hij, hf, _ => by omega
  | fuel + 1, v, i, j, hai, hjb, hbv, hij, hf, hpa => by
    unfold sort.partitionEqualLoop
    obtain ⟨i', j', hsu, hsd, h1, h2, h3, h4, hlow, hhigh, hstop⟩ :=
      scans_spec v (fun x => !ord p x) (fun x => ord p x)
        (fun k => sort.notLess (I.Less ⟨v, less⟩ a k)) (fun k => I.Less ⟨v, less⟩ a k)
        i j (by omega) hij (by omega)
        (fun k hk => notLess_right_test hI v a k p hpa hk)
        (fun k hk => less_right_test hI v a k p hpa hk)
    have hlow' : AllOn (fun x => ord p x = false) v i i' :=
      hlow.imp (fun x hx => by simpa using hx)
    simp only [hsu, hsd]
    by_cases hcross : j' < i'
    · simp only [hcross, if_true]
      refine ⟨v, i', rfl, Within.refl v _ _, h1, h2, ?_⟩
      intro hl hh
      have hji : j' + 1 = i' := by omega
      exact ⟨hl.append hlow', hji ▸ (hhigh.append hh)⟩
    · simp only [hcross, if_false]
      obtain ⟨x, y, hx, hux, hy, hdy⟩ := hstop (by omega)
      have hxp : ord p x = true := by simpa using hux
      have hyp : ord p y = false := hdy
      have hne : i' ≠ j' := by
        intro h
        rw [h, hy] at hx
        cases hx
        rw [hxp] at hyp
        exact absurd hyp (by decide)
      simp only [hI.swap_eq v i' j' x y hx hy]
      have hsw : Within v ((v.set i' y).set j' x) i (j + 1) :=
        Within.swap v i (j + 1) i' j' x y h1 (by omega) (by omega) (by omega) hx hy
      have hpa' : ((v.set i' y).set j' x)[a]? = some p := by
        rw [hsw.2.1 a (by omega)]
        exact hpa
      obtain ⟨w, jf, hw, hwin, g1, g2, hpost⟩ :=
        partitionEqualLoop_spec hI a b p fuel ((v.set i' y).set j' x) (i' + 1) (j' - 1)
          (by omega) (by omega) (by simpa using hbv) (by omega) (by omega) hpa'
      refine ⟨w, jf, hw, hsw.trans (hwin.mono (by omega) (by omega)), by omega, by omega, ?_⟩
      intro hl hh
      have hj1 : j' - 1 + 1 = j' := by omega
      refine hpost ?_ ?_
      · exact AllOn.of_swap hx hy
          (fun k z hk1 hk2 hki _ hz => (hl.append hlow') k z hk1 (by omega) hz)
          (fun _ _ => by omega) (fun _ _ => hyp)
      · rw [hj1]
        exact AllOn.of_swap hx hy
          (fun k z hk1 hk2 _ hkj hz => (hhigh.append hh) k z (by omega) hk2 hz)
          (fun _ _ => hxp) (fun _ _ => by omega)

/-- Function `partitionEqual(data, a, b, pivot)` returns, rearranges the range `[a, b)`
only, and puts the values not above the pivot value before the returned position and the
values above it from there on. -/
theorem partitionEqual_spec {I : sort.Interface (comparables α)} {less ord : Less α}
    (hI : Drives I less ord) (v : List α) (a b pivot : Nat) (p : α)
    (hap : a ≤ pivot) (hpb : pivot < b) (hb : b ≤ v.length) (hp : v[pivot]? = some p) :
    ∃ w mid, sort.partitionEqual I ⟨v, less⟩ a b pivot = some (⟨w, less⟩, mid) ∧
      Within v w a b ∧ a + 1 ≤ mid ∧ mid ≤ b ∧
      (StrictWeakOrder ord → AllOn (fun x => ord p x = false) w a mid ∧
        AllOn (fun x => ord p x = true) w mid b) := by
  obtain ⟨q, hq⟩ := getElem?_some_of_lt v a (by omega)
  unfold sort.partitionEqual
  simp only [hI.swap_eq v a pivot q p hq hp]
  have hw1 : Within v ((v.set a p).set pivot q) a b :=
    Within.swap v a b a pivot q p (Nat.le_refl a) (by omega) hap hpb hq hp
  have hpa : ((v.set a p).set pivot q)[a]? = some p := by
    rw [getElem?_set_set v a pivot q p hq hp]
    by_cases h : a = pivot
    · subst h
      rw [hp] at hq
      simp [hq]
    · simp [h]
  obtain ⟨w, mid, hw, hwin, g1, g2, hpost⟩ :=
    partitionEqualLoop_spec hI a b p (b + 1 - a) ((v.set a p).set pivot q) (a + 1) (b - 1)
      (Nat.le_refl _) (by omega) (by rw [hw1.length_eq]; exact hb) (by omega) (by omega) hpa
  have hb1 : b - 1 + 1 = b := by omega
  rw [hb1] at hwin hpost g2
  refine ⟨w, mid, hw, hw1.trans (hwin.mono (by omega) (Nat.le_refl b)), g1, g2, ?_⟩
  intro swo
  obtain ⟨hl, hh⟩ := hpost (fun k z hk1 hk2 _ => by omega) (fun k z hk1 hk2 _ => by omega)
  have hwa : w[a]? = some p := by
    rw [hwin.2.1 a (by omega)]
    exact hpa
  exact ⟨hl.extend_left hwa (swo.irrefl p), hh⟩

end partitionLemmas2

section smallLemmas

variable {α : Type}

/-- The loop of `partialInsertionSort` that shifts the greater element to the right
returns and rearranges the positions from `j - 1` on only. -/
theorem shiftRight_spec {I : sort.Interface (comparables α)} {less ord : Less α}
    (hI : Drives I less ord) : ∀ (n j : Nat) (v : List α), 1 ≤ j → j + n ≤ v.length →
    ∃ w, sort.shiftRight I n j ⟨v, less⟩ = some ⟨w, less⟩ ∧ Within v w (j - 1) (j + n)
  | 0, j, v, _, _ => ⟨v, rfl, Within.refl v _ _⟩
  | n + 1, j, v, hj, hlen => by
    obtain ⟨x, hx⟩ := getElem?_some_of_lt v j (by omega)
    obtain ⟨y, hy⟩ := getElem?_some_of_lt v (j - 1) (by omega)
    unfold sort.shiftRight
    simp only [hI.less_eq v j (j - 1) x y hx hy]
    cases hlt : ord x y with
    | false => exact ⟨v, rfl, Within.refl v _ _⟩
    | true =>
      simp only [hI.swap_eq v j (j - 1) x y hx hy]
      have hsw : Within v ((v.set j y).set (j - 1) x) (j - 1) (j + (n + 1)) :=
        Within.swap v _ _ j (j - 1) x y (by omega) (by omega) (Nat.le_refl _) (by omega) hx hy
      obtain ⟨w, hw, hwin⟩ := shiftRight_spec hI n (j + 1) ((v.set j y).set (j - 1) x)
        (by omega) (by rw [hsw.length_eq]; omega)
      exact ⟨w, hw, hsw.trans (hwin.mono (by omega) (by omega))⟩

/-- The loop of `reverseRange` returns and rearranges the positions of `[i, j]` only. -/
theorem reverseLoop_spec {I : sort.Interface (comparables α)} {less ord : Less α}
    (hI : Drives I less ord) : ∀ (fuel i j : Nat) (v : List α), 1 ≤ fuel → j < fuel + i →
    j < v.length →
    ∃ w, sort.reverseLoop I fuel i j ⟨v, less⟩ = some ⟨w, less⟩ ∧ Within v w i (j + 1)
  | 0, _, _, _, h, _, _ => by omega
  | fuel + 1, i, j, v, _, hf, hj => by
    unfold sort.reverseLoop
    by_cases hij : i < j
    · simp only [hij, if_true]
      obtain ⟨x, hx⟩ := getElem?_some_of_lt v i (by omega)
      obtain ⟨y, hy⟩ := getElem?_some_of_lt v j hj
      simp only [hI.swap_eq v i j x y hx hy]
      have hsw : Within v ((v.set i y).set j x) i (j + 1) :=
        Within.swap v _ _ i j x y (Nat.le_refl _) (by omega) (by omega) (by omega) hx hy
      obtain ⟨w, hw, hwin⟩ := reverseLoop_spec hI fuel (i + 1) (j - 1) ((v.set i y).set j x)
        (by omega) (by omega) (by rw [hsw.length_eq]; omega)
      exact ⟨w, hw, hsw.trans (hwin.mono (by omega) (by omega))⟩
    · simp only [hij, if_false]
      exact ⟨v, rfl, Within.refl v _ _⟩

/-- Function `reverseRange(data, a, b)` returns and rearranges the range `[a, b)` only. -/
theorem reverseRange_spec {I : sort.Interface (comparables α)} {less ord : Less α}
    (hI : Drives I less ord) (v : List α) (a b : Nat) (hab : a < b) (hb : b ≤ v.length) :
    ∃ w, sort.reverseRange I ⟨v, less⟩ a b = some ⟨w, less⟩ ∧ Within v w a b := by
  obtain ⟨w, hw, hwin⟩ := reverseLoop_spec hI (b - a + 1) a (b - 1) v (by omega) (by omega)
    (by omega)
  have hb1 : b - 1 + 1 = b := by omega
  rw [hb1] at hwin
  exact ⟨w, hw, hwin⟩

/-- The power of two of `bits.Len` is at most twice the number. -/
theorem bitsLenAux_le : ∀ (fuel n : Nat), 1 ≤ n → n ≤ fuel →
    2 ^ sort.bitsLenAux fuel n ≤ 2 * n
  | 0, n, h1, h2 => by omega
  | fuel + 1, n, h1, h2 => by
    unfold sort.bitsLenAux
    have hn : ¬ n = 0 := by omega
    simp only [hn, if_false]
    by_cases h : n / 2 = 0
    · have : sort.bitsLenAux fuel (n / 2) = 0 := by
        rw [h]
        cases fuel <;> simp [sort.bitsLenAux]
      rw [this]
      simp
      omega
    · have ih := bitsLenAux_le fuel (n / 2) (by omega) (by omega)
      rw [Nat.pow_succ]
      omega

theorem nextPowerOfTwo_le (n : Nat) (h : 1 ≤ n) : sort.nextPowerOfTwo n ≤ 2 * n :=
  bitsLenAux_le n n h (Nat.le_refl n)

/-- The loop of `breakPatterns` returns and rearranges the range `[a, b)` only. -/
theorem breakLoop_spec {I : sort.Interface (comparables α)} {less ord : Less α}
    (next : Nat → Nat) (hI : Drives I less ord) (a b modulus idx : Nat) (hab : a < b)
    (hmod : modulus ≤ 2 * (b - a)) :
    ∀ (n i random : Nat) (v : List α), a ≤ idx - 1 + i → idx - 1 + i + n ≤ b →
    b ≤ v.length →
    ∃ w, sort.breakLoop next I a (b - a) modulus idx n i random ⟨v, less⟩ = some ⟨w, less⟩ ∧
      Within v w a b
  | 0, _, _, v, _, _, _ => ⟨v, rfl, Within.refl v _ _⟩
  | n + 1, i, random, v, h1, h2, hb => by
    unfold sort.breakLoop
    simp only
    have hand : next random &&& (modulus - 1) ≤ modulus - 1 := Nat.and_le_right
    generalize next random &&& (modulus - 1) = other at hand
    have hother : (if b - a ≤ other then other - (b - a) else other) < b - a := by
      split <;> omega
    generalize (if b - a ≤ other then other - (b - a) else other) = o at hother
    obtain ⟨x, hx⟩ := getElem?_some_of_lt v (idx - 1 + i) (by omega)
    obtain ⟨y, hy⟩ := getElem?_some_of_lt v (a + o) (by omega)
    simp only [hI.swap_eq v _ _ x y hx hy]
    have hsw : Within v ((v.set (idx - 1 + i) y).set (a + o) x) a b :=
      Within.swap v _ _ _ _ x y h1 (by omega) (by omega) (by omega) hx hy
    obtain ⟨w, hw, hwin⟩ := breakLoop_spec next hI a b modulus idx hab hmod n (i + 1)
      (next random) _ (by omega) (by omega) (by rw [hsw.length_eq]; exact hb)
    exact ⟨w, hw, hsw.trans hwin⟩

/-- Function `breakPatterns(data, a, b)` returns and rearranges the range `[a, b)` only. -/
theorem breakPatterns_spec {I : sort.Interface (comparables α)} {less ord : Less α}
    (next : Nat → Nat) (hI : Drives I less ord) (v : List α) (a b : Nat) (hab : a ≤ b)
    (hb : b ≤ v.length) :
    ∃ w, sort.breakPatterns next I ⟨v, less⟩ a b = some ⟨w, less⟩ ∧ Within v w a b := by
  unfold sort.breakPatterns
  simp only
  by_cases h8 : 8 ≤ b - a
  · simp only [h8, if_true]
    have hq : 2 ≤ (b - a) / 4 := by omega
    have hq2 : (b - a) / 4 * 4 ≤ b - a := Nat.div_mul_le_self _ _
    exact breakLoop_spec next hI a b _ _ (by omega) (nextPowerOfTwo_le (b - a) (by omega)) 3 0
      (b - a) v (by omega) (by omega) hb
  · simp only [h8, if_false]
    exact ⟨v, rfl, Within.refl v _ _⟩

/-- Function `order2` returns its two indices in one of the two orders. -/
theorem order2_spec {I : sort.Interface (comparables α)} {less ord : Less α}
    (hI : Drives I less ord) (v : List α) (a b swaps : Nat) (P : Nat → Prop)
    (hP : ∀ i, P i → i < v.length) (ha : P a) (hb : P b) :
    ∃ x y s, sort.order2 I ⟨v, less⟩ a b swaps = some (x, y, s) ∧ P x ∧ P y := by
  obtain ⟨x, hx⟩ := getElem?_some_of_lt v a (hP a ha)
  obtain ⟨y, hy⟩ := getElem?_some_of_lt v b (hP b hb)
  unfold sort.order2
  simp only [hI.less_eq v b a y x hy hx]
  cases ord y x with
  | false => exact ⟨a, b, swaps, rfl, ha, hb⟩
  | true => exact ⟨b, a, swaps + 1, rfl, hb, ha⟩

/-- Function `median` returns one of its three indices. -/
theorem median_spec {I : sort.Interface (comparables α)} {less ord : Less α}
    (hI : Drives I less ord) (v : List α) (a b c swaps : Nat) (P : Nat → Prop)
    (hP : ∀ i, P i → i < v.length) (ha : P a) (hb : P b) (hc : P c) :
    ∃ m s, sort.median I ⟨v, less⟩ a b c swaps = some (m, s) ∧ P m := by
  obtain ⟨a1, b1, s1, h1, ha1, hb1⟩ := order2_spec hI v a b swaps P hP ha hb
  obtain ⟨b2, c2, s2, h2, hb2, _⟩ := order2_spec hI v b1 c s1 P hP hb1 hc
  obtain ⟨a3, b3, s3, h3, _, hb3⟩ := order2_spec hI v a1 b2 s2 P hP ha1 hb2
  unfold sort.median
  simp only [h1, h2, h3]
  exact ⟨b3, s3, rfl, hb3⟩

/-- The hint that `choosePivot` derives from the number of swaps. -/
theorem choosePivot_hint (j s : Nat) : ∃ hint,
    (if s = 0 then some (j, sort.sortedHint.increasingHint)
      else if s = 12 then some (j, sort.sortedHint.decreasingHint)
      else some (j, sort.sortedHint.unknownHint)) = some (j, hint) := by
  by_cases h0 : s = 0
  · exact ⟨_, if_pos h0⟩
  · by_cases h12 : s = 12
    · exact ⟨_, (if_neg h0).trans (if_pos h12)⟩
    · exact ⟨_, (if_neg h0).trans (if_neg h12)⟩

/-- Function `choosePivot(data, a, b)` returns a position of `[a, b)`. -/
theorem choosePivot_spec {I : sort.Interface (comparables α)} {less ord : Less α}
    (hI : Drives I less ord) (v : List α) (a b : Nat) (hab : a < b) (hb : b ≤ v.length) :
    ∃ pivot hint, sort.choosePivot I ⟨v, less⟩ a b = some (pivot, hint) ∧
      a ≤ pivot ∧ pivot < b := by
  have hP : ∀ i, (a ≤ i ∧ i < b) → i < v.length := fun i h => by omega
  have hq4 : (b - a) / 4 * 4 ≤ b - a := Nat.div_mul_le_self _ _
  unfold sort.choosePivot
  simp only
  by_cases h8 : 8 ≤ b - a
  · simp only [h8, if_true]
    by_cases h50 : 50 ≤ b - a
    · simp only [h50, if_true]
      obtain ⟨i1, s1, h1, hi1⟩ := median_spec hI v (a + (b - a) / 4 * 1 - 1)
        (a + (b - a) / 4 * 1) (a + (b - a) / 4 * 1 + 1) 0 (fun i => a ≤ i ∧ i < b) hP
        (by omega) (by omega) (by omega)
      obtain ⟨i2, s2, h2, hi2⟩ := median_spec hI v (a + (b - a) / 4 * 2 - 1)
        (a + (b - a) / 4 * 2) (a + (b - a) / 4 * 2 + 1) s1 (fun i => a ≤ i ∧ i < b) hP
        (by omega) (by omega) (by omega)
      obtain ⟨i3, s3, h3, hi3⟩ := median_spec hI v (a + (b - a) / 4 * 3 - 1)
        (a + (b - a) / 4 * 3) (a + (b - a) / 4 * 3 + 1) s2 (fun i => a ≤ i ∧ i < b) hP
        (by omega) (by omega) (by omega)
      obtain ⟨m, s, h4, hm⟩ := median_spec hI v i1 i2 i3 s3 (fun i => a ≤ i ∧ i < b) hP
        hi1 hi2 hi3
      simp only [sort.medianAdjacent, h1, h2, h3, h4]
      obtain ⟨hint, hh⟩ := choosePivot_hint m s
      exact ⟨m, hint, hh, hm⟩
    · simp only [h50, if_false]
      obtain ⟨m, s, h4, hm⟩ := median_spec hI v (a + (b - a) / 4 * 1)
        (a + (b - a) / 4 * 2) (a + (b - a) / 4 * 3) 0 (fun i => a ≤ i ∧ i < b) hP
        (by omega) (by omega) (by omega)
      simp only [h4]
      obtain ⟨hint, hh⟩ := choosePivot_hint m s
      exact ⟨m, hint, hh, hm⟩
  · simp only [h8, if_false]
    obtain ⟨hint, hh⟩ := choosePivot_hint (a + (b - a) / 4 * 2) 0
    exact ⟨_, hint, hh, by omega, by omega⟩

end smallLemmas

section partialInsertionLemmas

variable {α : Type}

/-- A slice split around the position `i` and at the bound `a`. -/
theorem split_at (v : List α) (a i : Nat) (x : α) (hai : a ≤ i) (hx : v[i]? = some x) :
    ∃ A L R, v = A ++ (L ++ x :: R) ∧ A.length = a ∧ L.length = i - a := by
  have hi : i < v.length := (List.getElem?_eq_some_iff.mp hx).1
  obtain ⟨hv, hA, hL⟩ := split_range v a i hai (by omega)
  have hd : v.drop i = x :: v.drop (i + 1) := by
    rw [List.drop_eq_getElem_cons hi]
    congr 1
    exact (List.getElem?_eq_some_iff.mp hx).2
  rw [hd] at hv
  exact ⟨_, _, _, hv, hA, hL⟩

/-- The inner loop of the insertion sort started at position `i`, with lower bound `a0`:
it returns; when the value in front of position `a` stops the loop, it rearranges the
positions of `[a, i]` only and extends an ascending range `[a, i)` by the position `i`. -/
theorem insertLoop_range {I : sort.Interface (comparables α)} {less ord : Less α}
    (hI : Drives I less ord) (v : List α) (a0 a i : Nat) (x : α) (ha0 : a0 ≤ a)
    (hai : a ≤ i) (hx : v[i]? = some x)
    (hstop : a0 < a → ∃ z, v[a - 1]? = some z ∧ ord x z = false) :
    ∃ w, sort.insertLoop I a0 (i - a0) ⟨v, less⟩ = some ⟨w, less⟩ ∧ Within v w a (i + 1) ∧
      (StrictWeakOrder ord → SortedOn ord v a i → SortedOn ord w a (i + 1)) := by
  obtain ⟨A, L, R, rfl, hA, hL⟩ := split_at v a i x hai hx
  have hstop' : a0 < A.length → ∃ z, A.getLast? = some z ∧ ord x z = false := by
    intro h
    obtain ⟨z, hz, hxz⟩ := hstop (by omega)
    refine ⟨z, ?_, hxz⟩
    rw [List.getLast?_eq_getElem?, hA, ← hz, List.getElem?_append_left (by omega)]
  obtain ⟨w, hw, hperm, hasc⟩ := insertLoop_spec hI a0 (i - a) A L [] R x (by omega) hL hstop'
  have hm : A.length - a0 + (i - a) = i - a0 := by omega
  rw [hm] at hw
  have hlist : A ++ (L ++ x :: ([] ++ R)) = A ++ (L ++ x :: R) := by simp
  rw [hlist] at hw
  have hlen : A.length + (L ++ [x]).length = i + 1 := by
    simp only [List.length_append, List.length_cons, List.length_nil]
    omega
  have hlist2 : A ++ ((L ++ [x]) ++ R) = A ++ (L ++ x :: R) := by simp
  refine ⟨_, hw, ?_, ?_⟩
  · have h := within_of_parts A (L ++ [x]) w R hperm
    rw [hlen, hlist2, hA] at h
    exact h
  · intro swo hs
    have hL' : Ascending ord L := by
      refine parts_of_sortedOn A L (x :: R) ?_
      rw [hA, hL]
      have : a + (i - a) = i := by omega
      rw [this]
      exact hs
    have h := sortedOn_of_parts A w R
      (hasc swo (by simpa using hL') (fun y hy => absurd hy (List.not_mem_nil y)))
    rw [hperm.length_eq, hlen, hA] at h
    exact h

/-- An ascending range followed by positions that are each not less than the one before
is ascending. -/
theorem sortedOn_of_adjacent {ord : Less α} (swo : StrictWeakOrder ord) (v : List α)
    (a i : Nat) (hai : a + 1 ≤ i) (hs : SortedOn ord v a i) :
    ∀ (b : Nat), b ≤ v.length →
    (∀ k x y, i ≤ k → k < b → v[k]? = some x → v[k - 1]? = some y → ord x y = false) →
    SortedOn ord v a b
  | 0, _, _ => fun p q _ _ _ _ h3 _ _ => by omega
  | b + 1, hb, hadj => by
    by_cases hbi : b + 1 ≤ i
    · exact hs.restrict (Nat.le_refl a) hbi
    · have ih := sortedOn_of_adjacent swo v a i hai hs b (by omega)
        (fun k x y h1 h2 hx hy => hadj k x y h1 (by omega) hx hy)
      intro p q x y h1 h2 h3 hx hy
      by_cases hq : q < b
      · exact ih p q x y h1 h2 hq hx hy
      · have hqb : q = b := by omega
        subst hqb
        obtain ⟨z, hz⟩ := getElem?_some_of_lt v (q - 1) (by omega)
        have hyz : ord y z = false := hadj q y z (by omega) (by omega) hy hz
        by_cases hp : p = q - 1
        · subst hp
          rw [hz] at hx
          cases hx
          exact hyz
        · exact swo.not_less_trans hyz (ih p (q - 1) x z h1 (by omega) (by omega) hx hz)

/-- One step of `partialInsertionSort` at an out-of-order position `i`: the swap with the
position before, the shift of the smaller element to the left and the shift of the greater
one to the right all return; when the value in front of the range is not above its values,
the range `[a, b)` alone is rearranged and `[a, i)` stays ascending. -/
theorem partialInsertion_shift {I : sort.Interface (comparables α)} {less ord : Less α}
    (hI : Drives I less ord) (v : List α) (a b i : Nat) (hai : a + 1 ≤ i) (hib : i < b)
    (hb : b ≤ v.length) :
    ∃ v1 v2 v3, I.Swap ⟨v, less⟩ i (i - 1) = some ⟨v1, less⟩ ∧
      (if 2 ≤ i - a then sort.insertLoop I 0 (i - 1) ⟨v1, less⟩ else some ⟨v1, less⟩) =
        some ⟨v2, less⟩ ∧
      (if 2 ≤ b - i then sort.shiftRight I (b - (i + 1)) (i + 1) ⟨v2, less⟩
        else some ⟨v2, less⟩) = some ⟨v3, less⟩ ∧
      List.Perm v3 v ∧
      (StrictWeakOrder ord →
        (0 < a → ∃ z, v[a - 1]? = some z ∧ AllOn (fun x => ord x z = false) v a b) →
        SortedOn ord v a i → Within v v3 a b ∧ SortedOn ord v3 a i) := by
  obtain ⟨x, hx⟩ := getElem?_some_of_lt v i (by omega)
  obtain ⟨y, hy⟩ := getElem?_some_of_lt v (i - 1) (by omega)
  have hw1 : Within v ((v.set i y).set (i - 1) x) (i - 1) (i + 1) :=
    Within.swap v _ _ i (i - 1) x y (by omega) (by omega) (Nat.le_refl _) (by omega) hx hy
  have hx1 : ((v.set i y).set (i - 1) x)[i - 1]? = some x := by
    rw [getElem?_set_set v i (i - 1) x y hx hy]
    simp
  -- the shift to the left
  have hleft : ∃ v2, (if 2 ≤ i - a then
        sort.insertLoop I 0 (i - 1) ⟨(v.set i y).set (i - 1) x, less⟩
        else some ⟨(v.set i y).set (i - 1) x, less⟩) = some ⟨v2, less⟩ ∧
      List.Perm v2 v ∧
      (StrictWeakOrder ord →
        (0 < a → ∃ z, v[a - 1]? = some z ∧ AllOn (fun x => ord x z = false) v a b) →
        SortedOn ord v a i → Within v v2 a (i + 1) ∧ SortedOn ord v2 a i) := by
    by_cases h2 : 2 ≤ i - a
    · simp only [h2, if_true]
      obtain ⟨w, hw, hwin, _⟩ := insertLoop_range hI _ 0 0 (i - 1) x (Nat.le_refl 0)
        (Nat.zero_le _) hx1 (fun h => absurd h (Nat.lt_irrefl 0))
      refine ⟨w, hw, hwin.1.trans hw1.1, ?_⟩
      intro swo hpre hs
      have hstop : 0 < a → ∃ z, ((v.set i y).set (i - 1) x)[a - 1]? = some z ∧
          ord x z = false := by
        intro ha
        obtain ⟨z, hz, hall⟩ := hpre ha
        refine ⟨z, ?_, hall i x (by omega) hib hx⟩
        rw [hw1.2.1 (a - 1) (by omega)]
        exact hz
      obtain ⟨w', hw', hwin', hsorted⟩ := insertLoop_range hI _ 0 a (i - 1) x (Nat.zero_le _)
        (by omega) hx1 hstop
      have hww : w' = w := by
        rw [hw] at hw'
        simp only [Option.some.injEq, comparables.mk.injEq, and_true] at hw'
        exact hw'.symm
      subst hww
      have hi1 : i - 1 + 1 = i := by omega
      rw [hi1] at hwin' hsorted
      refine ⟨(hw1.mono (by omega) (Nat.le_refl _)).trans
        (hwin'.mono (Nat.le_refl _) (by omega)), hsorted swo ?_⟩
      exact (hs.restrict (Nat.le_refl a) (by omega)).kept_sorted hw1 (Or.inl (Nat.le_refl _))
    · simp only [h2, if_false]
      refine ⟨_, rfl, hw1.1, ?_⟩
      intro swo hpre hs
      exact ⟨hw1.mono (by omega) (Nat.le_refl _), SortedOn.of_le _ a i (by omega)⟩
  obtain ⟨v2, hv2, hperm2, hcond2⟩ := hleft
  have hlen2 : v2.length = v.length := hperm2.length_eq
  -- the shift to the right
  have hright : ∃ v3, (if 2 ≤ b - i then sort.shiftRight I (b - (i + 1)) (i + 1) ⟨v2, less⟩
        else some ⟨v2, less⟩) = some ⟨v3, less⟩ ∧ Within v2 v3 i b := by
    by_cases h2 : 2 ≤ b - i
    · simp only [h2, if_true]
      obtain ⟨w, hw, hwin⟩ := shiftRight_spec hI (b - (i + 1)) (i + 1) v2 (by omega)
        (by omega)
      refine ⟨w, hw, hwin.mono (by omega) (by omega)⟩
    · simp only [h2, if_false]
      exact ⟨v2, rfl, Within.refl _ _ _⟩
  obtain ⟨v3, hv3, hwin3⟩ := hright
  refine ⟨_, v2, v3, hI.swap_eq v i (i - 1) x y hx hy, hv2, hv3, hwin3.1.trans hperm2, ?_⟩
  intro swo hpre hs
  obtain ⟨hwin2, hs2⟩ := hcond2 swo hpre hs
  exact ⟨(hwin2.mono (Nat.le_refl _) (by omega)).trans (hwin3.mono (by omega) (Nat.le_refl _)),
    hs2.kept_sorted hwin3 (Or.inl (Nat.le_refl _))⟩


/-- The loop of `partialInsertionSort` returns a rearrangement of the slice; when the
value in front of the range is not above its values and `[a, i)` is ascending, it
rearranges the range `[a, b)` only, and the range is ascending if the result is true. -/
theorem partialInsertionLoop_spec {I : sort.Interface (comparables α)} {less ord : Less α}
    (hI : Drives I less ord) (a b : Nat) :
    ∀ (s : Nat) (v : List α) (i : Nat), a + 1 ≤ i → i ≤ b → b ≤ v.length →
    ∃ w r, sort.partialInsertionLoop I a b s ⟨v, less⟩ i = some (⟨w, less⟩, r) ∧
      List.Perm w v ∧
      (StrictWeakOrder ord →
        (0 < a → ∃ z, v[a - 1]? = some z ∧ AllOn (fun x => ord x z = false) v a b) →
        SortedOn ord v a i → Within v w a b ∧ (r = true → SortedOn ord w a b))
  | 0, v, i, _, _, _ =>
    ⟨v, false, rfl, List.Perm.refl v, fun _ _ _ => ⟨Within.refl v a b, fun h => by cases h⟩⟩
  | s + 1, v, i, hai, hib, hb => by
    have hcond : ∀ k, i ≤ k → k ≤ b - 1 →
        sort.notLess (I.Less ⟨v, less⟩ k (k - 1)) = some (adjacentOk ord v k) := by
      intro k h1 h2
      obtain ⟨x, hx⟩ := getElem?_some_of_lt v k (by omega)
      obtain ⟨y, hy⟩ := getElem?_some_of_lt v (k - 1) (by omega)
      rw [hI.less_eq v k (k - 1) x y hx hy]
      simp [adjacentOk, hx, hy, sort.notLess]
    obtain ⟨i', hscan, h1, h2, h3, h4⟩ :=
      scanUp_spec (fun k => sort.notLess (I.Less ⟨v, less⟩ k (k - 1))) (adjacentOk ord v)
        (b - 1) (b + 1 - i) i (by omega) (by omega) hcond
    have hadj : ∀ k x y, i ≤ k → k < i' → v[k]? = some x → v[k - 1]? = some y →
        ord x y = false := by
      intro k x y hk1 hk2 hx hy
      have := h3 k hk1 hk2
      simpa [adjacentOk, hx, hy] using this
    unfold sort.partialInsertionLoop
    simp only [hscan]
    by_cases hend : i' = b
    · simp only [hend, if_true]
      refine ⟨v, true, rfl, List.Perm.refl v, ?_⟩
      intro swo _ hs
      refine ⟨Within.refl v a b, fun _ => ?_⟩
      exact sortedOn_of_adjacent swo v a i hai hs b hb (hend ▸ hadj)
    · simp only [hend, if_false]
      by_cases hshort : b - a < 50
      · simp only [hshort, if_true]
        exact ⟨v, false, rfl, List.Perm.refl v,
          fun _ _ _ => ⟨Within.refl v a b, fun h => by cases h⟩⟩
      · simp only [hshort, if_false]
        obtain ⟨v1, v2, v3, e1, e2, e3, hperm, hcond3⟩ :=
          partialInsertion_shift hI v a b i' (by omega) (by omega) hb
        simp only [e1, e2, e3]
        obtain ⟨w, r, hw, hpermw, hcondw⟩ :=
          partialInsertionLoop_spec hI a b s v3 i' (by omega) (by omega)
            (by rw [hperm.length_eq]; exact hb)
        refine ⟨w, r, hw, hpermw.trans hperm, ?_⟩
        intro swo hpre hs
        have hs' : SortedOn ord v a i' :=
          sortedOn_of_adjacent swo v a i hai hs i' (by omega) hadj
        obtain ⟨hwin3, hs3⟩ := hcond3 swo hpre hs'
        have hpre3 : 0 < a → ∃ z, v3[a - 1]? = some z ∧
            AllOn (fun x => ord x z = false) v3 a b := by
          intro ha
          obtain ⟨z, hz, hall⟩ := hpre ha
          refine ⟨z, ?_, hwin3.2.2 _ hall⟩
          rw [hwin3.2.1 (a - 1) (by omega)]
          exact hz
        obtain ⟨hwinw, hsw⟩ := hcondw swo hpre3 hs3
        exact ⟨hwin3.trans hwinw, hsw⟩

/-- Function `partialInsertionSort(data, a, b)` returns a rearrangement of the slice; when
the value in front of the range is not above its values, it rearranges the range `[a, b)`
only, and the range is ascending if the result is true. -/
theorem partialInsertionSort_spec {I : sort.Interface (comparables α)} {less ord : Less α}
    (hI : Drives I less ord) (v : List α) (a b : Nat) (hab : a < b) (hb : b ≤ v.length) :
    ∃ w r, sort.partialInsertionSort I ⟨v, less⟩ a b = some (⟨w, less⟩, r) ∧
      List.Perm w v ∧
      (StrictWeakOrder ord →
        (0 < a → ∃ z, v[a - 1]? = some z ∧ AllOn (fun x => ord x z = false) v a b) →
        Within v w a b ∧ (r = true → SortedOn ord w a b)) := by
  obtain ⟨w, r, hw, hperm, hcond⟩ :=
    partialInsertionLoop_spec hI a b 5 v (a + 1) (Nat.le_refl _) hab hb
  exact ⟨w, r, hw, hperm, fun swo hpre => hcond swo hpre (SortedOn.of_le v a (a + 1)
    (Nat.le_refl _))⟩

end partialInsertionLemmas

section heapSortLemmas

variable {α : Type}

/-- The choice of the child in `siftDown`: the comparison returns, the chosen child is a
child of `root` below `hi`, and no child of `root` is above it. -/
theorem siftDown_choose {I : sort.Interface (comparables α)} {less ord : Less α}
    (hI : Drives I less ord) (v : List α) (first hi root : Nat) (hc : 2 * root + 1 < hi)
    (hlen : first + hi ≤ v.length) :
    ∃ r yc, (if 2 * root + 1 + 1 < hi then
        I.Less ⟨v, less⟩ (first + (2 * root + 1)) (first + (2 * root + 1) + 1)
        else some false) = some r ∧
      v[first + (if r then 2 * root + 1 + 1 else 2 * root + 1)]? = some yc ∧
      (if r then 2 * root + 1 + 1 else 2 * root + 1) < hi ∧
      (((if r then 2 * root + 1 + 1 else 2 * root + 1) - 1) / 2 = root ∧
        root < (if r then 2 * root + 1 + 1 else 2 * root + 1)) ∧
      (StrictWeakOrder ord → ∀ c y, 1 ≤ c → c < hi → (c - 1) / 2 = root →
        v[first + c]? = some y → ord yc y = false) := by
  obtain ⟨y1, hy1⟩ := getElem?_some_of_lt v (first + (2 * root + 1)) (by omega)
  have hkids : ∀ c, 1 ≤ c → (c - 1) / 2 = root → c = 2 * root + 1 ∨ c = 2 * root + 1 + 1 := by
    intro c h1 h2
    omega
  by_cases h2 : 2 * root + 1 + 1 < hi
  · obtain ⟨y2, hy2⟩ := getElem?_some_of_lt v (first + (2 * root + 1) + 1) (by omega)
    simp only [h2, if_true, hI.less_eq v _ _ y1 y2 hy1 hy2]
    cases hlt : ord y1 y2 with
    | true =>
      refine ⟨true, y2, rfl, by simpa [Nat.add_assoc] using hy2, by simpa using h2,
        by simp only [if_true]; omega, ?_⟩
      intro swo c y hc1 hc2 hc3 hy
      rcases hkids c hc1 hc3 with h | h
      · subst h
        rw [hy1] at hy
        cases hy
        exact swo.asymm hlt
      · subst h
        rw [← Nat.add_assoc, hy2] at hy
        cases hy
        exact swo.irrefl _
    | false =>
      refine ⟨false, y1, rfl, by simpa using hy1, by simpa using hc,
        by simp only [Bool.false_eq_true, if_false]; omega, ?_⟩
      intro swo c y hc1 hc2 hc3 hy
      rcases hkids c hc1 hc3 with h | h
      · subst h
        rw [hy1] at hy
        cases hy
        exact swo.irrefl _
      · subst h
        rw [← Nat.add_assoc, hy2] at hy
        cases hy
        exact hlt
  · simp only [h2, if_false]
    refine ⟨false, y1, rfl, by simpa using hy1, by simpa using hc,
      by simp only [Bool.false_eq_true, if_false]; omega, ?_⟩
    intro swo c y hc1 hc2 hc3 hy
    rcases hkids c hc1 hc3 with h | h
    · subst h
      rw [hy1] at hy
      cases hy
      exact swo.irrefl _
    · omega

/-- The loop of `siftDown(data, lo, hi, first)` returns, rearranges the positions from
`first + root` to `first + hi` only, and restores the heap property when only the edges
below `root` may violate it. -/
theorem siftDownLoop_spec {I : sort.Interface (comparables α)} {less ord : Less α}
    (hI : Drives I less ord) (first lo hi : Nat) :
    ∀ (fuel : Nat) (v : List α) (root : Nat), lo ≤ root → 1 ≤ fuel → hi + 1 ≤ fuel + root →
    first + hi ≤ v.length →
    ∃ w, sort.siftDownLoop I hi first fuel ⟨v, less⟩ root = some ⟨w, less⟩ ∧
      Within v w (first + root) (first + hi) ∧
      (StrictWeakOrder ord → HeapExcept ord v first lo hi root → HeapOn ord w first lo hi)
  | 0, v, root, _, h1, _, _ => by omega
  | fuel + 1, v, root, hlo, _, hf, hlen => by
    unfold sort.siftDownLoop
    simp only
    by_cases hchild : hi ≤ 2 * root + 1
    · simp only [hchild, if_true]
      refine ⟨v, rfl, Within.refl v _ _, ?_⟩
      intro _ hex c x y h1 h2 h3 hx hy
      exact hex.1 c x y h1 h2 h3 (by omega) hx hy
    · simp only [hchild, if_false]
      obtain ⟨r, yc, hr, hyc, hch1, ⟨hch2, hch3⟩, hmax⟩ :=
        siftDown_choose hI v first hi root (by omega) hlen
      simp only [hr]
      generalize (if r then 2 * root + 1 + 1 else 2 * root + 1) = ch at hyc hch1 hch2 hch3 hmax
      obtain ⟨x, hx⟩ := getElem?_some_of_lt v (first + root) (by omega)
      simp only [hI.less_eq v _ _ x yc hx hyc]
      cases hlt : ord x yc with
      | false =>
        refine ⟨v, rfl, Within.refl v _ _, ?_⟩
        intro swo hex c x' y h1 h2 h3 hx' hy
        by_cases hp : (c - 1) / 2 = root
        · rw [hp, hx] at hx'
          cases hx'
          exact swo.not_less_trans hlt (hmax swo c y h1 h2 hp hy)
        · exact hex.1 c x' y h1 h2 h3 hp hx' hy
      | true =>
        simp only [hI.swap_eq v _ _ x yc hx hyc]
        have hsw : Within v ((v.set (first + root) yc).set (first + ch) x) (first + root)
            (first + hi) :=
          Within.swap v _ _ _ _ x yc (Nat.le_refl _) (by omega) (by omega) (by omega) hx hyc
        have hget := getElem?_set_set v (first + root) (first + ch) x yc hx hyc
        obtain ⟨w, hw, hwin, hheap⟩ := siftDownLoop_spec hI first lo hi fuel
          ((v.set (first + root) yc).set (first + ch) x) ch (by omega) (by omega) (by omega)
          (by rw [hsw.length_eq]; exact hlen)
        refine ⟨w, hw, hsw.trans (hwin.mono (by omega) (Nat.le_refl _)), ?_⟩
        intro swo hex
        refine hheap swo ⟨?_, ?_⟩
        · intro c x' y h1 h2 h3 h4 hx' hy
          rw [hget] at hx' hy
          by_cases hp : (c - 1) / 2 = root
          · -- an edge below the old root, which now holds the chosen child
            have e1 : ¬ first + root = first + ch := by omega
            rw [hp] at hx'
            simp only [e1, if_false, if_true, Option.some.injEq] at hx'
            subst hx'
            by_cases hcc : c = ch
            · have e3 : first + c = first + ch := by omega
              simp only [e3, if_true, Option.some.injEq] at hy
              subst hy
              exact swo.asymm hlt
            · have e3 : ¬ first + c = first + ch := by omega
              have e4 : ¬ first + c = first + root := by omega
              simp only [e3, e4, if_false] at hy
              exact hmax swo c y h1 h2 hp hy
          · have e1 : ¬ first + (c - 1) / 2 = first + ch := by omega
            have e2 : ¬ first + (c - 1) / 2 = first + root := by omega
            simp only [e1, e2, if_false] at hx'
            by_cases hcr : c = root
            · -- the edge above the old root
              subst hcr
              have e3 : ¬ first + c = first + ch := by omega
              simp only [e3, if_false, if_true, Option.some.injEq] at hy
              subst hy
              exact hex.2 ch x' yc h1 h3 (by omega) hch1 hch2 hx' hyc
            · have e3 : ¬ first + c = first + ch := by omega
              have e4 : ¬ first + c = first + root := by omega
              simp only [e3, e4, if_false] at hy
              exact hex.1 c x' y h1 h2 h3 hp hx' hy
        · intro c x' y h1 h2 h3 h4 h5 hx' hy
          rw [hget] at hx' hy
          have e1 : ¬ first + root = first + ch := by omega
          have e3 : ¬ first + c = first + ch := by omega
          have e4 : ¬ first + c = first + root := by omega
          rw [hch2] at hx'
          simp only [e1, e3, e4, if_false, if_true, Option.some.injEq] at hx' hy
          subst hx'
          refine hex.1 c yc y h3 h4 (by omega) (by omega) ?_ hy
          rw [h5]
          exact hyc

/-- The value at the root of a heap is not less than any value of the heap. -/
theorem heapOn_root_max {ord : Less α} (swo : StrictWeakOrder ord) (v : List α)
    (first n : Nat) (hlen : first + n ≤ v.length) (hheap : HeapOn ord v first 0 n) (r : α)
    (hr : v[first]? = some r) : ∀ (k : Nat), k < n → ∀ x, v[first + k]? = some x →
    ord r x = false := by
  intro k
  induction k using Nat.strong_induction_on with
  | _ k ih =>
    intro hk x hx
    by_cases h0 : k = 0
    · subst h0
      rw [Nat.add_zero, hr] at hx
      cases hx
      exact swo.irrefl _
    · obtain ⟨y, hy⟩ := getElem?_some_of_lt v (first + (k - 1) / 2) (by omega)
      have h1 := ih ((k - 1) / 2) (by omega) (by omega) y hy
      have h2 := hheap k y x (by omega) hk (Nat.zero_le _) hy hx
      exact swo.not_less_trans h1 h2

/-- The first loop of `heapSort` returns, rearranges the heap range only, and builds the
heap. -/
theorem heapBuild_spec {I : sort.Interface (comparables α)} {less ord : Less α}
    (hI : Drives I less ord) (first hi : Nat) :
    ∀ (n : Nat) (v : List α), first + hi ≤ v.length →
    ∃ w, sort.heapBuild I hi first n ⟨v, less⟩ = some ⟨w, less⟩ ∧
      Within v w first (first + hi) ∧
      (StrictWeakOrder ord → HeapOn ord v first n hi → HeapOn ord w first 0 hi)
  | 0, v, _ => ⟨v, rfl, Within.refl v _ _, fun _ h => h⟩
  | i + 1, v, hlen => by
    obtain ⟨w1, hw1, hwin1, hheap1⟩ :=
      siftDownLoop_spec hI first i hi (hi + 1) v i (Nat.le_refl i) (by omega) (by omega) hlen
    obtain ⟨w, hw, hwin, hheap⟩ := heapBuild_spec hI first hi i w1
      (by rw [hwin1.length_eq]; exact hlen)
    refine ⟨w, ?_, (hwin1.mono (by omega) (Nat.le_refl _)).trans hwin, ?_⟩
    · unfold sort.heapBuild
      simp only [sort.siftDown, hw1]
      exact hw
    · intro swo hv
      refine hheap swo (hheap1 swo ⟨?_, ?_⟩)
      · intro c x y h1 h2 h3 h4 hx hy
        exact hv c x y h1 h2 (by omega) hx hy
      · intro c x y h1 h2
        omega

/-- The second loop of `heapSort` returns, rearranges the heap range only, and sorts the
range when it starts from a heap below positions that are in their final place. -/
theorem heapPop_spec {I : sort.Interface (comparables α)} {less ord : Less α}
    (hI : Drives I less ord) (first b : Nat) :
    ∀ (n : Nat) (v : List α), first + n ≤ b → b ≤ v.length →
    ∃ w, sort.heapPop I first n ⟨v, less⟩ = some ⟨w, less⟩ ∧
      Within v w first (first + n) ∧
      (StrictWeakOrder ord → HeapOn ord v first 0 n →
        SortedFrom ord v first (first + n) b → SortedOn ord w first b)
  | 0, v, _, _ => by
    refine ⟨v, rfl, Within.refl v _ _, ?_⟩
    intro _ _ hs p q x y h1 h2 h3 hx hy
    exact hs p q x y h1 h2 (by omega) h3 hx hy
  | i + 1, v, hn, hb => by
    obtain ⟨r, hr⟩ := getElem?_some_of_lt v first (by omega)
    obtain ⟨z, hz⟩ := getElem?_some_of_lt v (first + i) (by omega)
    have hsw : Within v ((v.set first z).set (first + i) r) first (first + (i + 1)) :=
      Within.swap v _ _ _ _ r z (Nat.le_refl _) (by omega) (by omega) (by omega) hr hz
    have hget := getElem?_set_set v first (first + i) r z hr hz
    obtain ⟨w1, hw1, hwin1, hheap1⟩ :=
      siftDownLoop_spec hI first 0 i (i + 1) ((v.set first z).set (first + i) r) 0
        (Nat.le_refl 0) (by omega) (by omega) (by rw [hsw.length_eq]; omega)
    rw [Nat.add_zero] at hwin1
    obtain ⟨w, hw, hwin, hsorted⟩ := heapPop_spec hI first b i w1 (by omega)
      (by rw [hwin1.length_eq, hsw.length_eq]; exact hb)
    refine ⟨w, ?_, hsw.trans ((hwin1.trans hwin).mono (Nat.le_refl _) (by omega)), ?_⟩
    · unfold sort.heapPop
      simp only [hI.swap_eq v _ _ r z hr hz, sort.siftDown, hw1]
      exact hw
    · intro swo hheap hs
      refine hsorted swo (hheap1 swo ⟨?_, ?_⟩) ?_
      · intro c x y h1 h2 h3 h4 hx hy
        rw [hget] at hx hy
        have e1 : ¬ first + (c - 1) / 2 = first + i := by omega
        have e2 : ¬ first + (c - 1) / 2 = first := by omega
        have e3 : ¬ first + c = first + i := by omega
        have e4 : ¬ first + c = first := by omega
        simp only [e1, e2, e3, e4, if_false] at hx hy
        exact hheap c x y h1 (by omega) h3 hx hy
      · intro c x y h1
        omega
      · -- the positions from `first + i` on are in their final place
        have hmax : AllOn (fun x => ord r x = false) v first (first + (i + 1)) := by
          intro k x h1 h2 hx
          have hk : first + (k - first) = k := by omega
          exact heapOn_root_max swo v first (i + 1) (by omega) hheap r hr (k - first)
            (by omega) x (by rw [hk]; exact hx)
        have hmax1 : AllOn (fun x => ord r x = false) w1 first (first + i) := by
          refine hwin1.2.2 _ ?_
          exact (hsw.2.2 _ hmax).narrow (Nat.le_refl _) (by omega)
        have hri : w1[first + i]? = some r := by
          rw [hwin1.2.1 (first + i) (by omega), hget]
          simp
        intro p q x y h1 h2 h3 h4 hx hy
        by_cases hq : q = first + i
        · subst hq
          rw [hri] at hy
          cases hy
          exact hmax1 p x h1 h2 hx
        · have hyv : v[q]? = some y := by
            rw [← hsw.2.1 q (by omega), ← hwin1.2.1 q (by omega)]
            exact hy
          by_cases hp : first + (i + 1) ≤ p
          · have hxv : v[p]? = some x := by
              rw [← hsw.2.1 p (by omega), ← hwin1.2.1 p (by omega)]
              exact hx
            exact hs p q x y h1 h2 (by omega) h4 hxv hyv
          · have hall : AllOn (fun x => ord y x = false) v first (first + (i + 1)) := by
              intro k x' hk1 hk2 hx'
              exact hs k q x' y hk1 (by omega) (by omega) h4 hx' hyv
            have hall1 : AllOn (fun x => ord y x = false) w1 first (first + (i + 1)) :=
              (hwin1.mono (Nat.le_refl _) (by omega)).2.2 _ (hsw.2.2 _ hall)
            exact hall1 p x h1 (by omega) hx

/-- Function `heapSort(data, a, b)` returns, rearranges the range `[a, b)` only, and
leaves it ascending. -/
theorem heapSort_spec {I : sort.Interface (comparables α)} {less ord : Less α}
    (hI : Drives I less ord) (v : List α) (a b : Nat) (hab : a ≤ b) (hb : b ≤ v.length) :
    ∃ w, sort.heapSort I ⟨v, less⟩ a b = some ⟨w, less⟩ ∧ Within v w a b ∧
      (StrictWeakOrder ord → SortedOn ord w a b) := by
  have hab' : a + (b - a) = b := by omega
  obtain ⟨w1, hw1, hwin1, hheap1⟩ :=
    heapBuild_spec hI a (b - a) ((b - a - 1) / 2 + 1) v (by omega)
  obtain ⟨w, hw, hwin, hsorted⟩ := heapPop_spec hI a b (b - a) w1 (by omega)
    (by rw [hwin1.length_eq]; exact hb)
  rw [hab'] at hwin1 hwin
  refine ⟨w, ?_, hwin1.trans hwin, ?_⟩
  · unfold sort.heapSort
    simp only [hw1]
    exact hw
  · intro swo
    refine hsorted swo (hheap1 swo ?_) ?_
    · intro c x y h1 h2 h3
      omega
    · intro p q x y h1 h2 h3 h4
      omega

end heapSortLemmas

section pdqsortLemmas

variable {α : Type}

/-- The bound in front of a range is kept by a rearrangement of the range. -/
theorem floor_of_within {ord : Less α} {v w : List α} {a b : Nat} (hw : Within v w a b)
    (hpre : 0 < a → ∃ z, v[a - 1]? = some z ∧ AllOn (fun x => ord x z = false) v a b) :
    0 < a → ∃ z, w[a - 1]? = some z ∧ AllOn (fun x => ord x z = false) w a b := by
  intro ha
  obtain ⟨z, hz, hall⟩ := hpre ha
  refine ⟨z, ?_, hw.2.2 _ hall⟩
  rw [hw.2.1 (a - 1) (by omega)]
  exact hz

/-- Two ascending ranges that meet at `m`, with no value of the second below a value of
the first. -/
theorem SortedOn.join_cross {ord : Less α} {v : List α} {a m b : Nat}
    (hl : SortedOn ord v a m) (hr : SortedOn ord v m b)
    (hc : ∀ i j x y, a ≤ i → i < m → m ≤ j → j < b → v[i]? = some x → v[j]? = some y →
      ord y x = false) : SortedOn ord v a b := by
  intro i j x y h1 h2 h3 hx hy
  by_cases hjm : j < m
  · exact hl i j x y h1 h2 hjm hx hy
  · by_cases him : m ≤ i
    · exact hr i j x y him h2 h3 hx hy
    · exact hc i j x y h1 (by omega) (by omega) h3 hx hy

/-- After `partitionEqual`, the value in front of the rest `[mid, b)` is not above the
values of the rest. -/
theorem floor_after_partitionEqual {ord : Less α} (swo : StrictWeakOrder ord) (v : List α)
    (a mid b : Nat) (p : α) (hmid1 : a + 1 ≤ mid) (hmid2 : mid ≤ b) (hb : b ≤ v.length)
    (hlow : AllOn (fun x => ord p x = false) v a mid)
    (hhigh : AllOn (fun x => ord p x = true) v mid b) :
    0 < mid → ∃ z, v[mid - 1]? = some z ∧ AllOn (fun x => ord x z = false) v mid b := by
  intro _
  obtain ⟨z, hz⟩ := getElem?_some_of_lt v (mid - 1) (by omega)
  refine ⟨z, hz, ?_⟩
  intro k y h1 h2 hy
  have hpz : ord p z = false := hlow (mid - 1) z (by omega) (by omega) hz
  have hpy : ord p y = true := hhigh k y h1 h2 hy
  cases hyz : ord y z with
  | false => rfl
  | true =>
    have := swo.trans p y z hpy hyz
    rw [hpz] at this
    exact absurd this (by decide)

/-- After `partitionEqual` on a range whose values are not below the value `z` in front of
it, with a pivot value not above `z`: once the rest `[mid, b)` is ascending, the whole range
is ascending. -/
theorem sorted_after_partitionEqual {ord : Less α} (swo : StrictWeakOrder ord)
    (v w : List α) (a mid b : Nat) (p z : α)
    (hlow : AllOn (fun x => ord p x = false) v a mid)
    (hhigh : AllOn (fun x => ord p x = true) v mid b)
    (hzp : ord z p = false) (hfloor : AllOn (fun x => ord x z = false) v a b)
    (hmid2 : mid ≤ b) (hwin : Within v w mid b) (hs : SortedOn ord w mid b) :
    SortedOn ord w a b := by
  have hlow' : AllOn (fun x => ord p x = false) w a mid :=
    hlow.kept hwin (Or.inl (Nat.le_refl _))
  have hfloor' : AllOn (fun x => ord x z = false) w a mid :=
    (hfloor.narrow (Nat.le_refl _) hmid2).kept hwin (Or.inl (Nat.le_refl _))
  have hhigh' : AllOn (fun x => ord p x = true) w mid b := hwin.2.2 _ hhigh
  have hxp : ∀ i x, a ≤ i → i < mid → w[i]? = some x → ord x p = false :=
    fun i x h1 h2 hx => swo.not_less_trans (hfloor' i x h1 h2 hx) hzp
  refine SortedOn.join_cross ?_ hs ?_
  · intro i j x y h1 h2 h3 hx hy
    exact swo.not_less_trans (hxp j y (by omega) h3 hy) (hlow' i x h1 (by omega) hx)
  · intro i j x y h1 h2 h3 h4 hx hy
    have hpy : ord p y = true := hhigh' j y h3 h4 hy
    have hpx : ord p x = false := hlow' i x h1 h2 hx
    cases hyx : ord y x with
    | false => rfl
    | true =>
      have := swo.trans p y x hpy hyx
      rw [hpx] at this
      exact absurd this (by decide)

/-- After `partition`: once both sides of the pivot position are ascending, the whole
range is ascending. -/
theorem sorted_after_partition {ord : Less α} (swo : StrictWeakOrder ord) (w : List α)
    (a mid b : Nat) (p : α) (hp : w[mid]? = some p)
    (hlow : AllOn (fun x => ord x p = true) w a mid)
    (hhigh : AllOn (fun x => ord x p = false) w (mid + 1) b)
    (hl : SortedOn ord w a mid) (hr : SortedOn ord w (mid + 1) b) : SortedOn ord w a b :=
  SortedOn.join swo hp hl hr (hlow.imp (fun _ h => swo.asymm h)) hhigh

/-- The loop of `pdqsort(data, a, b, limit)` returns a rearrangement of the slice for
every comparator; for a strict weak ordering, when the value in front of the range is not
above its values, it rearranges the range `[a, b)` only and leaves it ascending. -/
theorem pdqsortLoop_spec {I : sort.Interface (comparables α)} {less ord : Less α}
    (next : Nat → Nat) (hI : Drives I less ord) :
    ∀ (fuel : Nat) (v : List α) (a b limit : Nat) (wb wp : Bool),
    b - a < fuel → a ≤ b → b ≤ v.length →
    ∃ w, sort.pdqsortLoop next I fuel ⟨v, less⟩ a b limit wb wp = some ⟨w, less⟩ ∧
      List.Perm w v ∧
      (StrictWeakOrder ord →
        (0 < a → ∃ z, v[a - 1]? = some z ∧ AllOn (fun x => ord x z = false) v a b) →
        Within v w a b ∧ SortedOn ord w a b)
  | 0, _, _, _, _, _, _, hf, _, _ => by omega
  | fuel + 1, v, a, b, limit, wb, wp, hf, hab, hb => by
    generalize hr : sort.pdqsortLoop next I (fuel + 1) ⟨v, less⟩ a b limit wb wp = r
    unfold sort.pdqsortLoop at hr
    simp only at hr
    by_cases h12 : b - a ≤ 12
    · simp only [h12, if_true] at hr
      obtain ⟨w, hw, hwin, hs⟩ := insertionSort_spec hI v a b hab hb
      rw [hw] at hr
      subst hr
      exact ⟨w, rfl, hwin.1, fun swo _ => ⟨hwin, hs swo⟩⟩
    simp only [h12, if_false] at hr
    by_cases hl : limit = 0
    · simp only [hl, if_true] at hr
      obtain ⟨w, hw, hwin, hs⟩ := heapSort_spec hI v a b hab hb
      rw [hw] at hr
      subst hr
      exact ⟨w, rfl, hwin.1, fun swo _ => ⟨hwin, hs swo⟩⟩
    simp only [hl, if_false] at hr
    -- breakPatterns
    obtain ⟨w0, hbreak, hwin0⟩ := breakPatterns_spec next hI v a b hab hb
    split at hr
    · rename_i heq
      exfalso
      cases wb <;> simp [hbreak] at heq
    rename_i d1 limit1 heq1
    obtain ⟨v1, rfl, hwin1⟩ : ∃ v1, d1 = ⟨v1, less⟩ ∧ Within v v1 a b := by
      cases wb
      · simp only [Bool.false_eq_true, if_false, hbreak, Option.some.injEq,
          Prod.mk.injEq] at heq1
        exact ⟨w0, heq1.1.symm, hwin0⟩
      · simp only [if_true, Option.some.injEq, Prod.mk.injEq] at heq1
        exact ⟨v, heq1.1.symm, Within.refl _ _ _⟩
    clear heq1 hbreak hwin0 w0
    have hlen1 : v1.length = v.length := hwin1.length_eq
    -- choosePivot
    obtain ⟨pv, hint, hcp, hpv1, hpv2⟩ := choosePivot_spec hI v1 a b (by omega) (by omega)
    simp only [hcp] at hr
    -- reverseRange
    obtain ⟨w0, hrev, hwin0⟩ := reverseRange_spec hI v1 a b (by omega) (by omega)
    split at hr
    · rename_i heq
      exfalso
      by_cases hd : hint = sort.sortedHint.decreasingHint <;> simp [hd, hrev] at heq
    rename_i d2 pivot hint2 heq2
    obtain ⟨v2, rfl, hwin2, hp1, hp2⟩ :
        ∃ v2, d2 = ⟨v2, less⟩ ∧ Within v1 v2 a b ∧ a ≤ pivot ∧ pivot < b := by
      by_cases hd : hint = sort.sortedHint.decreasingHint
      · simp only [hd, if_true, hrev, Option.some.injEq, Prod.mk.injEq] at heq2
        exact ⟨w0, heq2.1.symm, hwin0, by omega, by omega⟩
      · simp only [hd, if_false, Option.some.injEq, Prod.mk.injEq] at heq2
        exact ⟨v1, heq2.1.symm, Within.refl _ _ _, by omega, by omega⟩
    clear heq2 hrev hwin0 w0 hcp
    have hwin12 : Within v v2 a b := hwin1.trans hwin2
    have hlen2 : v2.length = v.length := hwin12.length_eq
    -- partialInsertionSort
    obtain ⟨w0, r0, hpis, hperm0, hcond0⟩ :=
      partialInsertionSort_spec hI v2 a b (by omega) (by omega)
    split at hr
    · rename_i heq
      exfalso
      by_cases hc : (wb && wp && decide (hint2 = sort.sortedHint.increasingHint)) = true <;>
        simp [hc, hpis] at heq
    · -- the slice was found sorted
      rename_i d3 heq3
      have hc : (wb && wp && decide (hint2 = sort.sortedHint.increasingHint)) = true := by
        by_cases hc : (wb && wp && decide (hint2 = sort.sortedHint.increasingHint)) = true
        · exact hc
        · simp [hc] at heq3
      simp only [hc, if_true, hpis, Option.some.injEq, Prod.mk.injEq] at heq3
      obtain ⟨rfl, rfl⟩ := heq3
      subst hr
      refine ⟨w0, rfl, hperm0.trans hwin12.1, ?_⟩
      intro swo hpre
      obtain ⟨hw, hs⟩ := hcond0 swo (floor_of_within hwin12 hpre)
      exact ⟨hwin12.trans hw, hs rfl⟩
    rename_i d3 heq3
    obtain ⟨v3, rfl, hperm3, hcond3⟩ : ∃ v3, d3 = ⟨v3, less⟩ ∧ List.Perm v3 v2 ∧
        (StrictWeakOrder ord →
          (0 < a → ∃ z, v2[a - 1]? = some z ∧ AllOn (fun x => ord x z = false) v2 a b) →
          Within v2 v3 a b) := by
      by_cases hc : (wb && wp && decide (hint2 = sort.sortedHint.increasingHint)) = true
      · simp only [hc, if_true, hpis, Option.some.injEq, Prod.mk.injEq] at heq3
        exact ⟨w0, heq3.1.symm, hperm0, fun swo hpre => (hcond0 swo hpre).1⟩
      · simp only [hc, Bool.false_eq_true, if_false, Option.some.injEq, Prod.mk.injEq] at heq3
        exact ⟨v2, heq3.1.symm, List.Perm.refl _, fun _ _ => Within.refl _ _ _⟩
    clear heq3 hpis hperm0 hcond0 w0 r0
    have hperm03 : List.Perm v3 v := hperm3.trans hwin12.1
    have hlen3 : v3.length = v.length := hperm03.length_eq
    have hwin03 : StrictWeakOrder ord →
        (0 < a → ∃ z, v[a - 1]? = some z ∧ AllOn (fun x => ord x z = false) v a b) →
        Within v v3 a b :=
      fun swo hpre => hwin12.trans (hcond3 swo (floor_of_within hwin12 hpre))
    obtain ⟨p, hp⟩ := getElem?_some_of_lt v3 pivot (by omega)
    split at hr
    · rename_i heq
      exfalso
      by_cases ha : 0 < a
      · obtain ⟨z, hz⟩ := getElem?_some_of_lt v3 (a - 1) (by omega)
        simp [ha, hI.less_eq v3 (a - 1) pivot z p hz hp, sort.notLess] at heq
      · simp [ha] at heq
    · -- many duplicates: partitionEqual
      rename_i heq
      have ha : 0 < a := by
        by_cases ha : 0 < a
        · exact ha
        · simp [ha] at heq
      obtain ⟨z, hz⟩ := getElem?_some_of_lt v3 (a - 1) (by omega)
      have hzp : ord z p = false := by
        simpa [ha, hI.less_eq v3 (a - 1) pivot z p hz hp, sort.notLess] using heq
      obtain ⟨v4, mid, hpe, hwin4, hm1, hm2, hparts⟩ :=
        partitionEqual_spec hI v3 a b pivot p hp1 hp2 (by omega) hp
      simp only [hpe] at hr
      have hlen4 : v4.length = v.length := hwin4.length_eq.trans hlen3
      obtain ⟨w, hw, hpermw, hcondw⟩ :=
        pdqsortLoop_spec next hI fuel v4 mid b limit1 wb wp (by omega) hm2 (by omega)
      rw [hw] at hr
      subst hr
      refine ⟨w, rfl, hpermw.trans (hwin4.1.trans hperm03), ?_⟩
      intro swo hpre
      have hw03 := hwin03 swo hpre
      obtain ⟨hlow, hhigh⟩ := hparts swo
      obtain ⟨z', hz', hfloor⟩ := floor_of_within (hw03.trans hwin4) hpre ha
      have hzz : z' = z := by
        rw [hwin4.2.1 (a - 1) (by omega), hz] at hz'
        exact (Option.some.inj hz').symm
      subst hzz
      obtain ⟨hwinw, hsw⟩ := hcondw swo
        (floor_after_partitionEqual swo v4 a mid b p hm1 hm2 (by omega) hlow hhigh)
      refine ⟨(hw03.trans hwin4).trans (hwinw.mono (by omega) (Nat.le_refl _)), ?_⟩
      exact sorted_after_partitionEqual swo v4 w a mid b p z' hlow hhigh hzp hfloor hm2
        hwinw hsw
    · -- partition around the pivot
      obtain ⟨v4, mid, ap, hpart, hwin4, hm1, hm2, hpm, hlow, hhigh⟩ :=
        partition_spec hI v3 a b pivot p hp1 hp2 (by omega) hp
      simp only [hpart] at hr
      have hlen4 : v4.length = v.length := hwin4.length_eq.trans hlen3
      by_cases hlr : mid - a < b - mid
      · simp only [hlr, if_true] at hr
        obtain ⟨v5, hv5, hperm5, hcond5⟩ :=
          pdqsortLoop_spec next hI fuel v4 a mid limit1 true true (by omega) hm1 (by omega)
        have hlen5 : v5.length = v.length := hperm5.length_eq.trans hlen4
        obtain ⟨w, hw, hpermw, hcondw⟩ :=
          pdqsortLoop_spec next hI fuel v5 (mid + 1) b limit1 (decide ((b - a) / 8 ≤ mid - a)) ap
            (by omega) (by omega) (by omega)
        simp only [hv5, hw] at hr
        subst hr
        refine ⟨w, rfl, hpermw.trans (hperm5.trans (hwin4.1.trans hperm03)), ?_⟩
        intro swo hpre
        have hw04 := (hwin03 swo hpre).trans hwin4
        obtain ⟨hwin5, hs5⟩ := hcond5 swo (fun ha => by
          obtain ⟨z, hz, hall⟩ := floor_of_within hw04 hpre ha
          exact ⟨z, hz, hall.narrow (Nat.le_refl _) (by omega)⟩)
        have hpm5 : v5[mid]? = some p := by
          rw [hwin5.2.1 mid (by omega)]
          exact hpm
        obtain ⟨hwinw, hsw⟩ := hcondw swo (fun _ =>
          ⟨p, by simpa using hpm5, hhigh.kept hwin5 (Or.inr (by omega))⟩)
        refine ⟨hw04.trans ((hwin5.mono (Nat.le_refl _) (by omega)).trans
          (hwinw.mono (by omega) (Nat.le_refl _))), ?_⟩
        refine sorted_after_partition swo w a mid b p ?_ ?_ ?_ ?_ hsw
        · rw [hwinw.2.1 mid (by omega)]
          exact hpm5
        · exact (hwin5.2.2 _ hlow).kept hwinw (Or.inl (by omega))
        · exact hwinw.2.2 _ (hhigh.kept hwin5 (Or.inr (by omega)))
        · exact hs5.kept_sorted hwinw (Or.inl (by omega))
      · simp only [hlr, if_false] at hr
        obtain ⟨v5, hv5, hperm5, hcond5⟩ :=
          pdqsortLoop_spec next hI fuel v4 (mid + 1) b limit1 true true (by omega) (by omega)
            (by omega)
        have hlen5 : v5.length = v.length := hperm5.length_eq.trans hlen4
        obtain ⟨w, hw, hpermw, hcondw⟩ :=
          pdqsortLoop_spec next hI fuel v5 a mid limit1 (decide ((b - a) / 8 ≤ b - mid)) ap
            (by omega) hm1 (by omega)
        simp only [hv5, hw] at hr
        subst hr
        refine ⟨w, rfl, hpermw.trans (hperm5.trans (hwin4.1.trans hperm03)), ?_⟩
        intro swo hpre
        have hw04 := (hwin03 swo hpre).trans hwin4
        obtain ⟨hwin5, hs5⟩ := hcond5 swo (fun _ => ⟨p, by simpa using hpm, hhigh⟩)
        obtain ⟨hwinw, hsw⟩ := hcondw swo (fun ha => by
          obtain ⟨z, hz, hall⟩ := floor_of_within hw04 hpre ha
          refine ⟨z, ?_, (hall.narrow (Nat.le_refl _) (by omega)).kept hwin5
            (Or.inl (by omega))⟩
          rw [hwin5.2.1 (a - 1) (by omega)]
          exact hz)
        have hpm5 : v5[mid]? = some p := by
          rw [hwin5.2.1 mid (by omega)]
          exact hpm
        refine ⟨hw04.trans ((hwin5.mono (by omega) (Nat.le_refl _)).trans
          (hwinw.mono (Nat.le_refl _) (by omega))), ?_⟩
        refine sorted_after_partition swo w a mid b p ?_ ?_ ?_ hsw ?_
        · rw [hwinw.2.1 mid (by omega)]
          exact hpm5
        · exact hwinw.2.2 _ (hlow.kept hwin5 (Or.inl (by omega)))
        · exact (hwin5.2.2 _ hhigh).kept hwinw (Or.inr (by omega))
        · exact hs5.kept_sorted hwinw (Or.inr (by omega))

end pdqsortLemmas

section sortSpec

variable {α : Type}

/-- A slice whose whole range is ascending is ascending. -/
theorem ascending_of_sortedOn {ord : Less α} (w : List α) (h : SortedOn ord w 0 w.length) :
    Ascending ord w := by
  refine List.pairwise_iff_getElem.mpr ?_
  intro i j hi hj hij
  exact h i j _ _ (Nat.zero_le _) hij hj (List.getElem?_eq_getElem hi)
    (List.getElem?_eq_getElem hj)

/-- Function `pdqsort(data, a, b, limit)` returns a rearrangement of the slice; for a
strict weak ordering and a range that starts the slice, the range is ascending. -/
theorem pdqsort_spec {I : sort.Interface (comparables α)} {less ord : Less α}
    (next : Nat → Nat) (hI : Drives I less ord) (v : List α) (b limit : Nat) (hb : b ≤ v.length) :
    ∃ w, sort.pdqsort next I ⟨v, less⟩ 0 b limit = some ⟨w, less⟩ ∧ List.Perm w v ∧
      (StrictWeakOrder ord → Within v w 0 b ∧ SortedOn ord w 0 b) := by
  obtain ⟨w, hw, hperm, hcond⟩ :=
    pdqsortLoop_spec next hI (b - 0 + 1) v 0 b limit true true (by omega) (Nat.zero_le _) hb
  exact ⟨w, hw, hperm, fun swo => hcond swo (fun h => absurd h (Nat.lt_irrefl 0))⟩

/-- Function `sort.Sort` returns an ascending rearrangement of the slice. -/
theorem Sort_spec {I : sort.Interface (comparables α)} {less ord : Less α}
    (next : Nat → Nat) (hI : Drives I less ord) (v : List α) :
    ∃ w, sort.Sort_ next I ⟨v, less⟩ = some ⟨w, less⟩ ∧ List.Perm w v ∧
      (StrictWeakOrder ord → Ascending ord w) := by
  unfold sort.Sort_
  simp only [hI.len]
  by_cases hn : v.length ≤ 1
  · simp only [hn, if_true]
    refine ⟨v, rfl, List.Perm.refl _, fun _ => ?_⟩
    match v, hn with
    | [], _ => exact List.Pairwise.nil
    | [a], _ => exact List.pairwise_singleton _ a
    | a :: b :: l, h => simp at h
  · simp only [hn, if_false]
    obtain ⟨w, hw, hperm, hcond⟩ := pdqsort_spec next hI v v.length (sort.bitsLen v.length)
      (Nat.le_refl _)
    refine ⟨w, hw, hperm, fun swo => ascending_of_sortedOn w ?_⟩
    rw [hperm.length_eq]
    exact (hcond swo).2

/-- Function `Get` returns a rearrangement of the storage that is descending for the
comparator of the container. -/
theorem Get_spec (next : Nat → Nat) (less : Less α) (k : Int) (v : List α) :
    ∃ res, Get next ⟨⟨v, less⟩, k⟩ = some res ∧ List.Perm res v ∧
      (StrictWeakOrder less → res.Pairwise (fun a b => less a b = false)) := by
  obtain ⟨w, hw, hperm, hasc⟩ := Sort_spec next (drives_reverse less) v
  refine ⟨w, ?_, hperm, fun swo => hasc swo.flip⟩
  have hcmp : (⟨v, topK.IsLess ⟨⟨v, less⟩, k⟩⟩ : comparables α) = ⟨v, less⟩ := rfl
  simp only [Get, topK.Get, hcmp, hw]

end sortSpec

/-! ## The sort run through two related method sets -/

section simulation

variable {σ τ : Type} {I : sort.Interface σ} {J : sort.Interface τ} {R : σ → τ → Prop}

/-- The inner loop of the insertion sort run through two related method sets: when the run
on the second returns, so does the run on the first, in related states. -/
theorem insertLoop_sim (h : Simulates I J R) (a : Nat) :
    ∀ (m : Nat) (s : σ) (t t' : τ), R s t → sort.insertLoop J a m t = some t' →
      ∃ s', sort.insertLoop I a m s = some s' ∧ R s' t'
  | 0, s, t, t', hR, hrun => by
    simp only [sort.insertLoop, Option.some.injEq] at hrun
    subst hrun
    exact ⟨s, rfl, hR⟩
  | m + 1, s, t, t', hR, hrun => by
    unfold sort.insertLoop at hrun ⊢
    simp only [h.less s t _ _ hR]
    split at hrun
    · exact absurd hrun (by simp)
    · rename_i heq
      try simp only [heq]
      simp only [Option.some.injEq] at hrun
      subst hrun
      exact ⟨s, rfl, hR⟩
    · rename_i heq
      try simp only [heq]
      split at hrun
      · exact absurd hrun (by simp)
      · rename_i t1 hs
        obtain ⟨s1, hs1, hR1⟩ := h.swap s t _ _ t1 hR hs
        simp only [hs1]
        exact insertLoop_sim h a m s1 t1 t' hR1 hrun

/-- The outer loop of the insertion sort run through two related method sets. -/
theorem insertionLoop_sim (h : Simulates I J R) (a : Nat) :
    ∀ (r i : Nat) (s : σ) (t t' : τ), R s t → sort.insertionLoop J a r i t = some t' →
      ∃ s', sort.insertionLoop I a r i s = some s' ∧ R s' t'
  | 0, i, s, t, t', hR, hrun => by
    simp only [sort.insertionLoop, Option.some.injEq] at hrun
    subst hrun
    exact ⟨s, rfl, hR⟩
  | r + 1, i, s, t, t', hR, hrun => by
    unfold sort.insertionLoop at hrun ⊢
    split at hrun
    · exact absurd hrun (by simp)
    · rename_i t1 heq
      obtain ⟨s1, hs1, hR1⟩ := insertLoop_sim h a _ s t t1 hR heq
      simp only [hs1]
      exact insertionLoop_sim h a r (i + 1) s1 t1 t' hR1 hrun

/-- Function `insertionSort` run through two related method sets. -/
theorem insertionSort_sim (h : Simulates I J R) (a b : Nat) (s : σ) (t t' : τ) (hR : R s t)
    (hrun : sort.insertionSort J t a b = some t') :
    ∃ s', sort.insertionSort I s a b = some s' ∧ R s' t' :=
  insertionLoop_sim h a _ _ s t t' hR hrun

/-- The loop of `siftDown` run through two related method sets. -/
theorem siftDownLoop_sim (h : Simulates I J R) (hi first : Nat) :
    ∀ (fuel : Nat) (s : σ) (t t' : τ) (root : Nat), R s t →
      sort.siftDownLoop J hi first fuel t root = some t' →
      ∃ s', sort.siftDownLoop I hi first fuel s root = some s' ∧ R s' t'
  | 0, s, t, t', root, hR, hrun => by
    simp [sort.siftDownLoop] at hrun
  | fuel + 1, s, t, t', root, hR, hrun => by
    unfold sort.siftDownLoop at hrun ⊢
    simp only [h.less s t _ _ hR]
    simp only at hrun
    split at hrun
    · rename_i hc
      simp only [hc, if_true]
      simp only [Option.some.injEq] at hrun
      subst hrun
      exact ⟨s, rfl, hR⟩
    · rename_i hc
      simp only [hc, if_false]
      split at hrun
      · exact absurd hrun (by simp)
      · rename_i r heq
        try simp only [heq]
        split at hrun
        · exact absurd hrun (by simp)
        · rename_i heq2
          try simp only [heq2]
          simp only [Option.some.injEq] at hrun
          subst hrun
          exact ⟨s, rfl, hR⟩
        · rename_i heq2
          try simp only [heq2]
          split at hrun
          · exact absurd hrun (by simp)
          · rename_i t1 hs
            obtain ⟨s1, hs1, hR1⟩ := h.swap s t _ _ t1 hR hs
            simp only [hs1]
            exact siftDownLoop_sim h hi first fuel s1 t1 t' _ hR1 hrun

/-- The first loop of `heapSort` run through two related method sets. -/
theorem heapBuild_sim (h : Simulates I J R) (hi first : Nat) :
    ∀ (n : Nat) (s : σ) (t t' : τ), R s t → sort.heapBuild J hi first n t = some t' →
      ∃ s', sort.heapBuild I hi first n s = some s' ∧ R s' t'
  | 0, s, t, t', hR, hrun => by
    simp only [sort.heapBuild, Option.some.injEq] at hrun
    subst hrun
    exact ⟨s, rfl, hR⟩
  | i + 1, s, t, t', hR, hrun => by
    unfold sort.heapBuild at hrun ⊢
    split at hrun
    · exact absurd hrun (by simp)
    · rename_i t1 heq
      obtain ⟨s1, hs1, hR1⟩ := siftDownLoop_sim h hi first _ s t t1 _ hR heq
      have hs1' : sort.siftDown I s i hi first = some s1 := hs1
      simp only [hs1']
      exact heapBuild_sim h hi first i s1 t1 t' hR1 hrun

/-- The second loop of `heapSort` run through two related method sets. -/
theorem heapPop_sim (h : Simulates I J R) (first : Nat) :
    ∀ (n : Nat) (s : σ) (t t' : τ), R s t → sort.heapPop J first n t = some t' →
      ∃ s', sort.heapPop I first n s = some s' ∧ R s' t'
  | 0, s, t, t', hR, hrun => by
    simp only [sort.heapPop, Option.some.injEq] at hrun
    subst hrun
    exact ⟨s, rfl, hR⟩
  | i + 1, s, t, t', hR, hrun => by
    unfold sort.heapPop at hrun ⊢
    split at hrun
    · exact absurd hrun (by simp)
    · rename_i t1 hs
      obtain ⟨s1, hs1, hR1⟩ := h.swap s t _ _ t1 hR hs
      simp only [hs1]
      split at hrun
      · exact absurd hrun (by simp)
      · rename_i t2 heq
        obtain ⟨s2, hs2, hR2⟩ := siftDownLoop_sim h i first _ s1 t1 t2 _ hR1 heq
        have hs2' : sort.siftDown I s1 0 i first = some s2 := hs2
        simp only [hs2']
        exact heapPop_sim h first i s2 t2 t' hR2 hrun

/-- Function `heapSort` run through two related method sets. -/
theorem heapSort_sim (h : Simulates I J R) (a b : Nat) (s : σ) (t t' : τ) (hR : R s t)
    (hrun : sort.heapSort J t a b = some t') :
    ∃ s', sort.heapSort I s a b = some s' ∧ R s' t' := by
  unfold sort.heapSort at hrun ⊢
  simp only at hrun ⊢
  split at hrun
  · exact absurd hrun (by simp)
  · rename_i t1 heq
    obtain ⟨s1, hs1, hR1⟩ := heapBuild_sim h _ _ _ s t t1 hR heq
    simp only [hs1]
    exact heapPop_sim h _ _ s1 t1 t' hR1 hrun

end simulation

section simulation2

variable {σ τ : Type} {I : sort.Interface σ} {J : sort.Interface τ} {R : σ → τ → Prop}

/-- The main loop of `partition` run through two related method sets. -/
theorem partitionLoop_sim (h : Simulates I J R) (a : Nat) :
    ∀ (fuel : Nat) (s : σ) (t t' : τ) (i j x : Nat), R s t →
      sort.partitionLoop J a fuel t i j = some (t', x) →
      ∃ s', sort.partitionLoop I a fuel s i j = some (s', x) ∧ R s' t'
  | 0, s, t, t', i, j, x, hR, hrun => by
    simp [sort.partitionLoop] at hrun
  | fuel + 1, s, t, t', i, j, x, hR, hrun => by
    unfold sort.partitionLoop at hrun ⊢
    simp only [h.less s t _ _ hR]
    split at hrun
    · exact absurd hrun (by simp)
    · split at hrun
      · exact absurd hrun (by simp)
      · split at hrun
        · rename_i hc
          simp only [hc, if_true]
          simp only [Option.some.injEq, Prod.mk.injEq] at hrun
          obtain ⟨rfl, rfl⟩ := hrun
          exact ⟨s, rfl, hR⟩
        · rename_i hc
          simp only [hc, if_false]
          split at hrun
          · exact absurd hrun (by simp)
          · rename_i t1 hs
            obtain ⟨s1, hs1, hR1⟩ := h.swap s t _ _ t1 hR hs
            simp only [hs1]
            exact partitionLoop_sim h a fuel s1 t1 t' _ _ x hR1 hrun

/-- Function `partition` run through two related method sets. -/
theorem partition_sim (h : Simulates I J R) (a b pivot : Nat) (s : σ) (t t' : τ)
    (x : Nat × Bool) (hR : R s t) (hrun : sort.partition J t a b pivot = some (t', x)) :
    ∃ s', sort.partition I s a b pivot = some (s', x) ∧ R s' t' := by
  unfold sort.partition at hrun ⊢
  split at hrun
  · exact absurd hrun (by simp)
  rename_i t1 hs
  obtain ⟨s1, hs1, hR1⟩ := h.swap s t _ _ t1 hR hs
  simp only [hs1, h.less s1 t1 _ _ hR1]
  simp only at hrun
  split at hrun
  · exact absurd hrun (by simp)
  split at hrun
  · exact absurd hrun (by simp)
  split at hrun
  · rename_i hc
    simp only [hc, if_true]
    split at hrun
    · exact absurd hrun (by simp)
    · rename_i t2 hs2
      obtain ⟨s2, hs2', hR2⟩ := h.swap s1 t1 _ _ t2 hR1 hs2
      simp only [hs2']
      simp only [Option.some.injEq, Prod.mk.injEq] at hrun
      obtain ⟨rfl, rfl⟩ := hrun
      exact ⟨s2, rfl, hR2⟩
  · rename_i hc
    simp only [hc, if_false]
    split at hrun
    · exact absurd hrun (by simp)
    rename_i t2 hs2
    obtain ⟨s2, hs2', hR2⟩ := h.swap s1 t1 _ _ t2 hR1 hs2
    simp only [hs2']
    split at hrun
    · exact absurd hrun (by simp)
    rename_i t3 j3 hloop
    obtain ⟨s3, hs3, hR3⟩ := partitionLoop_sim h a _ s2 t2 t3 _ _ j3 hR2 hloop
    simp only [hs3]
    split at hrun
    · exact absurd hrun (by simp)
    rename_i t4 hs4
    obtain ⟨s4, hs4', hR4⟩ := h.swap s3 t3 _ _ t4 hR3 hs4
    simp only [hs4']
    simp only [Option.some.injEq, Prod.mk.injEq] at hrun
    obtain ⟨rfl, rfl⟩ := hrun
    exact ⟨s4, rfl, hR4⟩

/-- The loop of `partitionEqual` run through two related method sets. -/
theorem partitionEqualLoop_sim (h : Simulates I J R) (a : Nat) :
    ∀ (fuel : Nat) (s : σ) (t t' : τ) (i j x : Nat), R s t →
      sort.partitionEqualLoop J a fuel t i j = some (t', x) →
      ∃ s', sort.partitionEqualLoop I a fuel s i j = some (s', x) ∧ R s' t'
  | 0, s, t, t', i, j, x, hR, hrun => by
    simp [sort.partitionEqualLoop] at hrun
  | fuel + 1, s, t, t', i, j, x, hR, hrun => by
    unfold sort.partitionEqualLoop at hrun ⊢
    simp only [h.less s t _ _ hR]
    split at hrun
    · exact absurd hrun (by simp)
    · split at hrun
      · exact absurd hrun (by simp)
      · split at hrun
        · rename_i hc
          simp only [hc, if_true]
          simp only [Option.some.injEq, Prod.mk.injEq] at hrun
          obtain ⟨rfl, rfl⟩ := hrun
          exact ⟨s, rfl, hR⟩
        · rename_i hc
          simp only [hc, if_false]
          split at hrun
          · exact absurd hrun (by simp)
          · rename_i t1 hs
            obtain ⟨s1, hs1, hR1⟩ := h.swap s t _ _ t1 hR hs
            simp only [hs1]
            exact partitionEqualLoop_sim h a fuel s1 t1 t' _ _ x hR1 hrun

/-- Function `partitionEqual` run through two related method sets. -/
theorem partitionEqual_sim (h : Simulates I J R) (a b pivot : Nat) (s : σ) (t t' : τ)
    (x : Nat) (hR : R s t) (hrun : sort.partitionEqual J t a b pivot = some (t', x)) :
    ∃ s', sort.partitionEqual I s a b pivot = some (s', x) ∧ R s' t' := by
  unfold sort.partitionEqual at hrun ⊢
  split at hrun
  · exact absurd hrun (by simp)
  rename_i t1 hs
  obtain ⟨s1, hs1, hR1⟩ := h.swap s t _ _ t1 hR hs
  simp only [hs1]
  exact partitionEqualLoop_sim h a _ s1 t1 t' _ _ x hR1 hrun

/-- The shift to the right of `partialInsertionSort` run through two related method sets. -/
theorem shiftRight_sim (h : Simulates I J R) :
    ∀ (n j : Nat) (s : σ) (t t' : τ), R s t → sort.shiftRight J n j t = some t' →
      ∃ s', sort.shiftRight I n j s = some s' ∧ R s' t'
  | 0, j, s, t, t', hR, hrun => by
    simp only [sort.shiftRight, Option.some.injEq] at hrun
    subst hrun
    exact ⟨s, rfl, hR⟩
  | n + 1, j, s, t, t', hR, hrun => by
    unfold sort.shiftRight at hrun ⊢
    simp only [h.less s t _ _ hR]
    split at hrun
    · exact absurd hrun (by simp)
    · simp only [Option.some.injEq] at hrun
      subst hrun
      exact ⟨s, rfl, hR⟩
    · split at hrun
      · exact absurd hrun (by simp)
      · rename_i t1 hs
        obtain ⟨s1, hs1, hR1⟩ := h.swap s t _ _ t1 hR hs
        simp only [hs1]
        exact shiftRight_sim h n (j + 1) s1 t1 t' hR1 hrun

/-- The loop of `partialInsertionSort` run through two related method sets. -/
theorem partialInsertionLoop_sim (h : Simulates I J R) (a b : Nat) :
    ∀ (n : Nat) (s : σ) (t t' : τ) (i : Nat) (x : Bool), R s t →
      sort.partialInsertionLoop J a b n t i = some (t', x) →
      ∃ s', sort.partialInsertionLoop I a b n s i = some (s', x) ∧ R s' t'
  | 0, s, t, t', i, x, hR, hrun => by
    simp only [sort.partialInsertionLoop, Option.some.injEq, Prod.mk.injEq] at hrun
    obtain ⟨rfl, rfl⟩ := hrun
    exact ⟨s, rfl, hR⟩
  | n + 1, s, t, t', i, x, hR, hrun => by
    unfold sort.partialInsertionLoop at hrun ⊢
    simp only [h.less s t _ _ hR]
    split at hrun
    · exact absurd hrun (by simp)
    rename_i i1 hscan
    split at hrun
    · rename_i hc
      simp only [hc, if_true]
      simp only [Option.some.injEq, Prod.mk.injEq] at hrun
      obtain ⟨rfl, rfl⟩ := hrun
      exact ⟨s, rfl, hR⟩
    rename_i hc
    simp only [hc, if_false]
    split at hrun
    · rename_i hc2
      simp only [hc2, if_true]
      simp only [Option.some.injEq, Prod.mk.injEq] at hrun
      obtain ⟨rfl, rfl⟩ := hrun
      exact ⟨s, rfl, hR⟩
    rename_i hc2
    simp only [hc2, if_false]
    split at hrun
    · exact absurd hrun (by simp)
    rename_i t1 hs
    obtain ⟨s1, hs1, hR1⟩ := h.swap s t _ _ t1 hR hs
    simp only [hs1]
    -- the shift to the left
    have hleft : ∀ t2, (if 2 ≤ i1 - a then sort.insertLoop J 0 (i1 - 1) t1 else some t1) =
        some t2 → ∃ s2, (if 2 ≤ i1 - a then sort.insertLoop I 0 (i1 - 1) s1 else some s1) =
          some s2 ∧ R s2 t2 := by
      intro t2 ht2
      by_cases h2 : 2 ≤ i1 - a
      · simp only [h2, if_true] at ht2 ⊢
        exact insertLoop_sim h 0 _ s1 t1 t2 hR1 ht2
      · simp only [h2, if_false, Option.some.injEq] at ht2 ⊢
        subst ht2
        exact ⟨s1, rfl, hR1⟩
    split at hrun
    · exact absurd hrun (by simp)
    rename_i t2 ht2
    obtain ⟨s2, hs2, hR2⟩ := hleft t2 ht2
    simp only [hs2]
    -- the shift to the right
    have hright : ∀ t3, (if 2 ≤ b - i1 then sort.shiftRight J (b - (i1 + 1)) (i1 + 1) t2
        else some t2) = some t3 →
        ∃ s3, (if 2 ≤ b - i1 then sort.shiftRight I (b - (i1 + 1)) (i1 + 1) s2
          else some s2) = some s3 ∧ R s3 t3 := by
      intro t3 ht3
      by_cases h2 : 2 ≤ b - i1
      · simp only [h2, if_true] at ht3 ⊢
        exact shiftRight_sim h _ _ s2 t2 t3 hR2 ht3
      · simp only [h2, if_false, Option.some.injEq] at ht3 ⊢
        subst ht3
        exact ⟨s2, rfl, hR2⟩
    split at hrun
    · exact absurd hrun (by simp)
    rename_i t3 ht3
    obtain ⟨s3, hs3, hR3⟩ := hright t3 ht3
    simp only [hs3]
    exact partialInsertionLoop_sim h a b n s3 t3 t' i1 x hR3 hrun

/-- Function `partialInsertionSort` run through two related method sets. -/
theorem partialInsertionSort_sim (h : Simulates I J R) (a b : Nat) (s : σ) (t t' : τ)
    (x : Bool) (hR : R s t) (hrun : sort.partialInsertionSort J t a b = some (t', x)) :
    ∃ s', sort.partialInsertionSort I s a b = some (s', x) ∧ R s' t' :=
  partialInsertionLoop_sim h a b 5 s t t' (a + 1) x hR hrun

/-- The loop of `breakPatterns` run through two related method sets. -/
theorem breakLoop_sim (next : Nat → Nat) (h : Simulates I J R) (a length modulus idx : Nat) :
    ∀ (n i random : Nat) (s : σ) (t t' : τ), R s t →
      sort.breakLoop next J a length modulus idx n i random t = some t' →
      ∃ s', sort.breakLoop next I a length modulus idx n i random s = some s' ∧ R s' t'
  | 0, i, random, s, t, t', hR, hrun => by
    simp only [sort.breakLoop, Option.some.injEq] at hrun
    subst hrun
    exact ⟨s, rfl, hR⟩
  | n + 1, i, random, s, t, t', hR, hrun => by
    unfold sort.breakLoop at hrun ⊢
    simp only at hrun ⊢
    split at hrun
    · exact absurd hrun (by simp)
    · rename_i t1 hs
      obtain ⟨s1, hs1, hR1⟩ := h.swap s t _ _ t1 hR hs
      simp only [hs1]
      exact breakLoop_sim next h a length modulus idx n (i + 1) _ s1 t1 t' hR1 hrun

/-- Function `breakPatterns` run through two related method sets. -/
theorem breakPatterns_sim (next : Nat → Nat) (h : Simulates I J R) (a b : Nat) (s : σ)
    (t t' : τ) (hR : R s t)
    (hrun : sort.breakPatterns next J t a b = some t') :
    ∃ s', sort.breakPatterns next I s a b = some s' ∧ R s' t' := by
  unfold sort.breakPatterns at hrun ⊢
  simp only at hrun ⊢
  split at hrun
  · rename_i hc
    simp only [hc, if_true]
    exact breakLoop_sim next h _ _ _ _ _ _ _ s t t' hR hrun
  · rename_i hc
    simp only [hc, if_false]
    simp only [Option.some.injEq] at hrun
    subst hrun
    exact ⟨s, rfl, hR⟩

/-- Function `choosePivot` returns the same on related states. -/
theorem choosePivot_sim (h : Simulates I J R) (a b : Nat) (s : σ) (t : τ) (hR : R s t) :
    sort.choosePivot I s a b = sort.choosePivot J t a b := by
  simp only [sort.choosePivot, sort.medianAdjacent, sort.median, sort.order2,
    h.less s t _ _ hR]

/-- The loop of `reverseRange` run through two related method sets. -/
theorem reverseLoop_sim (h : Simulates I J R) :
    ∀ (fuel i j : Nat) (s : σ) (t t' : τ), R s t → sort.reverseLoop J fuel i j t = some t' →
      ∃ s', sort.reverseLoop I fuel i j s = some s' ∧ R s' t'
  | 0, i, j, s, t, t', hR, hrun => by
    simp [sort.reverseLoop] at hrun
  | fuel + 1, i, j, s, t, t', hR, hrun => by
    unfold sort.reverseLoop at hrun ⊢
    split at hrun
    · rename_i hc
      simp only [hc, if_true]
      split at hrun
      · exact absurd hrun (by simp)
      · rename_i t1 hs
        obtain ⟨s1, hs1, hR1⟩ := h.swap s t _ _ t1 hR hs
        simp only [hs1]
        exact reverseLoop_sim h fuel (i + 1) (j - 1) s1 t1 t' hR1 hrun
    · rename_i hc
      simp only [hc, if_false]
      simp only [Option.some.injEq] at hrun
      subst hrun
      exact ⟨s, rfl, hR⟩

/-- Function `reverseRange` run through two related method sets. -/
theorem reverseRange_sim (h : Simulates I J R) (a b : Nat) (s : σ) (t t' : τ) (hR : R s t)
    (hrun : sort.reverseRange J t a b = some t') :
    ∃ s', sort.reverseRange I s a b = some s' ∧ R s' t' :=
  reverseLoop_sim h _ _ _ s t t' hR hrun

end simulation2

section simulation3

variable {σ τ : Type} {I : sort.Interface σ} {J : sort.Interface τ} {R : σ → τ → Prop}

/-- The loop of `pdqsort` run through two related method sets. -/
theorem pdqsortLoop_sim (next : Nat → Nat) (h : Simulates I J R) :
    ∀ (fuel : Nat) (s : σ) (t t' : τ) (a b limit : Nat) (wb wp : Bool), R s t →
      sort.pdqsortLoop next J fuel t a b limit wb wp = some t' →
      ∃ s', sort.pdqsortLoop next I fuel s a b limit wb wp = some s' ∧ R s' t'
  | 0, s, t, t', a, b, limit, wb, wp, hR, hrun => by
    simp [sort.pdqsortLoop] at hrun
  | fuel + 1, s, t, t', a, b, limit, wb, wp, hR, hrun => by
    generalize hgoal : sort.pdqsortLoop next I (fuel + 1) s a b limit wb wp = ri
    unfold sort.pdqsortLoop at hrun hgoal
    simp only at hrun hgoal
    by_cases h12 : b - a ≤ 12
    · simp only [h12, if_true] at hrun hgoal
      obtain ⟨s', hs', hR'⟩ := insertionSort_sim h a b s t t' hR hrun
      rw [hs'] at hgoal
      subst hgoal
      exact ⟨s', rfl, hR'⟩
    simp only [h12, if_false] at hrun hgoal
    by_cases hl : limit = 0
    · simp only [hl, if_true] at hrun hgoal
      obtain ⟨s', hs', hR'⟩ := heapSort_sim h a b s t t' hR hrun
      rw [hs'] at hgoal
      subst hgoal
      exact ⟨s', rfl, hR'⟩
    simp only [hl, if_false] at hrun hgoal
    -- breakPatterns
    split at hrun
    · exact absurd hrun (by simp)
    rename_i t1 l1 heqJ
    have hJ1 : (wb = true ∧ t1 = t ∧ l1 = limit) ∨
        (wb = false ∧ sort.breakPatterns next J t a b = some t1 ∧ l1 = limit - 1) := by
      cases wb
      · simp only [Bool.false_eq_true, if_false] at heqJ
        split at heqJ
        · exact absurd heqJ (by simp)
        · rename_i t0 hb
          simp only [Option.some.injEq, Prod.mk.injEq] at heqJ
          obtain ⟨rfl, rfl⟩ := heqJ
          exact Or.inr ⟨rfl, hb, rfl⟩
      · simp only [if_true, Option.some.injEq, Prod.mk.injEq] at heqJ
        obtain ⟨rfl, rfl⟩ := heqJ
        exact Or.inl ⟨rfl, rfl, rfl⟩
    clear heqJ
    split at hgoal
    · rename_i heqI
      exfalso
      rcases hJ1 with ⟨rfl, -, -⟩ | ⟨rfl, hb, -⟩
      · simp at heqI
      · obtain ⟨s0, hs0, _⟩ := breakPatterns_sim next h a b s t t1 hR hb
        simp [hs0] at heqI
    rename_i s1 l1' heqI
    obtain ⟨rfl, hR1⟩ : l1' = l1 ∧ R s1 t1 := by
      rcases hJ1 with ⟨rfl, rfl, rfl⟩ | ⟨rfl, hb, rfl⟩
      · simp only [if_true, Option.some.injEq, Prod.mk.injEq] at heqI
        obtain ⟨rfl, rfl⟩ := heqI
        exact ⟨rfl, hR⟩
      · obtain ⟨s0, hs0, hR0⟩ := breakPatterns_sim next h a b s t t1 hR hb
        simp only [Bool.false_eq_true, if_false, hs0, Option.some.injEq,
          Prod.mk.injEq] at heqI
        obtain ⟨rfl, rfl⟩ := heqI
        exact ⟨rfl, hR0⟩
    clear heqI hJ1
    -- choosePivot
    rw [choosePivot_sim h a b s1 t1 hR1] at hgoal
    split at hrun
    · exact absurd hrun (by simp)
    rename_i pv hint hcp
    try simp only [hcp] at hgoal
    -- reverseRange
    split at hrun
    · exact absurd hrun (by simp)
    rename_i t2 pivot hint2 heqJ
    have hJ3 : (hint = sort.sortedHint.decreasingHint ∧ sort.reverseRange J t1 a b = some t2 ∧
          pivot = b - 1 - (pv - a) ∧ hint2 = sort.sortedHint.increasingHint) ∨
        (¬ hint = sort.sortedHint.decreasingHint ∧ t2 = t1 ∧ pivot = pv ∧ hint2 = hint) := by
      by_cases hd : hint = sort.sortedHint.decreasingHint
      · simp only [hd, if_true] at heqJ
        split at heqJ
        · exact absurd heqJ (by simp)
        · rename_i t0 hrev
          simp only [Option.some.injEq, Prod.mk.injEq] at heqJ
          obtain ⟨rfl, rfl, rfl⟩ := heqJ
          exact Or.inl ⟨hd, hrev, rfl, rfl⟩
      · simp only [hd, if_false, Option.some.injEq, Prod.mk.injEq] at heqJ
        obtain ⟨rfl, rfl, rfl⟩ := heqJ
        exact Or.inr ⟨hd, rfl, rfl, rfl⟩
    clear heqJ
    split at hgoal
    · rename_i heqI
      exfalso
      rcases hJ3 with ⟨hd, hrev, -, -⟩ | ⟨hd, -, -, -⟩
      · obtain ⟨s0, hs0, _⟩ := reverseRange_sim h a b s1 t1 t2 hR1 hrev
        simp [hd, hs0] at heqI
      · simp [hd] at heqI
    rename_i s2 pivot' hint2' heqI
    obtain ⟨rfl, rfl, hR2⟩ : pivot = pivot' ∧ hint2 = hint2' ∧ R s2 t2 := by
      rcases hJ3 with ⟨hd, hrev, rfl, rfl⟩ | ⟨hd, rfl, rfl, rfl⟩
      · obtain ⟨s0, hs0, hR0⟩ := reverseRange_sim h a b s1 t1 t2 hR1 hrev
        simp only [hd, if_true, hs0, Option.some.injEq, Prod.mk.injEq] at heqI
        obtain ⟨rfl, rfl, rfl⟩ := heqI
        exact ⟨rfl, rfl, hR0⟩
      · simp only [hd, if_false, Option.some.injEq, Prod.mk.injEq] at heqI
        obtain ⟨rfl, rfl, rfl⟩ := heqI
        exact ⟨rfl, rfl, hR1⟩
    clear heqI hJ3
    -- partialInsertionSort
    have h4 : ∀ t3 x, (if (wb && wp && decide (hint2 = sort.sortedHint.increasingHint)) = true
          then sort.partialInsertionSort J t2 a b else some (t2, false)) = some (t3, x) →
        ∃ s3, (if (wb && wp && decide (hint2 = sort.sortedHint.increasingHint)) = true
          then sort.partialInsertionSort I s2 a b else some (s2, false)) = some (s3, x) ∧
          R s3 t3 := by
      intro t3 x hx
      by_cases hc : (wb && wp && decide (hint2 = sort.sortedHint.increasingHint)) = true
      · simp only [hc, if_true] at hx ⊢
        exact partialInsertionSort_sim h a b s2 t2 t3 x hR2 hx
      · simp only [hc, Bool.false_eq_true, if_false, Option.some.injEq,
          Prod.mk.injEq] at hx ⊢
        obtain ⟨rfl, rfl⟩ := hx
        exact ⟨s2, ⟨rfl, rfl⟩, hR2⟩
    split at hrun
    · exact absurd hrun (by simp)
    · rename_i t3 heqJ
      obtain ⟨s3, hs3, hR3⟩ := h4 t3 true heqJ
      simp only [hs3] at hgoal
      simp only [Option.some.injEq] at hrun
      subst hrun
      subst hgoal
      exact ⟨s3, rfl, hR3⟩
    rename_i t3 heqJ
    obtain ⟨s3, hs3, hR3⟩ := h4 t3 false heqJ
    simp only [hs3] at hgoal
    clear h4 heqJ hs3
    -- duplicates
    simp only [h.less s3 t3 _ _ hR3] at hgoal
    generalize hdup : (if 0 < a then sort.notLess (J.Less t3 (a - 1) pivot) else some false) =
      dup at hrun hgoal
    rcases dup with _ | (_ | _)
    · exact absurd hrun (by simp)
    · -- partition around the pivot
      simp only at hrun hgoal
      split at hrun
      · exact absurd hrun (by simp)
      rename_i t4 mid ap hpart
      obtain ⟨s4, hs4, hR4⟩ := partition_sim h a b pivot s3 t3 t4 (mid, ap) hR3 hpart
      simp only [hs4] at hgoal
      split at hrun
      · rename_i hc
        simp only [hc, if_true] at hgoal
        split at hrun
        · exact absurd hrun (by simp)
        rename_i t5 h5
        obtain ⟨s5, hs5, hR5⟩ := pdqsortLoop_sim next h fuel s4 t4 t5 _ _ _ _ _ hR4 h5
        simp only [hs5] at hgoal
        obtain ⟨s', hs', hR'⟩ := pdqsortLoop_sim next h fuel s5 t5 t' _ _ _ _ _ hR5 hrun
        rw [hs'] at hgoal
        subst hgoal
        exact ⟨s', rfl, hR'⟩
      · rename_i hc
        simp only [hc, if_false] at hgoal
        split at hrun
        · exact absurd hrun (by simp)
        rename_i t5 h5
        obtain ⟨s5, hs5, hR5⟩ := pdqsortLoop_sim next h fuel s4 t4 t5 _ _ _ _ _ hR4 h5
        simp only [hs5] at hgoal
        obtain ⟨s', hs', hR'⟩ := pdqsortLoop_sim next h fuel s5 t5 t' _ _ _ _ _ hR5 hrun
        rw [hs'] at hgoal
        subst hgoal
        exact ⟨s', rfl, hR'⟩
    · -- many duplicates: partitionEqual
      simp only at hrun hgoal
      split at hrun
      · exact absurd hrun (by simp)
      rename_i t4 mid hpe
      obtain ⟨s4, hs4, hR4⟩ := partitionEqual_sim h a b pivot s3 t3 t4 mid hR3 hpe
      simp only [hs4] at hgoal
      obtain ⟨s', hs', hR'⟩ := pdqsortLoop_sim next h fuel s4 t4 t' _ _ _ _ _ hR4 hrun
      rw [hs'] at hgoal
      subst hgoal
      exact ⟨s', rfl, hR'⟩

/-- Function `pdqsort` run through two related method sets. -/
theorem pdqsort_sim (next : Nat → Nat) (h : Simulates I J R) (a b limit : Nat) (s : σ)
    (t t' : τ) (hR : R s t)
    (hrun : sort.pdqsort next J t a b limit = some t') :
    ∃ s', sort.pdqsort next I s a b limit = some s' ∧ R s' t' :=
  pdqsortLoop_sim next h _ s t t' a b limit true true hR hrun

/-- Function `sort.Sort` run through two related method sets: when the run on the second
returns, so does the run on the first, in related states. -/
theorem Sort_sim (next : Nat → Nat) (h : Simulates I J R) (s : σ) (t t' : τ) (hR : R s t)
    (hrun : sort.Sort_ next J t = some t') :
    ∃ s', sort.Sort_ next I s = some s' ∧ R s' t' := by
  unfold sort.Sort_ at hrun ⊢
  simp only [h.len s t hR]
  simp only at hrun
  by_cases hn : J.Len t ≤ 1
  · simp only [hn, if_true, Option.some.injEq] at hrun ⊢
    subst hrun
    exact ⟨s, rfl, hR⟩
  · simp only [hn, if_false] at hrun ⊢
    exact pdqsort_sim next h _ _ _ s t t' hR hrun

end simulation3

/-! ## The properties -/

section claims

variable {α : Type}

/-- The comparator `keyLess` is a strict weak ordering. -/
theorem keyLess_swo : StrictWeakOrder keyLess where
  irrefl := fun a => by simp [keyLess]
  trans := fun a b c => by simp only [keyLess, decide_eq_true_eq]; omega
  incomp_trans := fun a b c => by
    simp only [keyLess, decide_eq_false_iff_not]; omega

/-- The third case of `TestTopK`: `k = 3`, inputs `5, 6, 2, 4, 2`, the result of `Get`
after every push. -/
theorem testTopK_case3 :
    (run 3 IntComparator [5]).bind (Get sort.xorshiftNext) = some [5] ∧
    (run 3 IntComparator [5, 6]).bind (Get sort.xorshiftNext) = some [6, 5] ∧
    (run 3 IntComparator [5, 6, 2]).bind (Get sort.xorshiftNext) = some [6, 5, 2] ∧
    (run 3 IntComparator [5, 6, 2, 4]).bind (Get sort.xorshiftNext) = some [6, 5, 4] ∧
    (run 3 IntComparator [5, 6, 2, 4, 2]).bind (Get sort.xorshiftNext) = some [6, 5, 4] := by
  decide

/-- The first and last cases of `TestTopK`: `k = 1` keeps the maximum, `k = 5` keeps all. -/
theorem testTopK_case1_case5 :
    (run 1 IntComparator [5, 6, 2, 4, 2]).bind (Get sort.xorshiftNext) = some [6] ∧
    (run 5 IntComparator [5, 6, 2, 4, 2]).bind (Get sort.xorshiftNext) = some [6, 5, 4, 2, 2] := by
  decide

/-- C1: for every `k ≥ 0`, strict weak ordering `less` and list `xs`, the container built
by `New(k, less)` and the pushes of `xs` exists; its storage is a sub-multiset of `xs` of
size `min(len(xs), k)`, and no retained element is less than a left-out one. -/
theorem C1_retained_is_top_k [DecidableEq α] (k : Int) (hk : 0 ≤ k) (less : Less α)
    (swo : StrictWeakOrder less) (xs : List α) :
    ∃ t, run k less xs = some t ∧
      (t.Get : Multiset α) ≤ (xs : Multiset α) ∧
      (t.Get.length : Int) = min (xs.length : Int) k ∧
      ∀ r, r ∈ t.Get → ∀ d, d ∈ (xs : Multiset α) - (t.Get : Multiset α) →
        less r d = false := by
  obtain ⟨w, hw, hlen, hsel⟩ := run_retains less k hk xs
  obtain ⟨_, d, hd, hord⟩ := hsel swo
  have hx : (xs : Multiset α) = (w : Multiset α) + (d : Multiset α) := by
    rw [Multiset.coe_add]
    exact Multiset.coe_eq_coe.mpr hd
  refine ⟨_, hw, ?_, hlen, ?_⟩
  · show (w : Multiset α) ≤ (xs : Multiset α)
    rw [hx]
    exact Multiset.le_add_right _ _
  · intro r hr y hy
    have hy' : y ∈ (xs : Multiset α) - (w : Multiset α) := hy
    rw [hx, add_tsub_cancel_left] at hy'
    exact hord r hr y (Multiset.mem_coe.mp hy')

/-- C1 at `k = 3` with the inputs `5, 6, 2, 4, 2`. -/
theorem C1_retained_is_top_k_witness :
    (0 : Int) ≤ 3 ∧ StrictWeakOrder IntComparator ∧
    ∃ t, run 3 IntComparator [5, 6, 2, 4, 2] = some t ∧
      (t.Get : Multiset Int) ≤ (([5, 6, 2, 4, 2] : List Int) : Multiset Int) ∧
      (t.Get.length : Int) = min (([5, 6, 2, 4, 2] : List Int).length : Int) 3 ∧
      ∀ r, r ∈ t.Get →
        ∀ d, d ∈ (([5, 6, 2, 4, 2] : List Int) : Multiset Int) - (t.Get : Multiset Int) →
          IntComparator r d = false :=
  ⟨by decide, intComparator_swo,
    C1_retained_is_top_k 3 (by decide) IntComparator intComparator_swo [5, 6, 2, 4, 2]⟩

/-- C2: for every `k ≥ 1` and list `xs` of ints, after pushing any prefix of `xs` (of
length `n`) into `New(k, IntComparator)`, `Get(t)` is exactly the first `min(k, n)` elements
of the prefix sorted in descending order, for every generator `next` of the sort. -/
theorem C2_get_equals_sorted_take (next : Nat → Nat) (k : Int) (hk : 1 ≤ k)
    (xs : List Int) (n : Nat) (hn : n ≤ xs.length) :
    ∃ t, run k IntComparator (xs.take n) = some t ∧
      Get next t = some ((sortDescending (xs.take n)).take (min k.toNat n)) := by
  obtain ⟨w, hw, hlen, hsel⟩ := run_retains IntComparator k (by omega) (xs.take n)
  obtain ⟨_, d, hd, hord⟩ := hsel intComparator_swo
  obtain ⟨res, hres, hperm, hdesc⟩ := Get_spec next IntComparator k w
  refine ⟨_, hw, ?_⟩
  rw [hres]
  have hsorted : List.Sorted (fun a b : Int => a ≥ b) (res ++ sortDescending d) := by
    refine List.pairwise_append.mpr ⟨?_, List.sorted_insertionSort _ d, ?_⟩
    · refine (hdesc intComparator_swo).imp ?_
      intro a b hab
      simp only [IntComparator, decide_eq_false_iff_not] at hab
      omega
    · intro a ha b hb
      have hb' : b ∈ d := (List.perm_insertionSort _ d).subset hb
      have := hord a (hperm.subset ha) b hb'
      simp only [IntComparator, decide_eq_false_iff_not] at this
      omega
  have hp : List.Perm (sortDescending (xs.take n)) (res ++ sortDescending d) :=
    (List.perm_insertionSort _ _).trans
      (hd.trans ((hperm.symm.append (List.perm_insertionSort _ d).symm)))
  have heq : sortDescending (xs.take n) = res ++ sortDescending d :=
    List.eq_of_perm_of_sorted hp (List.sorted_insertionSort _ _) hsorted
  have hrl : res.length = min k.toNat n := by
    rw [hperm.length_eq]
    rw [List.length_take] at hlen
    omega
  rw [heq, List.take_left' hrl]

/-- C2 at `k = 3` on the prefix of length four of `5, 6, 2, 4, 2`. -/
theorem C2_get_equals_sorted_take_witness :
    (1 : Int) ≤ 3 ∧ 4 ≤ ([5, 6, 2, 4, 2] : List Int).length ∧
    ∃ t, run 3 IntComparator (([5, 6, 2, 4, 2] : List Int).take 4) = some t ∧
      Get sort.xorshiftNext t = some [6, 5, 4] :=
  ⟨by decide, by decide,
    C2_get_equals_sorted_take sort.xorshiftNext 3 (by decide) [5, 6, 2, 4, 2] 4 (by decide)⟩

/-- C3: for every container reached from `New(k, less)` by pushes, with `less` a strict
weak ordering, `Get(t)` returns a rearrangement of the storage `t.Get()` in descending
order: for all positions `i < j` of the result, `less(result[i], result[j])` is false.
This holds for every generator `next` of the sort. -/
theorem C3_get_descending (next : Nat → Nat) (k : Int) (less : Less α)
    (swo : StrictWeakOrder less) (t : topK α) (ht : Reachable k less t) :
    ∃ res, Get next t = some res ∧ List.Perm res t.Get ∧
      ∀ (i j : Nat) (a b : α), i < j → res[i]? = some a → res[j]? = some b →
        less a b = false := by
  obtain ⟨_, xs, w, rfl, _⟩ := reachable_retains less k t ht
  obtain ⟨res, hres, hperm, hdesc⟩ := Get_spec next less k w
  refine ⟨res, hres, hperm, ?_⟩
  intro i j a b hij ha hb
  obtain ⟨hi, rfl⟩ := List.getElem?_eq_some_iff.mp ha
  obtain ⟨hj, rfl⟩ := List.getElem?_eq_some_iff.mp hb
  exact List.pairwise_iff_getElem.mp (hdesc swo) i j hi hj hij

/-- C3 on the container reached by pushing `5, 6, 2, 4, 2` with `k = 3`. -/
theorem C3_get_descending_witness :
    StrictWeakOrder IntComparator ∧
    Reachable 3 IntComparator ⟨⟨[4, 6, 5], IntComparator⟩, 3⟩ ∧
    ∃ res, Get sort.xorshiftNext (⟨⟨[4, 6, 5], IntComparator⟩, 3⟩ : topK Int) = some res ∧
      List.Perm res (⟨⟨[4, 6, 5], IntComparator⟩, 3⟩ : topK Int).Get ∧
      ∀ (i j : Nat) (a b : Int), i < j → res[i]? = some a → res[j]? = some b →
        IntComparator a b = false :=
  ⟨intComparator_swo, ⟨[5, 6, 2, 4, 2], rfl⟩,
    C3_get_descending sort.xorshiftNext 3 IntComparator intComparator_swo _ ⟨[5, 6, 2, 4, 2], rfl⟩⟩

/-- C4: for every container `t`, the package-level `Get(t)` returns a permutation of the
storage `t.Get()`: the same multiset of elements, of length `t.Len()`.  This holds for
every comparator and every generator `next` of the sort. -/
theorem C4_get_is_permutation (next : Nat → Nat) (t : topK α) :
    ∃ res, Get next t = some res ∧ List.Perm res t.Get ∧ res.length = t.Len := by
  obtain ⟨⟨v, less⟩, k⟩ := t
  obtain ⟨res, hres, hperm, _⟩ := Get_spec next less k v
  exact ⟨res, hres, hperm, hperm.length_eq⟩

/-- C5: for every `k ≥ 0` (zero included), comparator and sequence of pushes starting from
`New(k, less)`, the container exists and `0 ≤ t.Len() ≤ t.K() = k`. -/
theorem C5_capacity_bound (k : Int) (hk : 0 ≤ k) (less : Less α) (xs : List α) :
    ∃ t, run k less xs = some t ∧ 0 ≤ (t.Len : Int) ∧ (t.Len : Int) ≤ t.K ∧ t.K = k := by
  obtain ⟨w, hw, hlen, _⟩ := run_retains less k hk xs
  refine ⟨_, hw, by omega, ?_, rfl⟩
  show (w.length : Int) ≤ k
  omega

/-- C5 at `k = 0`: the container stays empty. -/
theorem C5_capacity_bound_witness :
    (0 : Int) ≤ 0 ∧
    ∃ t, run 0 IntComparator [5, 6, 2, 4, 2] = some t ∧ 0 ≤ (t.Len : Int) ∧
      (t.Len : Int) ≤ t.K ∧ t.K = 0 :=
  ⟨by decide, C5_capacity_bound 0 (by decide) IntComparator [5, 6, 2, 4, 2]⟩

/-- C6: for every `k ≥ 0` and list `xs` of `L` elements pushed into `New(k, less)`,
`len(t.Get()) = min(L, k)`: it is `L` when `L < k` and `k` when `L ≥ k`. -/
theorem C6_raw_view_length (k : Int) (hk : 0 ≤ k) (less : Less α) (xs : List α) :
    ∃ t, run k less xs = some t ∧
      (t.Get.length : Int) = min (xs.length : Int) k ∧
      ((xs.length : Int) < k → t.Get.length = xs.length) ∧
      (k ≤ (xs.length : Int) → (t.Get.length : Int) = k) := by
  obtain ⟨w, hw, hlen, _⟩ := run_retains less k hk xs
  refine ⟨_, hw, hlen, ?_, ?_⟩
  · intro h
    show w.length = xs.length
    omega
  · intro h
    show (w.length : Int) = k
    omega

/-- C6 at `k = 3` with five pushes. -/
theorem C6_raw_view_length_witness :
    (0 : Int) ≤ 3 ∧
    ∃ t, run 3 IntComparator [5, 6, 2, 4, 2] = some t ∧
      (t.Get.length : Int) = min (([5, 6, 2, 4, 2] : List Int).length : Int) 3 ∧
      (((([5, 6, 2, 4, 2] : List Int).length : Int) < 3) →
        t.Get.length = ([5, 6, 2, 4, 2] : List Int).length) ∧
      ((3 : Int) ≤ (([5, 6, 2, 4, 2] : List Int).length : Int) → (t.Get.length : Int) = 3) :=
  ⟨by decide, C6_raw_view_length 3 (by decide) IntComparator [5, 6, 2, 4, 2]⟩

/-- C7: for every container `t` with `t.Len() = t.K() ≥ 1` and every `x` such that
`less(t.Peek(), x)` is false, `Push(t, x)` returns and leaves the storage `t.Get()` exactly
as it was. -/
theorem C7_discard_leaves_no_trace (t : topK α) (x m : α)
    (hfull : (t.Len : Int) = t.K) (hk : 1 ≤ t.K)
    (hm : t.Peek = some m) (hx : t.IsLess m x = false) :
    ∃ t', Push t x = some t' ∧ t'.Get = t.Get := by
  obtain ⟨⟨v, less⟩, k⟩ := t
  have hge : ¬ (v.length : Int) < k := by
    have : (v.length : Int) = k := hfull
    omega
  exact ⟨_, Push_discard less k v x m hge hm hx, rfl⟩

/-- C7 on the saturated container `[4, 6, 5]` of capacity three and the element `4`. -/
theorem C7_discard_leaves_no_trace_witness :
    ((⟨⟨[4, 6, 5], IntComparator⟩, 3⟩ : topK Int).Len : Int) = 3 ∧
    (⟨⟨[4, 6, 5], IntComparator⟩, 3⟩ : topK Int).Peek = some 4 ∧
    IntComparator 4 4 = false ∧
    ∃ t', Push (⟨⟨[4, 6, 5], IntComparator⟩, 3⟩ : topK Int) 4 = some t' ∧
      t'.Get = [4, 6, 5] :=
  ⟨by decide, rfl, by decide,
    C7_discard_leaves_no_trace ⟨⟨[4, 6, 5], IntComparator⟩, 3⟩ 4 4 (by decide) (by decide)
      rfl (by decide)⟩

/-! ### Arrival order -/

/-- The storage after a push holds elements of the storage before it and the pushed
element only. -/
theorem Push_subset (t t' : topK α) (x : α) (h : Push t x = some t') :
    ∀ y, y ∈ t'.Get → y ∈ t.Get ∨ y = x := by
  obtain ⟨⟨v, less⟩, k⟩ := t
  intro y hy
  have hmem : y ∈ x :: v → y ∈ v ∨ y = x := fun hm => by
    rcases List.mem_cons.mp hm with h1 | h1
    · exact Or.inr h1
    · exact Or.inl h1
  by_cases hlt : (v.length : Int) < k
  · obtain ⟨w, hw, hperm, _⟩ := Push_fill less k v x hlt
    rw [hw] at h
    cases h
    exact hmem (hperm.subset hy)
  · cases h0 : v[0]? with
    | none =>
      have hnil : v = [] := by
        cases v with
        | nil => rfl
        | cons a l => simp at h0
      subst hnil
      rw [Push_empty_full less k x hlt] at h
      cases h
      exact Or.inl hy
    | some m =>
      cases hmx : less m x with
      | true =>
        obtain ⟨w, hw, hperm, _⟩ := Push_replace less k v x m hlt h0 hmx
        rw [hw] at h
        cases h
        exact hmem (hperm.subset (List.mem_cons_of_mem m hy))
      | false =>
        rw [Push_discard less k v x m hlt h0 hmx] at h
        cases h
        exact Or.inl hy

/-- The storage after a list of pushes holds elements of the storage before them and
pushed elements only. -/
theorem pushAll_subset : ∀ (xs : List α) (t t' : topK α), pushAll t xs = some t' →
    ∀ y, y ∈ t'.Get → y ∈ t.Get ∨ y ∈ xs
  | [], t, t', h, y, hy => by
    simp only [pushAll, Option.some.injEq] at h
    subst h
    exact Or.inl hy
  | x :: xs, t, t', h, y, hy => by
    unfold pushAll at h
    split at h
    · exact absurd h (by simp)
    · rename_i t1 h1
      rcases pushAll_subset xs t1 t' h y hy with h2 | h2
      · rcases Push_subset t t1 x h1 y h2 with h3 | h3
        · exact Or.inl h3
        · exact Or.inr (h3 ▸ List.mem_cons_self _ _)
      · exact Or.inr (List.mem_cons_of_mem x h2)

/-- Pushing a concatenation is pushing its two parts one after the other. -/
theorem pushAll_append : ∀ (ys zs : List α) (t : topK α),
    pushAll t (ys ++ zs) = (pushAll t ys).bind (fun t1 => pushAll t1 zs)
  | [], zs, t => rfl
  | y :: ys, zs, t => by
    simp only [List.cons_append, pushAll]
    cases Push t y with
    | none => rfl
    | some t1 => exact pushAll_append ys zs t1

/-- The run on a concatenation is the run on the first part followed by the pushes of the
second. -/
theorem run_append (k : Int) (less : Less α) (ys zs : List α) :
    run k less (ys ++ zs) = (run k less ys).bind (fun t1 => pushAll t1 zs) := by
  unfold run
  cases New k less with
  | none => rfl
  | some t => exact pushAll_append ys zs t

/-- The storage of a run holds pushed elements only. -/
theorem run_subset (k : Int) (less : Less α) (xs : List α) (t : topK α)
    (h : run k less xs = some t) : ∀ y, y ∈ t.Get → y ∈ xs := by
  intro y hy
  unfold run at h
  split at h
  · exact absurd h (by simp)
  · rename_i t0 h0
    unfold New at h0
    split at h0
    · exact absurd h0 (by simp)
    · simp only [Option.some.injEq] at h0
      subst h0
      rcases pushAll_subset xs _ t h y hy with h1 | h1
      · exact absurd h1 (List.not_mem_nil y)
      · exact h1

/-- The first greatest element is not less than the candidate it started from. -/
theorem firstMax_ge {less : Less α} (swo : StrictWeakOrder less) : ∀ (xs : List α) (c : α),
    less (firstMax less c xs) c = false
  | [], c => swo.irrefl c
  | x :: xs, c => by
    unfold firstMax
    cases hcx : less c x with
    | false => exact firstMax_ge swo xs c
    | true =>
      simp only [if_true]
      have ih := firstMax_ge swo xs x
      cases hfc : less (firstMax less x xs) c with
      | false => rfl
      | true =>
        have := swo.trans _ _ _ hfc hcx
        rw [ih] at this
        exact absurd this (by decide)

/-- An earlier candidate `c` that is not less than `x` wins against the first greatest
element from `x` on unless it is less than it. -/
theorem firstMax_front {less : Less α} (swo : StrictWeakOrder less) :
    ∀ (xs : List α) (c x : α), less c x = false →
    (if less c (firstMax less x xs) = false then c else firstMax less x xs) =
      firstMax less c xs
  | [], c, x, h => by simp [firstMax, h]
  | y :: ys, c, x, h => by
    unfold firstMax
    cases hcy : less c y with
    | true =>
      have hxy : less x y = true := by
        cases hxy : less x y with
        | true => rfl
        | false =>
          have := swo.not_less_trans h hxy
          rw [hcy] at this
          exact absurd this (by decide)
      simp only [hxy, if_true]
      have hcf : less c (firstMax less y ys) = true := by
        cases hcf : less c (firstMax less y ys) with
        | true => rfl
        | false =>
          have := swo.not_less_trans hcf (firstMax_ge swo ys y)
          rw [hcy] at this
          exact absurd this (by decide)
      simp [hcf]
    | false =>
      simp only [Bool.false_eq_true, if_false]
      refine firstMax_front swo ys c (if less x y = true then y else x) ?_
      split
      · exact hcy
      · exact h

/-- The stable descending sort starts with the first greatest element. -/
theorem stableSortDesc_head {less : Less α} (swo : StrictWeakOrder less) :
    ∀ (xs : List α) (c : α),
    ∃ T, stableSortDesc less (c :: xs) = firstMax less c xs :: T
  | [], c => ⟨[], rfl⟩
  | x :: xs, c => by
    obtain ⟨T, hT⟩ := stableSortDesc_head swo xs x
    have hsort : stableSortDesc less (c :: x :: xs) =
        List.orderedInsert (fun a b => less a b = false) c (stableSortDesc less (x :: xs)) :=
      rfl
    have hstep : firstMax less c (x :: xs) =
        firstMax less (if less c x then x else c) xs := rfl
    rw [hsort, hT, List.orderedInsert, hstep]
    cases hcx : less c x with
    | true =>
      have hcf : less c (firstMax less x xs) = true := by
        cases hcf : less c (firstMax less x xs) with
        | true => rfl
        | false =>
          have := swo.not_less_trans hcf (firstMax_ge swo xs x)
          rw [hcx] at this
          exact absurd this (by decide)
      simp only [hcf, if_true, Bool.true_eq_false, if_false]
      exact ⟨_, rfl⟩
    | false =>
      have hfront := firstMax_front swo xs c x hcx
      simp only [Bool.false_eq_true, if_false]
      cases hcf : less c (firstMax less x xs) with
      | true =>
        rw [hcf] at hfront
        simp only [Bool.true_eq_false, if_false] at hfront ⊢
        rw [← hfront]
        exact ⟨_, rfl⟩
      | false =>
        rw [hcf] at hfront
        simp only [if_true] at hfront ⊢
        rw [← hfront]
        exact ⟨_, rfl⟩

/-- A push into a container of capacity one that holds `m` keeps `m` unless `m` is less
than the pushed element. -/
theorem Push_one (less : Less α) (m x : α) :
    Push ⟨⟨[m], less⟩, 1⟩ x = some ⟨⟨[if less m x then x else m], less⟩, 1⟩ := by
  have hge : ¬ (([m] : List α).length : Int) < 1 := by simp
  cases hmx : less m x with
  | false =>
    simpa using Push_discard less 1 [m] x m hge rfl hmx
  | true =>
    obtain ⟨w, hw, hperm, _⟩ := Push_replace less 1 [m] x m hge rfl hmx
    have hw1 : List.Perm w [x] :=
      (List.Perm.cons_inv (hperm.trans (List.Perm.swap m x []))).trans (List.Perm.refl _)
    rw [List.perm_singleton.mp hw1] at hw
    simpa using hw

/-- The pushes into a container of capacity one keep the first greatest element. -/
theorem pushAll_one (less : Less α) : ∀ (xs : List α) (c : α),
    pushAll ⟨⟨[c], less⟩, 1⟩ xs = some ⟨⟨[firstMax less c xs], less⟩, 1⟩
  | [], c => rfl
  | x :: xs, c => by
    unfold pushAll
    rw [Push_one less c x]
    exact pushAll_one less xs _

/-- The run with capacity one keeps the first greatest element. -/
theorem run_one (less : Less α) (c : α) (xs : List α) :
    run 1 less (c :: xs) = some ⟨⟨[firstMax less c xs], less⟩, 1⟩ := by
  obtain ⟨w, hw, hperm, _⟩ := Push_fill less 1 [] c (by simp)
  have hw1 : w = [c] := List.perm_singleton.mp hperm
  subst hw1
  have hnew : New 1 less = some ⟨⟨[], less⟩, 1⟩ := by simp [New]
  simp only [run, hnew, pushAll, hw]
  exact pushAll_one less xs c

/-- C8 as stated fails: with `k = 2` and the comparator on keys, pushing `(1,0), (1,1),
(5,2)` evicts `(1,0)`, the earlier of the two tied elements, and keeps `(1,1)`; the first
two elements of the stable descending sort are `(5,2), (1,0)`. -/
theorem C8_tie_break_counterexample :
    (1 : Int) ≤ 2 ∧ StrictWeakOrder keyLess ∧
    ([(1, 0), (1, 1), (5, 2)] : List (Nat × Nat)).Nodup ∧
    ∃ t, run 2 keyLess [(1, 0), (1, 1), (5, 2)] = some t ∧
      t.Get = [(1, 1), (5, 2)] ∧
      (stableSortDesc keyLess [(1, 0), (1, 1), (5, 2)]).take 2 = [(5, 2), (1, 0)] ∧
      ¬ ((t.Get : Multiset (Nat × Nat)) =
          (((stableSortDesc keyLess [(1, 0), (1, 1), (5, 2)]).take 2 : List (Nat × Nat)) :
            Multiset (Nat × Nat))) ∧
      keyLess (1, 0) (1, 1) = false ∧ keyLess (1, 1) (1, 0) = false ∧
      (1, 1) ∈ t.Get ∧ (1, 0) ∉ t.Get := by
  refine ⟨by decide, keyLess_swo, by decide, ⟨⟨[(1, 1), (5, 2)], keyLess⟩, 2⟩, rfl, rfl,
    by decide, ?_, by decide, by decide, by decide, by decide⟩
  intro h
  have hmem : ((1, 0) : Nat × Nat) ∈
      (((stableSortDesc keyLess [(1, 0), (1, 1), (5, 2)]).take 2 : List (Nat × Nat)) :
        Multiset (Nat × Nat)) := by
    rw [Multiset.mem_coe]
    decide
  rw [← h, Multiset.mem_coe] at hmem
  exact absurd hmem (by decide)

/-- C8, amended: for every `k ≥ 1`, strict weak ordering `less` and list `xs` of at least
`k` distinguishable elements pushed in order into `New(k, less)`: the retained elements
are, as a multiset, the first `k` elements of some descending sort of `xs`; a tie is
decided for the elements already retained, in that an element not greater than the minimum
of the full container at its arrival (tied with it or below it) is never retained; a
retained element was accepted while every earlier element tied with it was still in the
storage; and for `k = 1` the retained element is the first element of the stable descending
sort of `xs`. -/
theorem C8_ties_keep_the_retained (k : Int) (hk : 1 ≤ k) (less : Less α)
    (swo : StrictWeakOrder less) (xs : List α) (hn : k ≤ (xs.length : Int))
    (hnd : xs.Nodup) :
    ∃ t, run k less xs = some t ∧
      (∃ s, List.Perm s xs ∧ s.Pairwise (fun a b => less a b = false) ∧
        (t.Get : Multiset α) = ((s.take k.toNat : List α) : Multiset α)) ∧
      (∀ ys e zs, xs = ys ++ e :: zs → ∃ t0, run k less ys = some t0 ∧
        (∀ m, (t0.Len : Int) = t0.K → t0.Peek = some m → less m e = false → e ∉ t.Get) ∧
        (e ∈ t.Get → ∀ e', e' ∈ ys → less e e' = false → less e' e = false →
          e' ∈ t0.Get)) ∧
      (k = 1 → t.Get = (stableSortDesc less xs).take 1) := by
  obtain ⟨w, hw, hlen, hsel⟩ := run_retains less k (by omega) xs
  refine ⟨_, hw, ?_, ?_, ?_⟩
  · obtain ⟨_, d, hd, hord⟩ := hsel swo
    obtain ⟨res, _, hperm, hdesc⟩ := Get_spec sort.xorshiftNext less k w
    obtain ⟨dres, _, hdperm, hddesc⟩ := Get_spec sort.xorshiftNext less 0 d
    refine ⟨res ++ dres, (hperm.append hdperm).trans hd.symm, ?_, ?_⟩
    · refine List.pairwise_append.mpr ⟨hdesc swo, hddesc swo, ?_⟩
      intro a ha b hb
      exact hord a (hperm.subset ha) b (hdperm.subset hb)
    · have hrl : res.length = k.toNat := by
        rw [hperm.length_eq]
        omega
      rw [List.take_left' hrl]
      exact Multiset.coe_eq_coe.mpr hperm.symm
  · intro ys e zs hxs
    subst hxs
    obtain ⟨w0, hw0, hlen0, hsel0⟩ := run_retains less k (by omega) ys
    obtain ⟨w1, hw1⟩ := Push_total less k w0 e
    have hrest : pushAll ⟨⟨w1, less⟩, k⟩ zs = some ⟨⟨w, less⟩, k⟩ := by
      have h := run_append k less ys (e :: zs)
      rw [hw, hw0] at h
      simpa [pushAll, hw1] using h.symm
    have hfinal : ∀ y, y ∈ w → y ∈ w1 ∨ y ∈ zs := pushAll_subset zs _ _ hrest
    have hstored : ∀ y, y ∈ w0 → y ∈ ys := run_subset k less ys _ hw0
    have hmid : e ∉ ys ++ zs := (List.nodup_cons.mp (List.nodup_middle.mp hnd)).1
    have hys : e ∉ ys := fun h => hmid (List.mem_append_left zs h)
    have hzs : e ∉ zs := fun h => hmid (List.mem_append_right ys h)
    refine ⟨_, hw0, ?_, ?_⟩
    · intro m hfull hm hme he
      have hge : ¬ (w0.length : Int) < k := by
        have : (w0.length : Int) = k := hfull
        omega
      rw [Push_discard less k w0 e m hge hm hme] at hw1
      simp only [Option.some.injEq, topK.mk.injEq, comparables.mk.injEq, and_true] at hw1
      subst hw1
      rcases hfinal e he with h | h
      · exact hys (hstored e h)
      · exact hzs h
    · intro he e' he' h1 h2
      have he1 : e ∈ w1 := by
        rcases hfinal e he with h | h
        · exact h
        · exact absurd h hzs
      obtain ⟨_, d, hd, hord⟩ := hsel0 swo
      by_cases hlt : (w0.length : Int) < k
      · -- nothing was left out before `e` arrived
        have hl := hd.length_eq
        simp only [List.length_append] at hl
        have hdn : d = [] := List.eq_nil_of_length_eq_zero (by omega)
        subst hdn
        have hd' : List.Perm ys w0 := by simpa using hd
        exact hd'.subset he'
      · obtain ⟨m, hm⟩ := getElem?_some_of_lt w0 0 (by omega)
        cases hme : less m e with
        | false =>
          rw [Push_discard less k w0 e m hlt hm hme] at hw1
          simp only [Option.some.injEq, topK.mk.injEq, comparables.mk.injEq,
            and_true] at hw1
          subst hw1
          exact absurd (hstored e he1) hys
        | true =>
          rcases List.mem_append.mp (hd.subset he') with h | h
          · exact h
          · have hme' : less m e' = false := hord m (List.getElem?_mem hm) e' h
            have := swo.not_less_trans hme' h2
            rw [hme] at this
            exact absurd this (by decide)
  · intro hk1
    subst hk1
    cases xs with
    | nil => simp at hn
    | cons c xs' =>
      rw [run_one less c xs'] at hw
      simp only [Option.some.injEq, topK.mk.injEq, comparables.mk.injEq, and_true] at hw
      obtain ⟨T, hT⟩ := stableSortDesc_head swo xs' c
      rw [hT]
      simp only [topK.Get]
      rw [← hw]
      rfl

/-- C8 (amended) at `k = 2` on the three tagged elements. -/
theorem C8_ties_keep_the_retained_witness :
    (1 : Int) ≤ 2 ∧ StrictWeakOrder keyLess ∧
    (2 : Int) ≤ (([(1, 0), (1, 1), (5, 2)] : List (Nat × Nat)).length : Int) ∧
    ([(1, 0), (1, 1), (5, 2)] : List (Nat × Nat)).Nodup ∧
    ∃ t, run 2 keyLess [(1, 0), (1, 1), (5, 2)] = some t ∧
      (∃ s, List.Perm s [(1, 0), (1, 1), (5, 2)] ∧
        s.Pairwise (fun a b => keyLess a b = false) ∧
        (t.Get : Multiset (Nat × Nat)) = ((s.take (2 : Int).toNat : List (Nat × Nat)) :
          Multiset (Nat × Nat))) ∧
      (∀ ys e zs, [(1, 0), (1, 1), (5, 2)] = ys ++ e :: zs →
        ∃ t0, run 2 keyLess ys = some t0 ∧
        (∀ m, (t0.Len : Int) = t0.K → t0.Peek = some m → keyLess m e = false →
          e ∉ t.Get) ∧
        (e ∈ t.Get → ∀ e', e' ∈ ys → keyLess e e' = false → keyLess e' e = false →
          e' ∈ t0.Get)) ∧
      ((2 : Int) = 1 → t.Get = (stableSortDesc keyLess [(1, 0), (1, 1), (5, 2)]).take 1) :=
  ⟨by decide, keyLess_swo, by decide, by decide,
    C8_ties_keep_the_retained 2 (by decide) keyLess keyLess_swo
      [(1, 0), (1, 1), (5, 2)] (by decide) (by decide)⟩

/-- The stable tie-break at `k = 1`: of the tied elements `(1,0)` and `(1,1)` the earlier
one is kept, in both arrival orders. -/
theorem tie_break_at_capacity_one :
    (run 1 keyLess [(1, 0), (1, 1), (0, 2)]).map topK.Get = some [(1, 0)] ∧
    (stableSortDesc keyLess [(1, 0), (1, 1), (0, 2)]).take 1 = [(1, 0)] ∧
    (run 1 keyLess [(1, 1), (1, 0), (0, 2)]).map topK.Get = some [(1, 1)] ∧
    (stableSortDesc keyLess [(1, 1), (1, 0), (0, 2)]).take 1 = [(1, 1)] := by
  decide

/-- C9: for every container `t` with `t.Len() < t.K()` and every `x`, `Push(t, x)` returns;
afterwards the multiset of `t.Get()` is the previous one plus one occurrence of `x`, and
`t.Len()` has grown by exactly one, whatever the comparator says. -/
theorem C9_filling_insert (t : topK α) (x : α) (h : (t.Len : Int) < t.K) :
    ∃ t', Push t x = some t' ∧
      (t'.Get : Multiset α) = (t.Get : Multiset α) + {x} ∧ t'.Len = t.Len + 1 := by
  obtain ⟨⟨v, less⟩, k⟩ := t
  obtain ⟨w, hw, hperm, _⟩ := Push_fill less k v x h
  refine ⟨_, hw, ?_, ?_⟩
  · show (w : Multiset α) = (v : Multiset α) + {x}
    rw [← Multiset.coe_singleton, Multiset.coe_add]
    exact Multiset.coe_eq_coe.mpr (hperm.trans (List.perm_append_singleton x v).symm)
  · show w.length = v.length + 1
    rw [hperm.length_eq]
    rfl

/-- C9 on the container `[5, 6]` of capacity three and the element `2`. -/
theorem C9_filling_insert_witness :
    ((⟨⟨[5, 6], IntComparator⟩, 3⟩ : topK Int).Len : Int) < 3 ∧
    ∃ t', Push (⟨⟨[5, 6], IntComparator⟩, 3⟩ : topK Int) 2 = some t' ∧
      (t'.Get : Multiset Int) = (([5, 6] : List Int) : Multiset Int) + {2} ∧
      t'.Len = 2 + 1 :=
  ⟨by decide, C9_filling_insert ⟨⟨[5, 6], IntComparator⟩, 3⟩ 2 (by decide)⟩

/-- C10: for every container `t` reached from `New(k, less)` by pushes, with `less` a
strict weak ordering and `t.Len() = t.K() ≥ 1`, and every `x` with `less(t.Peek(), x)`
true, `Push(t, x)` returns; afterwards the multiset of `t.Get()` is the previous one with
one occurrence of the previous `t.Peek()` removed and one occurrence of `x` added, and
`t.Len()` is unchanged. -/
theorem C10_saturated_replace [DecidableEq α] (k : Int) (less : Less α)
    (_swo : StrictWeakOrder less) (t : topK α) (ht : Reachable k less t) (x m : α)
    (hfull : (t.Len : Int) = t.K) (hk : 1 ≤ t.K)
    (hm : t.Peek = some m) (hx : less m x = true) :
    ∃ t', Push t x = some t' ∧
      (t'.Get : Multiset α) = (t.Get : Multiset α).erase m + {x} ∧ t'.Len = t.Len := by
  obtain ⟨_, xs, v, rfl, _⟩ := reachable_retains less k t ht
  have hge : ¬ (v.length : Int) < k := by
    have : (v.length : Int) = k := hfull
    omega
  obtain ⟨w, hw, hperm, _⟩ := Push_replace less k v x m hge hm hx
  have hmv : m ∈ (v : Multiset α) := Multiset.mem_coe.mpr (List.getElem?_mem hm)
  have hms : m ::ₘ (w : Multiset α) = x ::ₘ (v : Multiset α) := by
    rw [Multiset.cons_coe, Multiset.cons_coe]
    exact Multiset.coe_eq_coe.mpr hperm
  refine ⟨_, hw, ?_, ?_⟩
  · show (w : Multiset α) = (v : Multiset α).erase m + {x}
    have h1 : (w : Multiset α) = (x ::ₘ (v : Multiset α)).erase m := by
      rw [← hms, Multiset.erase_cons_head]
    rw [h1, Multiset.erase_cons_tail_of_mem hmv, add_comm, Multiset.singleton_add]
  · show w.length = v.length
    have := hperm.length_eq
    simpa using this

/-- C10 on the container reached by pushing `5, 6, 2` with `k = 3`, and the element `4`. -/
theorem C10_saturated_replace_witness :
    StrictWeakOrder IntComparator ∧
    Reachable 3 IntComparator ⟨⟨[2, 6, 5], IntComparator⟩, 3⟩ ∧
    (⟨⟨[2, 6, 5], IntComparator⟩, 3⟩ : topK Int).Peek = some 2 ∧
    IntComparator 2 4 = true ∧
    ∃ t', Push (⟨⟨[2, 6, 5], IntComparator⟩, 3⟩ : topK Int) 4 = some t' ∧
      (t'.Get : Multiset Int) = (([2, 6, 5] : List Int) : Multiset Int).erase 2 + {4} ∧
      t'.Len = 3 :=
  ⟨intComparator_swo, ⟨[5, 6, 2], rfl⟩, rfl, by decide,
    C10_saturated_replace 3 IntComparator intComparator_swo ⟨⟨[2, 6, 5], IntComparator⟩, 3⟩
      ⟨[5, 6, 2], rfl⟩ 4 2 (by decide) (by decide) rfl (by decide)⟩

/-- Method `Peek` on a non-empty container returns the element at index 0. -/
theorem Peek_some_of_pos (t : topK α) (h : 0 < t.Len) : ∃ m, t.Peek = some m :=
  getElem?_some_of_lt t.values 0 h

/-- Function `heap.Pop` panics on an empty container. -/
theorem heap_Pop_empty (t : topK α) (h : t.Len = 0) : heap.Pop t = none := by
  simp [heap.Pop, h]

/-- C11: for every non-empty container reached from `New(k, less)` by pushes, with `less`
a strict weak ordering, `t.Peek()` returns an element of `t.Get()`, and no element of
`t.Get()` is less than it. -/
theorem C11_peek_is_minimum (k : Int) (less : Less α) (swo : StrictWeakOrder less)
    (t : topK α) (ht : Reachable k less t) (hne : 0 < t.Len) :
    ∃ m, t.Peek = some m ∧ m ∈ t.Get ∧ ∀ v, v ∈ t.Get → less v m = false := by
  obtain ⟨_, xs, w, rfl, _, hsel⟩ := reachable_retains less k t ht
  obtain ⟨hheap, _⟩ := hsel swo
  obtain ⟨m, hm⟩ := getElem?_some_of_lt w 0 hne
  exact ⟨m, hm, List.getElem?_mem hm, root_min swo w m hheap hm⟩

/-- C11 on the container reached by pushing `5, 6, 2, 4, 2` with `k = 3`. -/
theorem C11_peek_is_minimum_witness :
    StrictWeakOrder IntComparator ∧
    Reachable 3 IntComparator ⟨⟨[4, 6, 5], IntComparator⟩, 3⟩ ∧
    0 < (⟨⟨[4, 6, 5], IntComparator⟩, 3⟩ : topK Int).Len ∧
    ∃ m, (⟨⟨[4, 6, 5], IntComparator⟩, 3⟩ : topK Int).Peek = some m ∧
      m ∈ (⟨⟨[4, 6, 5], IntComparator⟩, 3⟩ : topK Int).Get ∧
      ∀ v, v ∈ (⟨⟨[4, 6, 5], IntComparator⟩, 3⟩ : topK Int).Get →
        IntComparator v m = false :=
  ⟨intComparator_swo, ⟨[5, 6, 2, 4, 2], rfl⟩, by decide,
    C11_peek_is_minimum 3 IntComparator intComparator_swo _ ⟨[5, 6, 2, 4, 2], rfl⟩
      (by decide)⟩

/-- C13: for every container reached from `New(k, less)` by pushes, with `less` a strict
weak ordering and `t.Len() = t.K() ≥ 1`, and every `x`: `Push(t, x)` returns, the container
is still non-empty, and the new `t.Peek()` is not less than the old one. -/
theorem C13_monotonic_minimum (k : Int) (less : Less α) (swo : StrictWeakOrder less)
    (t : topK α) (ht : Reachable k less t) (x m : α)
    (hfull : (t.Len : Int) = t.K) (hk : 1 ≤ t.K) (hm : t.Peek = some m) :
    ∃ t' m', Push t x = some t' ∧ t'.Peek = some m' ∧ less m' m = false := by
  obtain ⟨_, xs, v, rfl, _, hsel⟩ := reachable_retains less k t ht
  obtain ⟨hheap, _⟩ := hsel swo
  have hge : ¬ (v.length : Int) < k := by
    have : (v.length : Int) = k := hfull
    omega
  cases hmx : less m x with
  | false =>
    exact ⟨_, m, Push_discard less k v x m hge hm hmx, hm, swo.irrefl m⟩
  | true =>
    obtain ⟨w, hw, hperm, hheap'⟩ := Push_replace less k v x m hge hm hmx
    have hwl : 0 < w.length := by
      have h1 := hperm.length_eq
      have h2 : 0 < v.length := (List.getElem?_eq_some_iff.mp hm).1
      simp only [List.length_cons] at h1
      omega
    obtain ⟨m', hm'⟩ := getElem?_some_of_lt w 0 hwl
    refine ⟨_, m', hw, hm', ?_⟩
    have hmem : m' ∈ x :: v := hperm.subset (List.mem_cons_of_mem m (List.getElem?_mem hm'))
    rcases List.mem_cons.mp hmem with h | h
    · subst h; exact swo.asymm hmx
    · exact root_min swo v m hheap hm m' h

/-- C13 on the container reached by pushing `5, 6, 2` with `k = 3`, and the element `4`. -/
theorem C13_monotonic_minimum_witness :
    StrictWeakOrder IntComparator ∧
    Reachable 3 IntComparator ⟨⟨[2, 6, 5], IntComparator⟩, 3⟩ ∧
    (⟨⟨[2, 6, 5], IntComparator⟩, 3⟩ : topK Int).Peek = some 2 ∧
    ∃ t' m', Push (⟨⟨[2, 6, 5], IntComparator⟩, 3⟩ : topK Int) 4 = some t' ∧
      t'.Peek = some m' ∧ IntComparator m' 2 = false :=
  ⟨intComparator_swo, ⟨[5, 6, 2], rfl⟩, rfl,
    C13_monotonic_minimum 3 IntComparator intComparator_swo ⟨⟨[2, 6, 5], IntComparator⟩, 3⟩
      ⟨[5, 6, 2], rfl⟩ 4 2 (by decide) (by decide) rfl⟩

/-- C14 as stated fails in both directions.  At `k = 0`, `New(0, IntComparator)` returns a
container (whatever the limit of `make`), pushes into it return and leave it empty, and
`Get` returns the empty sequence.  At the positive capacity `k = 2^63 - 1`, `make` panics
with "cap out of range" (here with the limit `2^44` of a 64-bit platform), so `New` returns
no container. -/
theorem C14_zero_capacity_counterexample :
    (0 : Int) ≤ 0 ∧
    New 0 IntComparator = some ⟨⟨[], IntComparator⟩, 0⟩ ∧
    NewWithin 0 0 IntComparator = some ⟨⟨[], IntComparator⟩, 0⟩ ∧
    NewWithin 17592186044416 0 IntComparator = some ⟨⟨[], IntComparator⟩, 0⟩ ∧
    (New 0 IntComparator).map topK.K = some 0 ∧
    (run 0 IntComparator [5, 6, 2]).map topK.Get = some [] ∧
    (run 0 IntComparator [5, 6, 2]).bind (Get sort.xorshiftNext) = some [] ∧
    (0 : Int) < 9223372036854775807 ∧
    (NewWithin 17592186044416 9223372036854775807 IntComparator).isNone = true := by
  refine ⟨by decide, rfl, rfl, rfl, rfl, by decide, by decide, by decide, by decide⟩

/-- The function `New` with the limit of `make` is `New` for every capacity within the
limit. -/
theorem NewWithin_eq_New (maxCap : Nat) (k : Int) (less : Less α) (h : k ≤ (maxCap : Int)) :
    NewWithin maxCap k less = New k less := by
  unfold NewWithin makeSlice New
  by_cases hk : k < 0
  · simp [hk]
  · have h2 : ¬ (maxCap : Int) < k := by omega
    simp [hk, h2]

/-- C14, amended: `New(k, less)` panics inside `make` for every `k < 0` and for every `k`
above the largest capacity `maxCap` that `make` accepts; for every `k` with
`0 ≤ k ≤ maxCap`, zero included, it returns an empty container with `K() = k`, and every
sequence of pushes into that container returns. -/
theorem C14_new_capacity (maxCap : Nat) (k : Int) (less : Less α) :
    (k < 0 → NewWithin maxCap k less = none ∧ New k less = none) ∧
    ((maxCap : Int) < k → NewWithin maxCap k less = none) ∧
    (0 ≤ k → k ≤ (maxCap : Int) →
      ∃ t, NewWithin maxCap k less = some t ∧ New k less = some t ∧
        t.Get = [] ∧ t.Len = 0 ∧ t.K = k ∧ ∀ xs, ∃ t', pushAll t xs = some t') := by
  refine ⟨fun hk => ⟨by simp [NewWithin, makeSlice, hk], by simp [New, hk]⟩,
    fun hk => by simp [NewWithin, makeSlice, hk], fun hk hle => ?_⟩
  have hk' : ¬ k < 0 := by omega
  have hnew : New k less = some ⟨⟨[], less⟩, k⟩ := by simp [New, hk']
  refine ⟨⟨⟨[], less⟩, k⟩, (NewWithin_eq_New maxCap k less hle).trans hnew, hnew, rfl, rfl,
    rfl, fun xs => ?_⟩
  obtain ⟨w, hw, _⟩ := run_retains less k hk xs
  simp only [run, New, hk', if_false] at hw
  exact ⟨_, hw⟩

/-- C14 (amended) with the limit `2^44`: at `k = -1`, at `k = 2^63 - 1`, at `k = 0` and
at `k = 3`. -/
theorem C14_new_capacity_witness :
    (NewWithin 17592186044416 (-1) IntComparator = none ∧ New (-1) IntComparator = none) ∧
    NewWithin 17592186044416 9223372036854775807 IntComparator = none ∧
    (∃ t, NewWithin 17592186044416 0 IntComparator = some t ∧
      New 0 IntComparator = some t ∧ t.Get = [] ∧ t.Len = 0 ∧ t.K = 0 ∧
      ∀ xs, ∃ t', pushAll t xs = some t') ∧
    ∃ t, NewWithin 17592186044416 3 IntComparator = some t ∧
      New 3 IntComparator = some t ∧ t.Get = [] ∧ t.Len = 0 ∧ t.K = 3 ∧
      ∀ xs, ∃ t', pushAll t xs = some t' :=
  ⟨(C14_new_capacity 17592186044416 (-1) IntComparator).1 (by decide),
    (C14_new_capacity 17592186044416 9223372036854775807 IntComparator).2.1 (by decide),
    (C14_new_capacity 17592186044416 0 IntComparator).2.2 (by decide) (by decide),
    (C14_new_capacity 17592186044416 3 IntComparator).2.2 (by decide) (by decide)⟩

/-- C15: for every container `t`, `t.Peek()` panics if and only if `t.Len() = 0`; when
`t.Len() > 0` it returns the element at index 0 of `t.Get()`. -/
theorem C15_peek_fails_iff_empty (t : topK α) :
    (t.Peek = none ↔ t.Len = 0) ∧
    ∀ h : 0 < t.Get.length, t.Peek = some (t.Get.get ⟨0, h⟩) := by
  obtain ⟨⟨v, less⟩, k⟩ := t
  cases v with
  | nil => simp [topK.Peek, topK.Len, comparables.Len, topK.Get]
  | cons a v => simp [topK.Peek, topK.Len, comparables.Len, topK.Get]

/-- C15 on an empty container and on the container `[4, 6, 5]`. -/
theorem C15_peek_fails_iff_empty_witness :
    (⟨⟨[], IntComparator⟩, 3⟩ : topK Int).Peek = none ∧
    (⟨⟨[4, 6, 5], IntComparator⟩, 3⟩ : topK Int).Peek = some 4 :=
  ⟨(C15_peek_fails_iff_empty ⟨⟨[], IntComparator⟩, 3⟩).1.mpr rfl,
    (C15_peek_fails_iff_empty ⟨⟨[4, 6, 5], IntComparator⟩, 3⟩).2 (by decide)⟩

/-- C16: for every `k ≥ 0`, comparator, container reached from `New(k, less)` by pushes and
`x`, `Push(t, x)` returns.  On an empty container `Peek` and `heap.Pop` would panic, so they
are not reached there, also when `k = 0`. -/
theorem C16_push_never_fails (k : Int) (hk : 0 ≤ k) (less : Less α) (xs : List α) (x : α) :
    ∃ t, run k less xs = some t ∧
      (∃ t', Push t x = some t') ∧
      (t.Len = 0 → t.Peek = none ∧ heap.Pop t = none) := by
  obtain ⟨w, hw, _⟩ := run_retains less k hk xs
  obtain ⟨w', hw'⟩ := Push_total less k w x
  refine ⟨_, hw, ⟨_, hw'⟩, fun h0 => ⟨?_, heap_Pop_empty _ h0⟩⟩
  have hnil : w = [] := List.eq_nil_of_length_eq_zero h0
  subst hnil
  rfl

/-- C16 at `k = 0`: the container is empty and full at once, and `Push` returns. -/
theorem C16_push_never_fails_witness :
    (0 : Int) ≤ 0 ∧
    ∃ t, run 0 IntComparator [5, 6] = some t ∧
      (∃ t', Push t 2 = some t') ∧
      (t.Len = 0 → t.Peek = none ∧ heap.Pop t = none) :=
  ⟨by decide, C16_push_never_fails 0 (by decide) IntComparator [5, 6] 2⟩

/-- C17: for every container reached from `New(k, less)` by pushes and every `x`, `Push(t,
x)` returns a container whose `Len()` is at least the old one, with the same `K()`; if
`t.Len() = t.K()` before the push, then `t.Len() = t.K()` after it. -/
theorem C17_no_way_back_to_filling (k : Int) (less : Less α) (t : topK α)
    (ht : Reachable k less t) (x : α) :
    ∃ t', Push t x = some t' ∧ t.Len ≤ t'.Len ∧ t'.K = t.K ∧
      ((t.Len : Int) = t.K → (t'.Len : Int) = t'.K) := by
  obtain ⟨_, xs, v, rfl, _, _⟩ := reachable_retains less k t ht
  by_cases hlt : (v.length : Int) < k
  · obtain ⟨w, hw, hperm, _⟩ := Push_fill less k v x hlt
    have hl : w.length = v.length + 1 := by rw [hperm.length_eq]; rfl
    refine ⟨_, hw, ?_, rfl, ?_⟩
    · show v.length ≤ w.length
      omega
    · intro hfull
      have : (v.length : Int) = k := hfull
      omega
  · cases v with
    | nil =>
      exact ⟨_, Push_empty_full less k x (by simpa using hlt), Nat.le_refl _, rfl, fun h => h⟩
    | cons m v' =>
      have h0 : (m :: v')[0]? = some m := by simp
      cases hmx : less m x with
      | true =>
        obtain ⟨w, hw, hperm, _⟩ := Push_replace less k (m :: v') x m hlt h0 hmx
        have hl : w.length = (m :: v').length := by
          have := hperm.length_eq
          simp only [List.length_cons] at this ⊢
          omega
        refine ⟨_, hw, ?_, rfl, ?_⟩
        · show (m :: v').length ≤ w.length
          omega
        · intro hfull
          have h1 : (((m :: v').length : Nat) : Int) = k := hfull
          show (w.length : Int) = k
          omega
      | false =>
        exact ⟨_, Push_discard less k (m :: v') x m hlt h0 hmx, Nat.le_refl _, rfl,
          fun h => h⟩

/-- C17 on the saturated container reached by pushing `5, 6, 2` with `k = 3`. -/
theorem C17_no_way_back_to_filling_witness :
    Reachable 3 IntComparator ⟨⟨[2, 6, 5], IntComparator⟩, 3⟩ ∧
    ∃ t', Push (⟨⟨[2, 6, 5], IntComparator⟩, 3⟩ : topK Int) 4 = some t' ∧
      (⟨⟨[2, 6, 5], IntComparator⟩, 3⟩ : topK Int).Len ≤ t'.Len ∧
      t'.K = (⟨⟨[2, 6, 5], IntComparator⟩, 3⟩ : topK Int).K ∧
      ((((⟨⟨[2, 6, 5], IntComparator⟩, 3⟩ : topK Int).Len : Int) =
          (⟨⟨[2, 6, 5], IntComparator⟩, 3⟩ : topK Int).K) → (t'.Len : Int) = t'.K) :=
  ⟨⟨[5, 6, 2], rfl⟩,
    C17_no_way_back_to_filling 3 IntComparator ⟨⟨[2, 6, 5], IntComparator⟩, 3⟩
      ⟨[5, 6, 2], rfl⟩ 4⟩

/-- C18: for every `k ≥ 0`, strict weak ordering `less` and list `xs` pushed into `New(k,
less)`, the storage `v = t.Get()` is a binary min-heap: for every index `i` with
`1 ≤ i < len(v)`, `less(v[i], v[(i-1)/2])` is false. -/
theorem C18_heap_invariant (k : Int) (hk : 0 ≤ k) (less : Less α)
    (swo : StrictWeakOrder less) (xs : List α) :
    ∃ t, run k less xs = some t ∧
      ∀ (i : Nat) (_ : 1 ≤ i) (hl : i < t.Get.length),
        less (t.Get.get ⟨i, hl⟩) (t.Get.get ⟨(i - 1) / 2, by omega⟩) = false := by
  obtain ⟨w, hw, _, hsel⟩ := run_retains less k hk xs
  obtain ⟨hheap, _⟩ := hsel swo
  refine ⟨_, hw, ?_⟩
  intro i hi hl
  have hl' : i < w.length := hl
  exact hheap i hi hl' _ _ (List.getElem?_eq_getElem hl') (List.getElem?_eq_getElem (by omega))

/-- C18 at `k = 3` with the inputs `5, 6, 2, 4, 2`. -/
theorem C18_heap_invariant_witness :
    (0 : Int) ≤ 3 ∧ StrictWeakOrder IntComparator ∧
    ∃ t, run 3 IntComparator [5, 6, 2, 4, 2] = some t ∧
      ∀ (i : Nat) (_ : 1 ≤ i) (hl : i < t.Get.length),
        IntComparator (t.Get.get ⟨i, hl⟩) (t.Get.get ⟨(i - 1) / 2, by omega⟩) = false :=
  ⟨by decide, intComparator_swo,
    C18_heap_invariant 3 (by decide) IntComparator intComparator_swo [5, 6, 2, 4, 2]⟩

/-- The first case of `TestComparablesSort`: length, one comparison, one swap, the sort. -/
theorem testComparablesSort :
    (⟨[5, 6, 2, 4, 2], IntComparator⟩ : comparables Int).Len = 5 ∧
    (⟨[5, 6, 2, 4, 2], IntComparator⟩ : comparables Int).Less 0 1 = some true ∧
    ((⟨[5, 6, 2, 4, 2], IntComparator⟩ : comparables Int).Swap 0 1).map comparables.values =
      some [6, 5, 2, 4, 2] ∧
    (sort.Sort_ sort.xorshiftNext (comparables.sortInterface Int) ⟨[6, 5, 2, 4, 2], IntComparator⟩).map
      comparables.values = some [2, 2, 4, 5, 6] := by
  decide

/-- The sort and `Get` on more than twelve elements, where `sort.Sort` leaves the
insertion sort for the quicksort loop. -/
theorem testSortLong :
    (sort.Sort_ sort.xorshiftNext (comparables.sortInterface Int)
      ⟨[9, 3, 14, 1, 12, 7, 3, 16, 5, 11, 2, 15, 8, 13, 4, 10, 6], IntComparator⟩).map
      comparables.values = some [1, 2, 3, 3, 4, 5, 6, 7, 8, 9, 10, 11, 12, 13, 14, 15, 16] ∧
    (run 14 IntComparator [9, 3, 14, 1, 12, 7, 3, 16, 5, 11, 2, 15, 8, 13, 4, 10, 6]).bind
      (Get sort.xorshiftNext) = some [16, 15, 14, 13, 12, 11, 10, 9, 8, 7, 6, 5, 4, 3] := by
  decide

/-- C20: for every list `vs` and strict weak ordering `less`, `sort.Sort` run on
`comparables{vs, less}` returns a permutation of `vs` in which, for all `i < j`,
`less(values[j], values[i])` is false; with `IntComparator` the result is exactly the
ascending sort.  This holds for every generator `next` of the sort. -/
theorem C20_comparables_sort_ascending (next : Nat → Nat) (less : Less α)
    (swo : StrictWeakOrder less) (vs : List α) :
    (∃ w, sort.Sort_ next (comparables.sortInterface α) ⟨vs, less⟩ = some ⟨w, less⟩ ∧
      List.Perm w vs ∧
      ∀ (i j : Nat) (a b : α), i < j → w[i]? = some a → w[j]? = some b →
        less b a = false) ∧
    (∀ ints : List Int, sort.Sort_ next (comparables.sortInterface Int) ⟨ints, IntComparator⟩ =
      some ⟨sortAscending ints, IntComparator⟩) := by
  refine ⟨?_, ?_⟩
  · obtain ⟨w, hw, hperm, hasc⟩ := Sort_spec next (drives_sortInterface less) vs
    refine ⟨w, hw, hperm, ?_⟩
    intro i j a b hij ha hb
    obtain ⟨hi, rfl⟩ := List.getElem?_eq_some_iff.mp ha
    obtain ⟨hj, rfl⟩ := List.getElem?_eq_some_iff.mp hb
    exact List.pairwise_iff_getElem.mp (hasc swo) i j hi hj hij
  · intro ints
    obtain ⟨w, hw, hperm, hasc⟩ := Sort_spec next (drives_sortInterface IntComparator) ints
    have hsorted : List.Sorted (fun a b : Int => a ≤ b) w := by
      refine (hasc intComparator_swo).imp ?_
      intro a b hab
      simp only [IntComparator, decide_eq_false_iff_not] at hab
      omega
    have heq : sortAscending ints = w :=
      List.eq_of_perm_of_sorted ((List.perm_insertionSort _ ints).trans hperm.symm)
        (List.sorted_insertionSort _ ints) hsorted
    rw [hw, heq]

/-- C20 on the slice of `TestComparablesSort` after its swap. -/
theorem C20_comparables_sort_ascending_witness :
    StrictWeakOrder IntComparator ∧
    (∃ w, sort.Sort_ sort.xorshiftNext (comparables.sortInterface Int) ⟨[6, 5, 2, 4, 2], IntComparator⟩ =
        some ⟨w, IntComparator⟩ ∧
      List.Perm w [6, 5, 2, 4, 2] ∧
      ∀ (i j : Nat) (a b : Int), i < j → w[i]? = some a → w[j]? = some b →
        IntComparator b a = false) ∧
    sort.Sort_ sort.xorshiftNext (comparables.sortInterface Int) ⟨[6, 5, 2, 4, 2], IntComparator⟩ =
      some ⟨[2, 2, 4, 5, 6], IntComparator⟩ :=
  ⟨intComparator_swo,
    (C20_comparables_sort_ascending sort.xorshiftNext IntComparator intComparator_swo [6, 5, 2, 4, 2]).1,
    (C20_comparables_sort_ascending sort.xorshiftNext IntComparator intComparator_swo [6, 5, 2, 4, 2]).2
      [6, 5, 2, 4, 2]⟩

/-! ### The store embedding refines the value embedding -/

/-- Method `Swap` of the adapter keeps the comparator. -/
theorem comparables_Swap_isLess (c c' : comparables α) (i j : Nat)
    (h : c.Swap i j = some c') : c'.isLess = c.isLess := by
  unfold comparables.Swap at h
  split at h
  · simp only [Option.some.injEq] at h
    subst h
    rfl
  · exact absurd h (by simp)

/-- Function `Get` over the store returns what `Get` returns on the value of the container,
allocates one backing array, and leaves every array that existed before as it was. -/
theorem stored_Get_spec (next : Nat → Nat) (s : stored.Store α) (t : stored.topK α)
    (c : topK α)
    (hc : t.load s = some c) :
    ∃ res s2, stored.Get next s t = some (res, s2) ∧ Get next c = some res ∧
      s2.length = s.length + 1 ∧ ∀ a, a < s.length → s2[a]? = s[a]? := by
  unfold stored.topK.load at hc
  cases hv : s[t.values]? with
  | none => rw [hv] at hc; exact absurd hc (by simp)
  | some v =>
    rw [hv] at hc
    simp only [Option.some.injEq] at hc
    subst hc
    obtain ⟨w, hw, _, _⟩ := Sort_spec next (drives_reverse t.isLess) v
    have hrel : Simulates (sort.Reverse (stored.comparables.sortInterface α))
        (sort.Reverse (comparables.sortInterface α))
        (fun d c' => d.2.values = s.length ∧ d.2.isLess = t.isLess ∧ c'.isLess = t.isLess ∧
          d.1[s.length]? = some c'.values ∧ d.1.length = s.length + 1 ∧
          ∀ a, a < s.length → d.1[a]? = s[a]?) := by
      refine ⟨?_, ?_, ?_⟩
      · rintro ⟨st, d⟩ ⟨cv, cl⟩ ⟨h1, h2, h3, h4, _, _⟩
        simp only at h1 h2 h3 h4
        subst h3
        simp [sort.Reverse, stored.comparables.sortInterface, stored.comparables.Len,
          stored.comparables.load, comparables.sortInterface, h1, h4, comparables.Len]
      · rintro ⟨st, d⟩ ⟨cv, cl⟩ i j ⟨h1, h2, h3, h4, _, _⟩
        simp only at h1 h2 h3 h4
        subst h3
        simp [sort.Reverse, stored.comparables.sortInterface, stored.comparables.Less,
          stored.comparables.load, comparables.sortInterface, h1, h2, h4]
      · rintro ⟨st, d⟩ ⟨cv, cl⟩ i j c1 ⟨h1, h2, h3, h4, h5, h6⟩ hsw
        simp only at h1 h2 h3 h4 h5 h6
        subst h3
        have hsw' : comparables.Swap ⟨cv, d.isLess⟩ i j = some c1 := by
          simpa [sort.Reverse, comparables.sortInterface, h2] using hsw
        have hl1 := comparables_Swap_isLess _ _ i j hsw'
        refine ⟨(st.set s.length c1.values, d), ?_, ?_⟩
        · simp [sort.Reverse, stored.comparables.sortInterface, stored.comparables.Swap,
            stored.comparables.load, h1, h4, hsw']
        · refine ⟨h1, h2, by simpa [h2] using hl1, ?_, by simpa using h5, ?_⟩
          · simp only
            rw [List.getElem?_set_self (by omega)]
          · intro a ha
            simp only
            rw [List.getElem?_set_ne (by omega)]
            exact h6 a ha
    have hsim := Sort_sim next hrel (s ++ [v], ⟨s.length, t.isLess⟩) ⟨v, t.isLess⟩ ⟨w, t.isLess⟩
      ⟨rfl, rfl, rfl, by simp, by simp, fun a ha => List.getElem?_append_left ha⟩ hw
    obtain ⟨⟨s2, c2⟩, hrun, h1, _, _, h4, h5, h6⟩ := hsim
    simp only at h1 h4 h5 h6
    refine ⟨w, s2, ?_, ?_, h5, h6⟩
    · have hIsLess : (stored.topK.IsLess t) = t.isLess := rfl
      simp only [stored.Get, stored.topK.Get, hv, hIsLess, hrun, h1, h4]
    · have hcmp : (⟨v, topK.IsLess ⟨⟨v, t.isLess⟩, t.k⟩⟩ : comparables α) = ⟨v, t.isLess⟩ := rfl
      simp only [Get, topK.Get, hcmp, hw]

/-- C12: for every container `t` (a container whose storage lives in the store `s`, with
value `c`), the package-level `Get(t)` returns and leaves the storage sequence `t.Get()`,
and with it `t.Len()` and `t.Peek()`, exactly as they were; a second call right after the
first returns the same sequence, again without touching the storage.  This holds for
every generator `next` of the sort. -/
theorem C12_get_is_read_only (next : Nat → Nat) (s : stored.Store α)
    (t : stored.topK α) (c : topK α) (hc : t.load s = some c) :
    ∃ res s1 s2, stored.Get next s t = some (res, s1) ∧
      s1[t.Get]? = s[t.Get]? ∧ t.load s1 = some c ∧
      (stored.topK.Peek s1 t).map Prod.fst = (stored.topK.Peek s t).map Prod.fst ∧
      Get next c = some res ∧
      stored.Get next s1 t = some (res, s2) ∧ s2[t.Get]? = s[t.Get]? ∧ t.load s2 = some c := by
  have haddr : t.values < s.length := by
    unfold stored.topK.load at hc
    cases hv : s[t.values]? with
    | none => rw [hv] at hc; exact absurd hc (by simp)
    | some v => exact (List.getElem?_eq_some_iff.mp hv).1
  obtain ⟨res, s1, hget1, hval1, hlen1, hframe1⟩ := stored_Get_spec next s t c hc
  have hsame1 : s1[t.values]? = s[t.values]? := hframe1 _ haddr
  have hc1 : t.load s1 = some c := by
    unfold stored.topK.load at hc ⊢
    rw [hsame1]
    exact hc
  obtain ⟨res2, s2, hget2, hval2, _, hframe2⟩ := stored_Get_spec next s1 t c hc1
  have hres : res2 = res := by
    rw [hval1] at hval2
    exact (Option.some.inj hval2).symm
  subst hres
  have hsame2 : s2[t.values]? = s[t.values]? := by
    rw [hframe2 _ (by omega), hsame1]
  have hc2 : t.load s2 = some c := by
    unfold stored.topK.load at hc ⊢
    rw [hsame2]
    exact hc
  refine ⟨res2, s1, s2, hget1, hsame1, hc1, ?_, hval1, hget2, hsame2, hc2⟩
  unfold stored.topK.Peek
  rw [hsame1]
  cases s[t.values]? with
  | none => rfl
  | some v =>
    cases h0 : v[0]? with
    | none => simp [h0]
    | some x => simp [h0]

/-- C12 on the container `[4, 6, 5]` of capacity three, stored at address 0. -/
theorem C12_get_is_read_only_witness :
    (⟨⟨0, IntComparator⟩, 3⟩ : stored.topK Int).load [[4, 6, 5]] =
      some ⟨⟨[4, 6, 5], IntComparator⟩, 3⟩ ∧
    ∃ res s1 s2, stored.Get sort.xorshiftNext [[4, 6, 5]] (⟨⟨0, IntComparator⟩, 3⟩ : stored.topK Int) =
        some (res, s1) ∧
      s1[(⟨⟨0, IntComparator⟩, 3⟩ : stored.topK Int).Get]? =
        ([[4, 6, 5]] : stored.Store Int)[(⟨⟨0, IntComparator⟩, 3⟩ : stored.topK Int).Get]? ∧
      (⟨⟨0, IntComparator⟩, 3⟩ : stored.topK Int).load s1 =
        some ⟨⟨[4, 6, 5], IntComparator⟩, 3⟩ ∧
      (stored.topK.Peek s1 (⟨⟨0, IntComparator⟩, 3⟩ : stored.topK Int)).map Prod.fst =
        (stored.topK.Peek [[4, 6, 5]] (⟨⟨0, IntComparator⟩, 3⟩ : stored.topK Int)).map
          Prod.fst ∧
      Get sort.xorshiftNext (⟨⟨[4, 6, 5], IntComparator⟩, 3⟩ : topK Int) = some res ∧
      stored.Get sort.xorshiftNext s1 (⟨⟨0, IntComparator⟩, 3⟩ : stored.topK Int) = some (res, s2) ∧
      s2[(⟨⟨0, IntComparator⟩, 3⟩ : stored.topK Int).Get]? =
        ([[4, 6, 5]] : stored.Store Int)[(⟨⟨0, IntComparator⟩, 3⟩ : stored.topK Int).Get]? ∧
      (⟨⟨0, IntComparator⟩, 3⟩ : stored.topK Int).load s2 =
        some ⟨⟨[4, 6, 5], IntComparator⟩, 3⟩ :=
  ⟨rfl, C12_get_is_read_only sort.xorshiftNext [[4, 6, 5]] ⟨⟨0, IntComparator⟩, 3⟩
    ⟨⟨[4, 6, 5], IntComparator⟩, 3⟩ rfl⟩

/-- The run of `Get` over the store on the container `[4, 6, 5]` at address 0: the
result is `[6, 5, 4]`, sorted in a new backing array at address 1. -/
theorem stored_Get_example :
    (stored.Get sort.xorshiftNext [[4, 6, 5]] (⟨⟨0, IntComparator⟩, 3⟩ : stored.topK Int)) =
      some ([6, 5, 4], [[4, 6, 5], [6, 5, 4]]) := by
  decide

/-- C19 fails on the code: on the container reached by pushing `5, 6, 2, 4, 2` with
`k = 3`, whose storage is `[4, 6, 5]`, `t.Peek()` returns `4`, the element at index 0, and
the method `t.Pop()` returns `5`, the last element of the storage, and leaves `[4, 6]`. -/
theorem C19_peek_differs_from_method_pop :
    Reachable 3 IntComparator ⟨⟨[4, 6, 5], IntComparator⟩, 3⟩ ∧
    0 < (⟨⟨[4, 6, 5], IntComparator⟩, 3⟩ : topK Int).Len ∧
    (⟨⟨[4, 6, 5], IntComparator⟩, 3⟩ : topK Int).Peek = some 4 ∧
    ((⟨⟨[4, 6, 5], IntComparator⟩, 3⟩ : topK Int).Pop).map Prod.fst = some 5 ∧
    ((⟨⟨[4, 6, 5], IntComparator⟩, 3⟩ : topK Int).Pop).map (fun r => r.2.Get) =
      some [4, 6] ∧
    (⟨⟨[4, 6, 5], IntComparator⟩, 3⟩ : topK Int).Peek ≠
      ((⟨⟨[4, 6, 5], IntComparator⟩, 3⟩ : topK Int).Pop).map Prod.fst := by
  refine ⟨⟨[5, 6, 2, 4, 2], rfl⟩, by decide, rfl, rfl, rfl, by decide⟩

end claims

end topk
